import Mathlib

/-!
# LWE encryption layer (`src/binfhe/lib/lwe-pke.cpp`)

A shallow embedding of `LWEEncryptionScheme` and theorems about it.

Conventions of the embedding:

* `NativeInteger` values are natural numbers below `2 ^ NATIVEINT`.  The class
  itself (the math backend) is not part of `src/`; its operations are
  modelled below, each with the contract the backend documents for it.  The
  word size enters where the source leaves a value unreduced: the sums
  `b +=`, `inner +=` and `... + e`, and the products `NativeInteger(p) * r`,
  `m * (q >> 2)`, `value *= baseKS` and `j * digitsKS[k]` wrap modulo
  `2 ^ NATIVEINT`, and so do the `Fast` modular operations on an operand
  outside their contract.  The plaintext `m` and the plaintext modulus `p`,
  whose types are declared outside `src/`, are natural numbers.
* `double` values are binary64 numbers (`Double`); every conversion, product,
  quotient and sum is rounded to nearest, ties to even (`Double.round`).  The
  library function `log` is an argument of the embedding, as the samplers are.
* A division by zero and the read of `vec[0]` in an empty `std::vector` raise
  nothing and return nothing: they are the `CallFailure`s `division_by_zero`
  and `out_of_range_read`.  A coordinate read `v[i]` of a `NativeVector` is
  `NativeVector.at`, which is total and gives `0` past the end; the theorems
  carry the length hypotheses under which the reads of the source are in
  range, and `NativeVector.read` is used where a read out of range is the
  subject.
* A `NativeVector` is its list of coordinates together with its modulus tag.
* Every call to a random sampler is replaced by an extra argument holding the
  value that the call returned; theorems quantify over these arguments.
* `OPENFHE_THROW` is the failure `CallFailure.exception`.
* The `params` argument is kept wherever the source reads a field from it.
-/

namespace lbcrypto

set_option maxRecDepth 100000

/-! ## The math backend -/

/-- Modelled from the spec: `NativeVector`, the modular sequence type: a
fixed-length ordered sequence of modular integers sharing one modulus.  A
`NativeInteger`, the modular-integer type of the math backend (not under
`src/`), is a natural number. -/
structure NativeVector where
  /-- The coordinates (`m_data`). -/
  data : List Nat
  /-- The modulus tag (`m_modulus`). -/
  modulus : Nat
deriving DecidableEq, Repr

/-- The width in bits of a `NativeInteger` in the default build; the source
keeps a separate code path under `#if NATIVEINT == 32`. -/
def NATIVEINT : Nat := 64

/-- Modelled from the spec: `NativeInteger::Mod`, reduction modulo `modulus`. -/
def Mod (a modulus : Nat) : Nat := a % modulus

/-- Modelled from the spec: `NativeInteger::ModMulFast(b, modulus, mu)`, the
modular product computed with the precomputed reduction constant `mu`. -/
def ModMulFast (a b modulus : Nat) : Nat := (a * b) % modulus

/-- Modelled from the spec: `NativeInteger::ModMul(b, modulus)`, the modular
product; both operands are reduced first. -/
def ModMul (a b modulus : Nat) : Nat :=
  ((a % modulus) * (b % modulus)) % modulus

/-- Modelled from the spec: `NativeInteger::ModAddFast(b, modulus)`, modular
addition for operands already below `modulus`: one conditional subtraction.
For operands of the contract the sum stays in the word (the moduli of the
backend are shorter than the word); with an operand outside the contract the
sum wraps around the word size `2 ^ NATIVEINT` before it is compared. -/
def ModAddFast (a b modulus : Nat) : Nat :=
  let r := if a < modulus ∧ b < modulus then a + b else (a + b) % 2 ^ NATIVEINT
  if r ≥ modulus then r - modulus else r

/-- Modelled from the spec: `NativeInteger::ModAdd(b, modulus)`, modular
addition; both operands are reduced first. -/
def ModAdd (a b modulus : Nat) : Nat :=
  ModAddFast (a % modulus) (b % modulus) modulus

/-- Modelled from the spec: `NativeInteger::ModSubFast(b, modulus)`, modular
subtraction for operands already below `modulus`: one conditional addition.
The sum `a + modulus` minus `b` is an unsigned difference: when `b` exceeds
`a + modulus`, which the operands of the contract never do, it has no natural
value and wraps around the word size `2 ^ NATIVEINT`. -/
def ModSubFast (a b modulus : Nat) : Nat :=
  if a < b then
    if b ≤ a + modulus then a + modulus - b else a + modulus + 2 ^ NATIVEINT - b
  else a - b

/-- Modelled from the spec: `NativeVector::SwitchModulus`, which re-interprets
the coordinates under a new modulus, sign-preserving: a coordinate above half
the old modulus stands for a negative number and stays that negative number
under the new modulus. -/
def NativeVector.SwitchModulus (v : NativeVector) (newModulus : Nat) : NativeVector :=
  { data := v.data.map fun x =>
      if x > v.modulus / 2 then (((x : Int) - (v.modulus : Int)) % (newModulus : Int)).toNat
      else x % newModulus
    modulus := newModulus }

/-- The length of a vector (`GetLength`). -/
def NativeVector.GetLength (v : NativeVector) : Nat := v.data.length

/-- Coordinate `i` of a vector (`operator[]`). -/
def NativeVector.at (v : NativeVector) (i : Nat) : Nat := v.data.getD i 0

/-! ## Double precision -/

/-- A finite, non-negative binary64 number `m * 2 ^ e`.  The numbers of this
file are conversions of unsigned integers, their products, quotients and sums,
and values of `log` at arguments `>= 1`.  Signs, infinities, NaN, subnormal
numbers and the range of the exponent are not modelled. -/
structure Double where
  /-- The significand: `0`, or `2 ^ 52 <= m < 2 ^ 53` for a rounded number. -/
  m : Nat
  /-- The exponent of the unit in the last place. -/
  e : Int
deriving DecidableEq, Repr

/-- The number of binary digits of `n`, computed with `fuel` halvings. -/
def Double.bitLength : Nat → Nat → Nat
  | 0, _ => 0
  | fuel + 1, n => if n = 0 then 0 else Double.bitLength fuel (n / 2) + 1

/-- The position of the leading binary digit of `n`: `2 ^ log2 n <= n < 2 ^ (log2 n + 1)`
for `n > 0`. -/
def Double.log2 (n : Nat) : Nat := Double.bitLength n n - 1

/-- The integer nearest to the quotient `N2 / D2`, ties to the even integer:
the integer part `qf` is kept or increased by one according to the remainder
`r`. -/
def Double.nearest (N2 D2 : Nat) : Nat :=
  let qf := N2 / D2
  let r := N2 % D2
  if 2 * r < D2 then qf
  else if D2 < 2 * r then qf + 1
  else if qf % 2 = 0 then qf else qf + 1

/-- The binary64 number nearest to `N / D * 2 ^ s`, ties to the even
significand: the rounding that IEEE 754 prescribes for every operation.  The
quotient is scaled by a power of two so that its integer part has exactly 53
binary digits, and rounded to the nearest integer; a significand that reaches
`2 ^ 53` is renormalised.  A quotient by zero has no finite value; it is given
the value `0`. -/
def Double.round (N D : Nat) (s : Int) : Double :=
  if N = 0 ∨ D = 0 then { m := 0, e := 0 }
  else
    let k := 55 + Double.log2 D
    let N2 := N * 2 ^ k
    let er := Double.log2 (N2 / D) - 52
    let m := Double.nearest N2 (D * 2 ^ er)
    let e : Int := s - (k : Int) + (er : Int)
    if m = 2 ^ 53 then { m := 2 ^ 52, e := e + 1 } else { m := m, e := e }

/-- The conversion `ConvertToDouble()` / `static_cast<double>` of an unsigned
integer. -/
def Double.ofNat (v : Nat) : Double := Double.round v 1 0

/-- The product `x * y` of two doubles. -/
def Double.mul (x y : Double) : Double := Double.round (x.m * y.m) 1 (x.e + y.e)

/-- The quotient `x / y` of two doubles. -/
def Double.div (x y : Double) : Double := Double.round x.m y.m (x.e - y.e)

/-- The sum `x + y` of two doubles. -/
def Double.add (x y : Double) : Double :=
  let e := min x.e y.e
  Double.round (x.m * 2 ^ (x.e - e).toNat + y.m * 2 ^ (y.e - e).toNat) 1 e

/-- The constant `0.5`. -/
def Double.half : Double := { m := 2 ^ 52, e := -53 }

/-- `std::floor` of a double, as an integer. -/
def Double.floor (x : Double) : Nat :=
  if 0 ≤ x.e then x.m * 2 ^ x.e.toNat else x.m / 2 ^ (-x.e).toNat

/-- `std::ceil` of a double, as an integer. -/
def Double.ceil (x : Double) : Nat :=
  if 0 ≤ x.e then x.m * 2 ^ x.e.toNat
  else (x.m + 2 ^ (-x.e).toNat - 1) / 2 ^ (-x.e).toNat

/-! ## Keys, ciphertexts, parameters -/

/-- The error classes raised through `OPENFHE_THROW`. -/
inductive OpenFHEError where
  | not_implemented_error (msg : String)
deriving DecidableEq, Repr

/-- The ways a call can end without returning a value: an exception raised by
`OPENFHE_THROW`; a read past the end of a vector, which C++ leaves undefined
and which raises nothing; an integer division by zero, which raises no
exception either. -/
inductive CallFailure where
  | exception (e : OpenFHEError)
  | out_of_range_read
  | division_by_zero
deriving DecidableEq, Repr

/-- The read `v[i]` of `std::vector::operator[]`, which does not test its
index. -/
def vectorRead {α : Type} (v : List α) (i : Nat) : Except CallFailure α :=
  match v.get? i with
  | some x => .ok x
  | none => .error .out_of_range_read

/-- The fields of `LWECryptoParams` that the scheme reads. -/
structure LWECryptoParams where
  /-- Lattice parameter of the additive LWE scheme (`Getn`). -/
  n : Nat
  /-- Ring dimension (`GetN`). -/
  N : Nat
  /-- Ciphertext modulus of the additive LWE scheme (`Getq`). -/
  q : Nat
  /-- Ciphertext modulus of the ring scheme (`GetQ`). -/
  Q : Nat
  /-- Modulus used in key switching (`GetqKS`). -/
  qKS : Nat
  /-- Digit base of key switching (`GetBaseKS`). -/
  baseKS : Nat
deriving DecidableEq, Repr

/-- An LWE secret key: the vector `m_s`. -/
structure LWEPrivateKeyImpl where
  /-- The secret vector (`GetElement`). -/
  s : NativeVector
deriving DecidableEq, Repr

/-- An LWE ciphertext `(a, b)` with the plaintext modulus it carries. -/
structure LWECiphertextImpl where
  /-- The vector `a` (`GetA`). -/
  a : NativeVector
  /-- The scalar `b` (`GetB`). -/
  b : Nat
  /-- The plaintext modulus (`GetptModulus`); the constructor leaves it at 4. -/
  p : Nat := 4
deriving DecidableEq, Repr

/-- The modulus of a ciphertext is the modulus tag of its vector `a`. -/
def LWECiphertextImpl.GetModulus (ct : LWECiphertextImpl) : Nat := ct.a.modulus

/-- The dimension of a ciphertext. -/
def LWECiphertextImpl.GetLength (ct : LWECiphertextImpl) : Nat := ct.a.GetLength

/-! ## Encryption and decryption -/

/-- The C++ condition `x != 0 && y & (1 == 0)`: `&` binds tighter than `&&`,
`(1 == 0)` is the integer 0, and the bitwise conjunction is converted to
`bool` by comparing it with zero. -/
def divisibilityGuard (remainder modInt : Nat) : Bool :=
  (remainder != 0) && (Nat.land modInt (if (1 : Nat) == 0 then 1 else 0) != 0)

/-- The loop `for (i = 0; i < n; ++i) acc += a[i].ModMulFast(s[i], mod, mu)`:
`acc` is a `NativeInteger` and `+=` is the addition of the machine word, so the
running sum wraps modulo `2 ^ NATIVEINT`; it is reduced only after the loop. -/
def accumulateInner (a s : NativeVector) (modulus : Nat) (n : Nat)
    (acc : Nat) : Nat :=
  (List.range n).foldl
    (fun acc i => (acc + ModMulFast (a.at i) (s.at i) modulus) % 2 ^ NATIVEINT) acc

/-- `LWEEncryptionScheme::Encrypt`.  `e` is the value returned by
`GetDgg().GenerateInteger(mod)` and `aSample` the coordinates returned by
`dug.GenerateVector(n)`.  `mod % p`, `m % p` and `mod / p` divide by `p`, and
`b.Mod(mod)` by `mod`: with `p = 0` or `mod = 0` the call divides by zero.
The sum `(m % p) * (mod / p) + e` is a `NativeInteger`. -/
def Encrypt (_params : LWECryptoParams) (sk : LWEPrivateKeyImpl) (m p : Nat)
    (modulus : Nat) (e : Nat) (aSample : List Nat) :
    Except CallFailure LWECiphertextImpl :=
  if p = 0 ∨ modulus = 0 then .error .division_by_zero
  else if divisibilityGuard (modulus % p) modulus then
    .error (.exception (.not_implemented_error
      "ERROR: ciphertext modulus q needs to be divisible by plaintext modulus p."))
  else
    let s := sk.s
    let n := s.GetLength
    let s := s.SwitchModulus modulus
    let b := ((m % p) * (modulus / p) + e) % 2 ^ NATIVEINT
    let a : NativeVector := { data := aSample, modulus := modulus }
    let b := accumulateInner a s modulus n b
    .ok { a := a, b := Mod b modulus, p := p }

/-- `LWEEncryptionScheme::Decrypt`; the plaintext written to `*result` is the
returned value.  `mod % (p * 2)` and `mod / (p * 2)` divide by `p * 2`, and
`inner.ModEq(mod)` and the final quotient divide by `mod`: with `p = 0` or
`mod = 0` the call divides by zero.  The product `NativeInteger(p) * r` is a
`NativeInteger` and wraps modulo `2 ^ NATIVEINT`. -/
def Decrypt (_params : LWECryptoParams) (sk : LWEPrivateKeyImpl) (ct : LWECiphertextImpl)
    (p : Nat) : Except CallFailure Nat :=
  let modulus := ct.GetModulus
  if p * 2 = 0 ∨ modulus = 0 then .error .division_by_zero
  else if divisibilityGuard (modulus % (p * 2)) modulus then
    .error (.exception (.not_implemented_error
      "ERROR: ciphertext modulus q needs to be divisible by plaintext modulus p*2."))
  else
    let a := ct.a
    let s := sk.s
    let n := s.GetLength
    let s := s.SwitchModulus modulus
    let inner := accumulateInner a s modulus n 0
    let inner := Mod inner modulus
    let r := ct.b
    let r := ModSubFast r inner modulus
    let r := ModAddFast r (modulus / (p * 2)) modulus
    .ok (((p * r) % 2 ^ NATIVEINT) / modulus)

/-! ## Public keys -/

/-- An LWE public key `(A, v)`. -/
structure LWEPublicKeyImpl where
  /-- The rows of the matrix `A` (`GetA`). -/
  A : List NativeVector
  /-- The vector `v` (`Getv`). -/
  v : NativeVector
deriving DecidableEq, Repr

/-- A loop `for (k = 0; k < n; ++k) l[k] = f(k, l[k])` over a vector's storage. -/
def updateEach (f : Nat → Nat → Nat) (n : Nat)
    (l : List Nat) : List Nat :=
  (List.range n).foldl (fun l k => l.set k (f k (l.getD k 0))) l

/-- The loop `for (i = 0; i < dim; ++i) x.ModAddEq(row[i].ModMulFast(s[i], modulus, mu), modulus)`
that accumulates one row of `A * s` into the coordinate `x`. -/
def accumulateRow (row s : NativeVector) (modulus : Nat) (dim : Nat)
    (x : Nat) : Nat :=
  (List.range dim).foldl (fun x i => ModAdd x (ModMulFast (row.at i) (s.at i) modulus) modulus) x

/-- `LWEEncryptionScheme::PubKeyGen`.  `ASample` holds the rows returned by the
`dim` calls of `dug.GenerateVector(dim)` and `eSample` the coordinates returned
by `dgg.GenerateVector(dim, modulus)`. -/
def PubKeyGen (params : LWECryptoParams) (skN : LWEPrivateKeyImpl)
    (ASample : List (List Nat)) (eSample : List Nat) : LWEPublicKeyImpl :=
  let dim := params.N
  let modulus := params.Q
  let A : List NativeVector :=
    (List.range dim).map fun i => { data := ASample.getD i [], modulus := modulus }
  let e : NativeVector := { data := eSample, modulus := modulus }
  let v := e
  let ske := skN.s
  let v : NativeVector := { data := updateEach (fun _ _ => 0) dim v.data, modulus := v.modulus }
  let row := fun j => A.getD j { data := [], modulus := 0 }
  let v : NativeVector :=
    { data := updateEach (fun j x => accumulateRow (row j) ske modulus dim x) dim v.data
      modulus := v.modulus }
  { A := A, v := v }

/-- Modelled from the spec: `NativeVector::ModMul(b)`, every coordinate
multiplied by the scalar `b` modulo the vector's own modulus. -/
def NativeVector.ModMul (v : NativeVector) (b : Nat) : NativeVector :=
  { data := v.data.map fun x => lbcrypto.ModMul x b v.modulus, modulus := v.modulus }

/-- Modelled from the spec: `NativeVector::ModAddEq(w)`, element-wise modular
addition under the vector's own modulus. -/
def NativeVector.ModAddEq (v w : NativeVector) : NativeVector :=
  { data := List.zipWith (fun x y => ModAddFast x y v.modulus) v.data w.data
    modulus := v.modulus }

/-- Modelled from the spec: `NativeVector::ModSubEq(w)`, element-wise modular
subtraction under the vector's own modulus. -/
def NativeVector.ModSubEq (v w : NativeVector) : NativeVector :=
  { data := List.zipWith (fun x y => ModSubFast x y v.modulus) v.data w.data
    modulus := v.modulus }

/-- Modelled from the spec: `NativeVector::ModSub(w)`, the element-wise modular
difference as a new vector, under the modulus of `v`. -/
def NativeVector.ModSub (v w : NativeVector) : NativeVector :=
  let ans := v
  ans.ModSubEq w

/-- `LWEEncryptionScheme::EncryptN`.  `e` is the value returned by
`dgg.GenerateInteger(mod)`, `spSample` the coordinates returned by
`tug.GenerateVector(N, mod)` and `epSample` those returned by
`dgg.GenerateVector(N, mod)`.  As in `Encrypt`, with `p = 0` or `mod = 0` the
call divides by zero. -/
def EncryptN (_params : LWECryptoParams) (pk : LWEPublicKeyImpl) (m p : Nat)
    (modulus : Nat) (e : Nat) (spSample epSample : List Nat) :
    Except CallFailure LWECiphertextImpl :=
  if p = 0 ∨ modulus = 0 then .error .division_by_zero
  else if divisibilityGuard (modulus % p) modulus then
    .error (.exception (.not_implemented_error
      "ERROR: ciphertext modulus q needs to be divisible by plaintext modulus p."))
  else
    let bp := pk.v
    let A := pk.A
    let N := bp.GetLength
    let bp := bp.SwitchModulus modulus
    let b := ((m % p) * (modulus / p) + e) % 2 ^ NATIVEINT
    let sp : NativeVector := { data := spSample, modulus := modulus }
    let ep : NativeVector := { data := epSample, modulus := modulus }
    let a := ep
    let a := (List.range N).foldl
      (fun a j => a.ModAddEq ((A.getD j { data := [], modulus := 0 }).ModMul (sp.at j))) a
    let b := (List.range N).foldl
      (fun b i => ModAdd b (ModMulFast (bp.at i) (sp.at i) modulus) modulus) b
    .ok { a := a, b := b, p := p }

/-! ## Modulus switching -/

/-- `LWEEncryptionScheme::RoundqQ`:
`NativeInteger(static_cast<BasicInteger>(std::floor(0.5 + v.ConvertToDouble() * q.ConvertToDouble() / Q.ConvertToDouble()))).Mod(q)`.
The three conversions, the product, the quotient and the sum are operations on
doubles, each rounded; the cast keeps the low `NATIVEINT` bits. -/
def RoundqQ (v q Q : Nat) : Nat :=
  Mod (Double.floor (Double.add Double.half
    (Double.div (Double.mul (Double.ofNat v) (Double.ofNat q)) (Double.ofNat Q)))
      % 2 ^ NATIVEINT) q

/-- `LWEEncryptionScheme::ModSwitch`. -/
def ModSwitch (q : Nat) (ctQ : LWECiphertextImpl) : LWECiphertextImpl :=
  let n := ctQ.GetLength
  let Q := ctQ.GetModulus
  let a : NativeVector := { data := List.replicate n 0, modulus := q }
  let a : NativeVector :=
    { data := updateEach (fun i _ => RoundqQ (ctQ.a.at i) q Q) n a.data, modulus := a.modulus }
  { a := a, b := RoundqQ ctQ.b q Q }

/-! ## Key switching -/

/-- An LWE switching key: the tables `A[i][j][k]` and `B[i][j][k]`. -/
structure LWESwitchingKeyImpl where
  /-- The vectors `A[i][j][k]` (`GetElementsA`). -/
  A : List (List (List NativeVector))
  /-- The scalars `B[i][j][k]` (`GetElementsB`). -/
  B : List (List (List Nat))
deriving DecidableEq, Repr

/-- Entry `A[i][j][k]` of a switching key. -/
def LWESwitchingKeyImpl.atA (K : LWESwitchingKeyImpl) (i j k : Nat) : NativeVector :=
  ((K.A.getD i []).getD j []).getD k { data := [], modulus := 0 }

/-- Entry `B[i][j][k]` of a switching key. -/
def LWESwitchingKeyImpl.atB (K : LWESwitchingKeyImpl) (i j k : Nat) : Nat :=
  ((K.B.getD i []).getD j []).getD k 0

/-- The loop that populates `digitsKS`: `digitCount` times, push `value` and
multiply it by `baseKS`, starting from `value = 1`; `value` is a
`NativeInteger` and `value *= baseKS` wraps modulo `2 ^ NATIVEINT`. -/
def populateDigits (baseKS digitCount : Nat) : List Nat :=
  ((List.range digitCount).foldl
    (fun (st : List Nat × Nat) _ => (st.1 ++ [st.2], (st.2 * baseKS) % 2 ^ NATIVEINT))
    ([], 1)).1

/-- The body of the innermost loop of `KeySwitchGen` for the indices `(i, j, k)`:
the pair `(a, b)` stored at `A[i][j][k]`, `B[i][j][k]`; `aSample` is the vector
returned by `dug.GenerateVector(n)` in that iteration.  The product
`j * digitsKS[k]` is a `NativeInteger` and wraps modulo `2 ^ NATIVEINT`. -/
def KeySwitchGenEntry (n : Nat) (qKS : Nat) (digitsKS : List Nat)
    (sv svN : NativeVector) (i j k : Nat) (aSample : List Nat) :
    NativeVector × Nat :=
  let b := ModMul (svN.at i) ((j * digitsKS.getD k 0) % 2 ^ NATIVEINT) qKS
  let a : NativeVector := { data := aSample, modulus := qKS }
  let b := (List.range n).foldl
    (fun b ai => ModAddFast b (ModMulFast (a.at ai) (sv.at ai) qKS) qKS) b
  let b := Mod b qKS
  (a, b)

/-- The value of
`std::ceil(log(qKS.ConvertToDouble()) / log(static_cast<double>(baseKS)))`,
an integer held in a double.  `log` is the function of the C library. -/
def digitQuotient (log : Double → Double) (qKS baseKS : Nat) : Nat :=
  Double.ceil (Double.div (log (Double.ofNat qKS)) (log (Double.ofNat baseKS)))

/-- The expression
`(uint32_t)std::ceil(log(qKS.ConvertToDouble()) / log(static_cast<double>(baseKS)))`
with which `KeySwitchGen` and `MultiPartyKeySwitchGen` compute the number of
digits; the cast keeps the low 32 bits. -/
def digitCount (log : Double → Double) (qKS baseKS : Nat) : Nat :=
  digitQuotient log qKS baseKS % 2 ^ 32

/-- The expression
`static_cast<size_t>(std::ceil(log(Q.ConvertToDouble()) / log(static_cast<double>(baseKS))))`
with which `KeySwitch` computes the number of digits; the cast keeps the low 64
bits. -/
def digitCountSize (log : Double → Double) (Q baseKS : Nat) : Nat :=
  digitQuotient log Q baseKS % 2 ^ 64

/-- The body of `KeySwitchGen` from the declaration of `digitsKS` on, for the
number of digits `digitCount` that the function has computed; `aSample i j k` is
the vector that `dug.GenerateVector(n)` returns in iteration `(i, j, k)`. -/
def KeySwitchGenBody (params : LWECryptoParams) (digitCount : Nat) (sk skN : LWEPrivateKeyImpl)
    (aSample : Nat → Nat → Nat → List Nat) : LWESwitchingKeyImpl :=
  let n := params.n
  let N := params.N
  let qKS := params.qKS
  let baseKS := params.baseKS
  let digitsKS := populateDigits baseKS digitCount
  let sv := sk.s.SwitchModulus qKS
  let svN := skN.s.SwitchModulus qKS
  let entry := fun i j k => KeySwitchGenEntry n qKS digitsKS sv svN i j k (aSample i j k)
  { A := (List.range N).map fun i => (List.range baseKS).map fun j =>
      (List.range digitCount).map fun k => (entry i j k).1
    B := (List.range N).map fun i => (List.range baseKS).map fun j =>
      (List.range digitCount).map fun k => (entry i j k).2 }

/-- `LWEEncryptionScheme::KeySwitchGen`.  `log` is the function of the C
library and `aSample i j k` the vector that `dug.GenerateVector(n)` returns in
iteration `(i, j, k)`. -/
def KeySwitchGen (params : LWECryptoParams) (log : Double → Double)
    (sk skN : LWEPrivateKeyImpl) (aSample : Nat → Nat → Nat → List Nat) :
    LWESwitchingKeyImpl :=
  let qKS := params.qKS
  let baseKS := params.baseKS
  let digitCount := digitCount log qKS baseKS
  KeySwitchGenBody params digitCount sk skN aSample

/-- The state of the digit loop of `KeySwitch`: the remaining value `atmp` and
the accumulators `a`, `b`. -/
structure KeySwitchState where
  /-- The part of the coordinate not yet decomposed. -/
  atmp : Nat
  /-- The accumulated vector. -/
  a : List Nat
  /-- The accumulated scalar. -/
  b : Nat
deriving DecidableEq, Repr

/-- One iteration `j` of the digit loop of `KeySwitch` for coordinate `i`. -/
def KeySwitchDigit (n : Nat) (Q : Nat) (baseKS : Nat) (K : LWESwitchingKeyImpl)
    (i : Nat) (st : KeySwitchState) (j : Nat) : KeySwitchState :=
  let a0 := st.atmp % baseKS
  let atmp := st.atmp / baseKS
  let b := ModSubFast st.b (K.atB i a0 j) Q
  let refAj := K.atA i a0 j
  let a := updateEach (fun k x => ModSubFast x (refAj.at k) Q) n st.a
  { atmp := atmp, a := a, b := b }

/-- The body of `KeySwitch` from the declaration of the accumulator `a` on,
for the number of digits `digitCount` that the function has computed. -/
def KeySwitchBody (params : LWECryptoParams) (digitCount : Nat) (K : LWESwitchingKeyImpl)
    (ctQN : LWECiphertextImpl) : LWECiphertextImpl :=
  let n := params.n
  let N := params.N
  let Q := params.qKS
  let baseKS := params.baseKS
  let a : List Nat := List.replicate n 0
  let b := ctQN.b
  let ab := (List.range N).foldl
    (fun (ab : List Nat × Nat) i =>
      let st := (List.range digitCount).foldl (KeySwitchDigit n Q baseKS K i)
        { atmp := ctQN.a.at i, a := ab.1, b := ab.2 }
      (st.a, st.b))
    (a, b)
  { a := { data := ab.1, modulus := Q }, b := ab.2 }

/-- `LWEEncryptionScheme::KeySwitch`.  `log` is the function of the C library;
the number of digits is `ceil(log(Q) / log(baseKS))` with `Q = qKS`, cast to
`size_t`. -/
def KeySwitch (params : LWECryptoParams) (log : Double → Double) (K : LWESwitchingKeyImpl)
    (ctQN : LWECiphertextImpl) : LWECiphertextImpl :=
  let Q := params.qKS
  let baseKS := params.baseKS
  let digitCount := digitCountSize log Q baseKS
  KeySwitchBody params digitCount K ctQN

/-! ## Multiparty key generation -/

/-- An LWE key pair: the public key and the private key returned together. -/
structure LWEKeyPairImpl where
  /-- The public key `(A, v)`. -/
  publicKey : LWEPublicKeyImpl
  /-- The private key. -/
  secretKey : LWEPrivateKeyImpl
deriving DecidableEq, Repr

/-- Modelled from the spec: `LWEPrivateKeyImpl::operator+=`, the aggregation of
private-key shares: pointwise modular addition of the other share into this one. -/
def LWEPrivateKeyImpl.addEq (sk other : LWEPrivateKeyImpl) : LWEPrivateKeyImpl :=
  { s := sk.s.ModAddEq other.s }

/-- What `MultipartyKeyGen` leaves behind: the returned key pair and the objects
that the pointers of the input vector refer to after the call. -/
structure MultipartyKeyGenResult where
  /-- The returned key pair. -/
  keyPair : LWEKeyPairImpl
  /-- The shares, as the caller sees them after the call. -/
  privateKeyVec : List LWEPrivateKeyImpl
deriving DecidableEq, Repr

/-- `LWEEncryptionScheme::MultipartyKeyGen`.  `sk` is a copy of the shared
pointer `privateKeyVec[0]`, so `*sk += *privateKeyVec[i]` updates the first
share itself.  The function has no `OPENFHE_THROW` and no test of the size of
the vector: `privateKeyVec[0]` is read first, with `operator[]`; the reads of
the loop have `1 <= i < size()`.  `ASample`, `eSample` are the values sampled
by `PubKeyGen`, whose reads `ske[i]`, `i < N`, are in range when the shares
have length at least `N`; for shorter shares the coordinate reads are those of
`NativeVector.at`. -/
def MultipartyKeyGen (privateKeyVec : List LWEPrivateKeyImpl) (params : LWECryptoParams)
    (ASample : List (List Nat)) (eSample : List Nat) :
    Except CallFailure MultipartyKeyGenResult := do
  let first ← vectorRead privateKeyVec 0
  let sk := first
  let sk := (List.range (privateKeyVec.length - 1)).foldl
    (fun sk i => sk.addEq (privateKeyVec.getD (i + 1) first)) sk
  let pk := PubKeyGen params sk ASample eSample
  pure { keyPair := { publicKey := pk, secretKey := sk }
         privateKeyVec := privateKeyVec.set 0 sk }

/-- Modelled from the spec: `LWEPublicKeyImpl::GetLength`, the length of `v`. -/
def LWEPublicKeyImpl.GetLength (pk : LWEPublicKeyImpl) : Nat := pk.v.GetLength

/-- Modelled from the spec: `LWEPublicKeyImpl::GetModulus`, the modulus of `v`. -/
def LWEPublicKeyImpl.GetModulus (pk : LWEPublicKeyImpl) : Nat := pk.v.modulus

/-- `LWEEncryptionScheme::MultipartyPubKeyGen`.  `eSample` holds the coordinates
returned by `dgg.GenerateVector(dim, modulus)`.  The prior key is passed by
value and copied, so the caller's object is not touched. -/
def MultipartyPubKeyGen (sk : LWEPrivateKeyImpl) (publicKey : LWEPublicKeyImpl)
    (eSample : List Nat) : LWEPublicKeyImpl :=
  let A := publicKey.A
  let pv := publicKey.v
  let dim := publicKey.GetLength
  let modulus := publicKey.GetModulus
  let e : NativeVector := { data := eSample, modulus := modulus }
  let v := e
  let ske := sk.s
  let v : NativeVector := { data := updateEach (fun _ _ => 0) dim v.data, modulus := v.modulus }
  let row := fun j => A.getD j { data := [], modulus := 0 }
  let v : NativeVector :=
    { data := updateEach (fun j x => accumulateRow (row j) ske modulus dim x) dim v.data
      modulus := v.modulus }
  let v : NativeVector :=
    { data := updateEach (fun j x => ModAdd x (pv.at j) modulus) dim v.data
      modulus := v.modulus }
  { A := A, v := v }

/-! ## Threshold decryption -/

/-- `LWEEncryptionScheme::MultipartyDecryptLead`: the share `(a, b - <a, s>)`.
`mod % (p * 2)` divides by `p * 2` and `inner.ModEq(mod)` by `mod`. -/
def MultipartyDecryptLead (_params : LWECryptoParams) (sk : LWEPrivateKeyImpl)
    (ct : LWECiphertextImpl) (p : Nat) : Except CallFailure LWECiphertextImpl :=
  let modulus := ct.GetModulus
  if p * 2 = 0 ∨ modulus = 0 then .error .division_by_zero
  else if divisibilityGuard (modulus % (p * 2)) modulus then
    .error (.exception (.not_implemented_error
      "ERROR: ciphertext modulus q needs to be divisible by plaintext modulus p*2."))
  else
    let a := ct.a
    let s := sk.s
    let n := s.GetLength
    let s := s.SwitchModulus modulus
    let inner := accumulateInner a s modulus n 0
    let inner := Mod inner modulus
    let r := ct.b
    let r := ModSubFast r inner modulus
    .ok { a := a, b := r }

/-- `LWEEncryptionScheme::MultipartyDecryptMain`: the share `(a, <a, s>)`.
`mod % (p * 2)` divides by `p * 2` and `inner.ModEq(mod)` by `mod`. -/
def MultipartyDecryptMain (_params : LWECryptoParams) (sk : LWEPrivateKeyImpl)
    (ct : LWECiphertextImpl) (p : Nat) : Except CallFailure LWECiphertextImpl :=
  let modulus := ct.GetModulus
  if p * 2 = 0 ∨ modulus = 0 then .error .division_by_zero
  else if divisibilityGuard (modulus % (p * 2)) modulus then
    .error (.exception (.not_implemented_error
      "ERROR: ciphertext modulus q needs to be divisible by plaintext modulus p*2."))
  else
    let a := ct.a
    let s := sk.s
    let n := s.GetLength
    let s := s.SwitchModulus modulus
    let inner := accumulateInner a s modulus n 0
    let inner := Mod inner modulus
    let r := inner
    .ok { a := a, b := r }

/-- `LWEEncryptionScheme::MultipartyDecryptFusion`; the plaintext written to
`*plaintext` is the returned value.  The function has no `OPENFHE_THROW` and no
test of the size of the vector: `partialCiphertextVec[0]` is read first, with
`operator[]`; the reads of the loop have `1 <= i < size()`.  After the loop
`mod / (p * 2)` divides by `p * 2` and the final quotient by `mod`; the product
`NativeInteger(p) * b` wraps modulo `2 ^ NATIVEINT`. -/
def MultipartyDecryptFusion (partialCiphertextVec : List LWECiphertextImpl) (p : Nat) :
    Except CallFailure Nat := do
  let first ← vectorRead partialCiphertextVec 0
  let modulus := first.GetModulus
  let cv0 := first.b
  let b := cv0
  let b := (List.range (partialCiphertextVec.length - 1)).foldl
    (fun b i =>
      let cvi := (partialCiphertextVec.getD (i + 1) first).b
      ModSubFast b cvi modulus) b
  if p * 2 = 0 ∨ modulus = 0 then .error .division_by_zero
  else
    let b := ModAddFast b (modulus / (p * 2)) modulus
    .ok (((p * b) % 2 ^ NATIVEINT) / modulus)

/-! ## Homomorphic linear operations -/

/-- `LWEEncryptionScheme::EvalAddEq`; the returned ciphertext is `ct1` after the call. -/
def EvalAddEq (ct1 ct2 : LWECiphertextImpl) : LWECiphertextImpl :=
  { a := ct1.a.ModAddEq ct2.a
    b := ModAddFast ct1.b ct2.b ct1.GetModulus
    p := ct1.p }

/-- `LWEEncryptionScheme::EvalAddConstEq`; the returned ciphertext is `ct`
after the call. -/
def EvalAddConstEq (ct : LWECiphertextImpl) (cnst : Nat) : LWECiphertextImpl :=
  { a := ct.a
    b := ModAddFast ct.b cnst ct.GetModulus
    p := ct.p }

/-- `LWEEncryptionScheme::EvalSubEq`; the returned ciphertext is `ct1` after the
call. -/
def EvalSubEq (ct1 ct2 : LWECiphertextImpl) : LWECiphertextImpl :=
  { a := ct1.a.ModSubEq ct2.a
    b := ModSubFast ct1.b ct2.b ct1.GetModulus
    p := ct1.p }

/-- `LWEEncryptionScheme::EvalSubEq2`, which takes `ct1` as a constant and
writes into `ct2`; the returned pair is `(ct1, ct2)` after the call. -/
def EvalSubEq2 (ct1 ct2 : LWECiphertextImpl) : LWECiphertextImpl × LWECiphertextImpl :=
  let a2 := ct1.a.ModSub ct2.a
  let b2 := ModSubFast ct1.b ct2.b ct1.GetModulus
  (ct1, { a := a2, b := b2, p := ct2.p })

/-- `LWEEncryptionScheme::EvalSubConstEq`; the returned ciphertext is `ct`
after the call. -/
def EvalSubConstEq (ct : LWECiphertextImpl) (cnst : Nat) : LWECiphertextImpl :=
  { a := ct.a
    b := ModSubFast ct.b cnst ct.GetModulus
    p := ct.p }

/-- `LWEEncryptionScheme::EvalMultConstEq`; the returned ciphertext is `ct1`
after the call. -/
def EvalMultConstEq (ct1 : LWECiphertextImpl) (cnst : Nat) : LWECiphertextImpl :=
  { a := ct1.a.ModMul cnst
    b := ModMulFast ct1.b cnst ct1.GetModulus
    p := ct1.p }

/-! ## Noiseless embedding -/

/-- `LWEEncryptionScheme::NoiselessEmbedding`: `b = m * (q >> 2)`, a product of
`NativeInteger`s, and `a` the vector of `n` zeros under modulus `q`. -/
def NoiselessEmbedding (params : LWECryptoParams) (m : Nat) : LWECiphertextImpl :=
  let q := params.q
  let b := (m * (q >>> 2)) % 2 ^ NATIVEINT
  let a : NativeVector := { data := List.replicate params.n 0, modulus := q }
  { a := a, b := b }

/-! ## Multiparty key switching -/

/-- The body of the innermost loop of `MultiPartyKeySwitchGen` for the indices
`(i, j, k)` in the default build (the `#else` branch of `NATIVEINT == 32`). -/
def MultiPartyKeySwitchGenEntry (n : Nat) (qKS : Nat) (digitsKS : List Nat)
    (sv svN : NativeVector) (prevkskey : LWESwitchingKeyImpl) (i j k : Nat) : Nat :=
  let b := ModMul (svN.at i) ((j * digitsKS.getD k 0) % 2 ^ NATIVEINT) qKS
  let b := (List.range n).foldl
    (fun b ai => ModAddFast b (ModMulFast ((prevkskey.atA i j k).at ai) (sv.at ai) qKS) qKS) b
  let b := ModAdd b (prevkskey.atB i j k) qKS
  b

/-- The body of `MultiPartyKeySwitchGen`, default build, from the declaration
of `digitsKS` on, for the number of digits `digitCount` that the function has
computed. -/
def MultiPartyKeySwitchGenBody (params : LWECryptoParams) (digitCount : Nat)
    (sk skN : LWEPrivateKeyImpl) (prevkskey : LWESwitchingKeyImpl) : LWESwitchingKeyImpl :=
  let n := params.n
  let N := params.N
  let qKS := params.qKS
  let baseKS := params.baseKS
  let digitsKS := populateDigits baseKS digitCount
  let sv := sk.s.SwitchModulus qKS
  let svN := skN.s.SwitchModulus qKS
  let aprevkskey := prevkskey.A
  { A := aprevkskey
    B := (List.range N).map fun i => (List.range baseKS).map fun j =>
      (List.range digitCount).map fun k =>
        MultiPartyKeySwitchGenEntry n qKS digitsKS sv svN prevkskey i j k }

/-- `LWEEncryptionScheme::MultiPartyKeySwitchGen`, default build.  `log` is the
function of the C library. -/
def MultiPartyKeySwitchGen (params : LWECryptoParams) (log : Double → Double)
    (sk skN : LWEPrivateKeyImpl) (prevkskey : LWESwitchingKeyImpl) : LWESwitchingKeyImpl :=
  let qKS := params.qKS
  let baseKS := params.baseKS
  let digitCount := digitCount log qKS baseKS
  MultiPartyKeySwitchGenBody params digitCount sk skN prevkskey

/-- The read `v[i]` of `NativeVector::operator[]`, which does not test its
index: a read past the end of the vector is undefined behaviour and raises
nothing. -/
def NativeVector.read (v : NativeVector) (i : Nat) : Except CallFailure Nat :=
  if i < v.GetLength then .ok (v.at i) else .error .out_of_range_read

/-- The body of the innermost loop of `MultiPartyKeySwitchGen` for the indices
`(i, j, k)` in the build with `NATIVEINT == 32`: the factor of every product is
`sv[i]`, read with the index of the outer loop. -/
def MultiPartyKeySwitchGenEntry32 (n : Nat) (qKS : Nat) (digitsKS : List Nat)
    (sv svN : NativeVector) (prevkskey : LWESwitchingKeyImpl) (i j k : Nat) :
    Except CallFailure Nat := do
  let b := ModMul (svN.at i) ((j * digitsKS.getD k 0) % 2 ^ NATIVEINT) qKS
  let b ← (List.range n).foldlM
    (fun b ai => do
      let svi ← sv.read i
      pure (ModAddFast b (ModMulFast ((prevkskey.atA i j k).at ai) svi qKS) qKS)) b
  let b := ModAdd b (prevkskey.atB i j k) qKS
  pure b

/-- The body of `MultiPartyKeySwitchGen`, build with `NATIVEINT == 32`, from
the declaration of `digitsKS` on, for the number of digits `digitCount` that the
function has computed. -/
def MultiPartyKeySwitchGen32Body (params : LWECryptoParams) (digitCount : Nat)
    (sk skN : LWEPrivateKeyImpl) (prevkskey : LWESwitchingKeyImpl) :
    Except CallFailure LWESwitchingKeyImpl := do
  let n := params.n
  let N := params.N
  let qKS := params.qKS
  let baseKS := params.baseKS
  let digitsKS := populateDigits baseKS digitCount
  let sv := sk.s.SwitchModulus qKS
  let svN := skN.s.SwitchModulus qKS
  let aprevkskey := prevkskey.A
  let resultVecB ← (List.range N).mapM fun i => (List.range baseKS).mapM fun j =>
    (List.range digitCount).mapM fun k =>
      MultiPartyKeySwitchGenEntry32 n qKS digitsKS sv svN prevkskey i j k
  pure { A := aprevkskey, B := resultVecB }

/-- `LWEEncryptionScheme::MultiPartyKeySwitchGen`, build with `NATIVEINT == 32`.
`log` is the function of the C library. -/
def MultiPartyKeySwitchGen32 (params : LWECryptoParams) (log : Double → Double)
    (sk skN : LWEPrivateKeyImpl) (prevkskey : LWESwitchingKeyImpl) :
    Except CallFailure LWESwitchingKeyImpl :=
  let qKS := params.qKS
  let baseKS := params.baseKS
  let digitCount := digitCount log qKS baseKS
  MultiPartyKeySwitchGen32Body params digitCount sk skN prevkskey

/-! ## Notions used in the statements -/

/-- The secret whose `n` coordinates are all `q - 1`, that is `-1`, under the
modulus `q`. -/
def minusOnesKey (n q : Nat) : LWEPrivateKeyImpl :=
  { s := { data := List.replicate n (q - 1), modulus := q } }

/-- Parameters with a modulus of 60 bits: `q = 3 * 2 ^ 58`, `n = 21`, `N = 22`. -/
def wrapScenarioParams : LWECryptoParams :=
  { n := 21, N := 22, q := 3 * 2 ^ 58, Q := 3 * 2 ^ 58, qKS := 3 * 2 ^ 58, baseKS := 2 }

/-- The secret of 17 coordinates under `q = 2 ^ 60 - 4` whose first 9
coordinates are `q - 1` and whose last 8 are `0`. -/
def splitScenarioKey1 : LWEPrivateKeyImpl :=
  { s := { data := List.replicate 9 (2 ^ 60 - 4 - 1) ++ List.replicate 8 0
           modulus := 2 ^ 60 - 4 } }

/-- The secret of 17 coordinates under `q = 2 ^ 60 - 4` whose first 9
coordinates are `0` and whose last 8 are `q - 1`. -/
def splitScenarioKey2 : LWEPrivateKeyImpl :=
  { s := { data := List.replicate 9 0 ++ List.replicate 8 (2 ^ 60 - 4 - 1)
           modulus := 2 ^ 60 - 4 } }

/-- The reduced ciphertext `(a, b)` under `q = 2 ^ 60 - 4` with `a` the vector
of 17 ones and `b = 2 ^ 57 - 50`. -/
def splitScenarioCt : LWECiphertextImpl :=
  { a := { data := List.replicate 17 1, modulus := 2 ^ 60 - 4 }, b := 2 ^ 57 - 50 }

/-- Parameters with `qKS = 2^49 + 1` and `baseKS = 2`, `n = N = 1`: `qKS`
needs 50 binary digits. -/
def narrowScenarioParams : LWECryptoParams :=
  { n := 1, N := 1, q := 2 ^ 49 + 1, Q := 2 ^ 49 + 1, qKS := 2 ^ 49 + 1, baseKS := 2 }

/-- Parameters with `qKS = 125` and `baseKS = 5`, `n = N = 1`: `qKS` needs 3
digits in base 5. -/
def quinaryScenarioParams : LWECryptoParams :=
  { n := 1, N := 1, q := 125, Q := 125, qKS := 125, baseKS := 5 }

/-- Parameters with a large key-switching base: `qKS = 3 * 2^58` and
`baseKS = 2^25`, for which the digit count is 3 and `baseKS^3 > 2^64`;
`n = N = 1`. -/
def gadgetScenarioParams : LWECryptoParams :=
  { n := 1, N := 1, q := 3 * 2 ^ 58, Q := 3 * 2 ^ 58, qKS := 3 * 2 ^ 58, baseKS := 2 ^ 25 }

/-- Parameters with a modulus of 63 bits, `q = 3 * 2^61`, `n = 1`. -/
def wordScenarioParams : LWECryptoParams :=
  { n := 1, N := 1, q := 3 * 2 ^ 61, Q := 3 * 2 ^ 61, qKS := 3 * 2 ^ 61, baseKS := 2 }

/-- Parameters with the modulus `q = 2^59`, `n = N = 1`; used with the plaintext
modulus `p = 2^10`, for which `p * q = 2^69`. -/
def productScenarioParams : LWECryptoParams :=
  { n := 1, N := 1, q := 2 ^ 59, Q := 2 ^ 59, qKS := 2 ^ 59, baseKS := 2 }

/-- The secret `[0]` under the modulus `2^59`. -/
def productScenarioKey : LWEPrivateKeyImpl := { s := { data := [0], modulus := 2 ^ 59 } }

/-- Parameters with `qKS = 3 * 2^58`, `baseKS = 2`, `n = 1` and `N = 22`. -/
def wideWrapScenarioParams : LWECryptoParams :=
  { n := 1, N := 22, q := 3 * 2 ^ 58, Q := 3 * 2 ^ 58, qKS := 3 * 2 ^ 58, baseKS := 2 }

/-- The values that the `log` of the C library returns at the arguments of the
scenarios, the natural logarithms of `2`, `5`, `8`, `125`, `2^25`, `2^49 + 1`
and `3 * 2^58` rounded to doubles: `0x1.62e42fefa39efp-1`,
`0x1.9c041f7ed8d33p+0`, `0x1.0a2b23f3bab73p+1`, `0x1.3503179f229e7p+2`,
`0x1.1542457337d43p+4`, `0x1.0fb6b4b37945bp+5` and `0x1.4a68c0ae82c99p+5`.  No
other argument occurs in a scenario. -/
def scenarioLog (x : Double) : Double :=
  if x = Double.ofNat 2 then { m := 0x162e42fefa39ef, e := -53 }
  else if x = Double.ofNat 5 then { m := 0x19c041f7ed8d33, e := -52 }
  else if x = Double.ofNat 8 then { m := 0x10a2b23f3bab73, e := -51 }
  else if x = Double.ofNat 125 then { m := 0x13503179f229e7, e := -50 }
  else if x = Double.ofNat (2 ^ 49 + 1) then { m := 0x10fb6b4b37945b, e := -47 }
  else if x = Double.ofNat (3 * 2 ^ 58) then { m := 0x14a68c0ae82c99, e := -47 }
  else if x = Double.ofNat (2 ^ 25) then { m := 0x11542457337d43, e := -48 }
  else { m := 0, e := 0 }

/-- The switching key that `KeySwitchGen` builds in the scenario of the large
base, from the secrets `[0]` and `[0]` and sampled vectors `[0]`. -/
def gadgetScenarioPrior : LWESwitchingKeyImpl :=
  KeySwitchGen gadgetScenarioParams scenarioLog
    { s := { data := [0], modulus := 3 * 2 ^ 58 } }
    { s := { data := [0], modulus := 3 * 2 ^ 58 } } (fun _ _ _ => [0])

/-- The parameters of the concrete scenario: `n = 4`, `q = 1024`. -/
def scenarioParams : LWECryptoParams :=
  { n := 4, N := 4, q := 1024, Q := 1024, qKS := 1024, baseKS := 2 }

/-- The secret `s = [1, 0, -1, 1] mod 1024` of the concrete scenario. -/
def scenarioKey : LWEPrivateKeyImpl := { s := { data := [1, 0, 1023, 1], modulus := 1024 } }

/-- The inner product `<a, s>` of two coordinate lists, over the integers. -/
def innerProduct (a s : List Nat) : Nat := (List.zipWith (· * ·) a s).sum

/-- The exact sum of the `n` products that the loop of `accumulateInner` adds
up, before any wrapping. -/
def innerSum (a s : NativeVector) (modulus n : Nat) : Nat :=
  ((List.range n).map fun i => ModMulFast (a.at i) (s.at i) modulus).sum

/-- The value `r` that `Decrypt` holds after `r.ModSubFastEq(inner, mod)`. -/
def decryptPhase (sk : LWEPrivateKeyImpl) (ct : LWECiphertextImpl) : Nat :=
  ModSubFast ct.b
    (accumulateInner ct.a (sk.s.SwitchModulus ct.a.modulus) ct.a.modulus sk.s.data.length 0
      % ct.a.modulus) ct.a.modulus

/-- Parameters of a small public-key scenario: `N = 2`, `Q = 8`. -/
def pkScenarioParams : LWECryptoParams :=
  { n := 1, N := 2, q := 8, Q := 8, qKS := 8, baseKS := 2 }

/-- The secret `[1, -1] mod 8` of the small public-key scenario. -/
def pkScenarioKey : LWEPrivateKeyImpl := { s := { data := [1, 7], modulus := 8 } }

/-- Parameters of a small key-switching scenario: `n = 2`, `N = 2`, `qKS = 8`,
`baseKS = 2`, for which the digit count is 3. -/
def ksScenarioParams : LWECryptoParams :=
  { n := 2, N := 2, q := 8, Q := 8, qKS := 8, baseKS := 2 }

/-- The target secret `[1, -1] mod 8` of the small key-switching scenario. -/
def ksScenarioKey : LWEPrivateKeyImpl := { s := { data := [1, 7], modulus := 8 } }

/-- The source secret `[-1, 1] mod 8` of the small key-switching scenario. -/
def ksScenarioKeyN : LWEPrivateKeyImpl := { s := { data := [7, 1], modulus := 8 } }

/-- The vectors drawn for the switching key of the small key-switching scenario. -/
def ksScenarioSample (i j k : Nat) : List Nat := [(i + j + k) % 8, (2 * i + 3 * j + k + 1) % 8]

/-- The target secret `[0] mod 8` of the modulus-switch scenario. -/
def msScenarioKey : LWEPrivateKeyImpl := { s := { data := [0], modulus := 8 } }

/-- The switching key of the small key-switching scenario, used as a prior key. -/
def ksScenarioPrior : LWESwitchingKeyImpl :=
  KeySwitchGen ksScenarioParams scenarioLog ksScenarioKey ksScenarioKeyN ksScenarioSample

/-- The public key `(A, v) = ([[1, 2], [3, 4]], [5, 6]) mod 8` of the small
public-key scenario, used as a prior key. -/
def pkScenarioPrior : LWEPublicKeyImpl :=
  { A := [{ data := [1, 2], modulus := 8 }, { data := [3, 4], modulus := 8 }]
    v := { data := [5, 6], modulus := 8 } }

/-- A second share `[-1, -1] mod 8` for the small public-key scenario. -/
def pkScenarioKey2 : LWEPrivateKeyImpl := { s := { data := [7, 7], modulus := 8 } }

/-- The ciphertext `([3, 5], 6)` under modulus 8 of the small scenarios. -/
def pkScenarioCt : LWECiphertextImpl := { a := { data := [3, 5], modulus := 8 }, b := 6 }

/-- A ciphertext `([3, 5, 7, 15], 14)` under modulus 16, to be switched to modulus 4. -/
def msScenarioCt : LWECiphertextImpl := { a := { data := [3, 5, 7, 15], modulus := 16 }, b := 14 }

/-- A second reduced ciphertext under modulus `8`, of the dimension of
`pkScenarioCt`. -/
def evalScenarioCt : LWECiphertextImpl := { a := { data := [4, 1], modulus := 8 }, b := 7 }

/-- A reduced ciphertext under the odd modulus `7`. -/
def oddScenarioCt : LWECiphertextImpl := { a := { data := [3, 5], modulus := 7 }, b := 1 }

/-- The state of the digit loop of `KeySwitch` for coordinate `i` after `j`
iterations, entered with the accumulated pair `ab`. -/
def KeySwitchDigitLoop (params : LWECryptoParams) (K : LWESwitchingKeyImpl)
    (ctQN : LWECiphertextImpl) (ab : List Nat × Nat) (i j : Nat) : KeySwitchState :=
  (List.range j).foldl (KeySwitchDigit params.n params.qKS params.baseKS K i)
    { atmp := ctQN.a.at i, a := ab.1, b := ab.2 }

/-- Parameters with `N` larger than `n`: `n = 1`, `N = 2`, `qKS = 8`,
`baseKS = 2`. -/
def wideScenarioParams : LWECryptoParams :=
  { n := 1, N := 2, q := 8, Q := 8, qKS := 8, baseKS := 2 }

/-- A switching key of shape `2 x 2 x 3` with `A` entries of length `1`, for
`wideScenarioParams`. -/
def wideScenarioPrior : LWESwitchingKeyImpl :=
  KeySwitchGen wideScenarioParams scenarioLog msScenarioKey pkScenarioKey
    (fun i j k => [(i + j + k) % 8])

/-- A ciphertext is reduced when every coordinate of `a` and `b` lie in
`[0, modulus)`. -/
def LWECiphertextImpl.Reduced (ct : LWECiphertextImpl) : Prop :=
  (∀ x ∈ ct.a.data, x < ct.a.modulus) ∧ ct.b < ct.a.modulus

instance (ct : LWECiphertextImpl) : Decidable ct.Reduced := by
  unfold LWECiphertextImpl.Reduced
  infer_instance

/-! ## Theorems -/

theorem divisibilityGuard_eq_false (r m : Nat) : divisibilityGuard r m = false := by
  have h : Nat.land m 0 = 0 := Nat.and_zero m
  simp [divisibilityGuard, h]

theorem foldl_add_eq_sum (f : Nat → Nat) (l : List Nat) (acc : Nat) :
    l.foldl (fun acc i => acc + f i) acc = acc + (l.map f).sum := by
  induction l generalizing acc with
  | nil => simp
  | cons x xs ih => simp [ih, Nat.add_assoc]

theorem foldl_add_word (f : Nat → Nat) (l : List Nat) (acc : Nat) :
    l.foldl (fun acc i => (acc + f i) % 2 ^ NATIVEINT) acc % 2 ^ NATIVEINT
      = (acc + (l.map f).sum) % 2 ^ NATIVEINT := by
  induction l generalizing acc with
  | nil => simp
  | cons x xs ih =>
    simp only [List.foldl_cons, List.map_cons, List.sum_cons]
    rw [ih, Nat.mod_add_mod, Nat.add_assoc]

theorem foldl_add_word_of_lt (f : Nat → Nat) (l : List Nat) (acc : Nat)
    (h : acc + (l.map f).sum < 2 ^ NATIVEINT) :
    l.foldl (fun acc i => (acc + f i) % 2 ^ NATIVEINT) acc = acc + (l.map f).sum := by
  induction l generalizing acc with
  | nil => simp
  | cons x xs ih =>
    simp only [List.foldl_cons, List.map_cons, List.sum_cons] at h ⊢
    rw [Nat.mod_eq_of_lt (by omega), ih _ (by omega), Nat.add_assoc]

/-- The running sum of `accumulateInner` is the exact sum modulo the word size. -/
theorem accumulateInner_word (a s : NativeVector) (q n acc : Nat) :
    accumulateInner a s q n acc % 2 ^ NATIVEINT = (acc + innerSum a s q n) % 2 ^ NATIVEINT :=
  foldl_add_word _ _ _

theorem innerSum_le (a s : NativeVector) (q n : Nat) (hq : 0 < q) :
    innerSum a s q n + n ≤ n * q := by
  unfold innerSum
  induction n with
  | zero => simp
  | succ k ih =>
    rw [List.range_succ, List.map_append, List.sum_append]
    simp only [List.map_cons, List.map_nil, List.sum_cons, List.sum_nil, Nat.add_zero]
    have : ModMulFast (a.at k) (s.at k) q < q := Nat.mod_lt _ hq
    rw [Nat.succ_mul]
    omega

/-- Modulo `q` the running sum of `accumulateInner` is the exact sum, when the
sum cannot leave the word or when `q` divides the word size. -/
theorem accumulateInner_mod_q (a s : NativeVector) (q n acc : Nat) (hq : 0 < q)
    (hw : acc + n * q ≤ 2 ^ NATIVEINT ∨ 2 ^ NATIVEINT % q = 0) :
    accumulateInner a s q n acc % q = (acc + innerSum a s q n) % q := by
  rcases hw with hb | hdvd
  · have hle := innerSum_le a s q n hq
    have h : accumulateInner a s q n acc = acc + innerSum a s q n := by
      rcases Nat.eq_zero_or_pos n with hn | hn
      · subst hn
        simp [accumulateInner, innerSum]
      · unfold accumulateInner innerSum
        apply foldl_add_word_of_lt
        unfold innerSum at hle
        omega
    rw [h]
  · have h := accumulateInner_word a s q n acc
    have hd : q ∣ 2 ^ NATIVEINT := Nat.dvd_of_mod_eq_zero hdvd
    have h1 := congrArg (· % q) h
    simp only [Nat.mod_mod_of_dvd _ hd] at h1
    exact h1

theorem add_mod_cases (X t q : Nat) (hX : X < q) (ht : t < q) :
    (X + t) % q = if X + t < q then X + t else X + t - q := by
  split
  · next h => exact Nat.mod_eq_of_lt h
  · next h => rw [Nat.mod_eq_sub_mod (by omega), Nat.mod_eq_of_lt (by omega)]

theorem ModSubFast_of_le (a b q : Nat) (hb : b ≤ a + q) :
    ModSubFast a b q = if a < b then a + q - b else a - b := by
  unfold ModSubFast
  split_ifs <;> rfl

theorem ModSubFast_add_mod (X S q : Nat) (hX : X < q) :
    ModSubFast ((X + S) % q) (S % q) q = X := by
  have hq : 0 < q := by omega
  have h1 : (X + S) % q = (X + S % q) % q := by
    rw [Nat.add_mod, Nat.mod_eq_of_lt hX]
  have ht : S % q < q := Nat.mod_lt _ hq
  rw [h1, add_mod_cases X (S % q) q hX ht]
  clear h1
  generalize S % q = t at ht
  rw [ModSubFast_of_le _ _ _ (by split_ifs <;> omega)]
  split_ifs <;> omega

theorem ModAddFast_of_lt (a b q : Nat) (ha : a < q) (hb : b < q) :
    ModAddFast a b q = if a + b ≥ q then a + b - q else a + b := by
  simp [ModAddFast, ha, hb]

theorem round_scaled (m p q : Nat) (hp : 1 ≤ p) (hq : 0 < q) (hdvd : q % p = 0) (hm : m < p) :
    p * ModAddFast (m * (q / p)) (q / (p * 2)) q / q = m := by
  obtain ⟨d, rfl⟩ : p ∣ q := Nat.dvd_of_mod_eq_zero hdvd
  have hd : 0 < d := by
    rcases Nat.eq_zero_or_pos d with h | h
    · subst h; simp at hq
    · exact h
  have e1 : p * d / p = d := Nat.mul_div_cancel_left d (by omega)
  have e2 : p * d / (p * 2) = d / 2 := by
    rw [Nat.mul_div_mul_left _ _ (by omega : 0 < p)]
  rw [e1, e2]
  have hmd : m * d + d ≤ p * d := by
    have : (m + 1) * d ≤ p * d := Nat.mul_le_mul_right d hm
    linarith
  have hlt : m * d + d / 2 < p * d := by
    have : d / 2 < d := Nat.div_lt_self hd (by norm_num)
    omega
  rw [ModAddFast_of_lt _ _ _ (by omega) (by omega)]
  simp only [ge_iff_le, not_le.mpr hlt, if_false]
  have : p * (m * d + d / 2) = p * (d / 2) + m * (p * d) := by ring
  rw [this, Nat.add_mul_div_right _ _ (by positivity : 0 < p * d)]
  have : p * (d / 2) / (p * d) = 0 := by
    apply Nat.div_eq_of_lt
    apply Nat.mul_lt_mul_of_pos_left (Nat.div_lt_self hd (by norm_num)) (by omega)
  omega

theorem sum_map_mod_mod (l : List Nat) (q : Nat) :
    (l.map (· % q)).sum % q = l.sum % q := by
  induction l with
  | nil => simp
  | cons x xs ih =>
    simp only [List.map_cons, List.sum_cons]
    rw [Nat.add_mod, ih, Nat.mod_mod, ← Nat.add_mod]

theorem range_map_getD_eq_zipWith (g : Nat → Nat → Nat) (a s : List Nat)
    (h : a.length = s.length) :
    (List.range s.length).map (fun i => g (a.getD i 0) (s.getD i 0)) = List.zipWith g a s := by
  apply List.ext_getElem
  · simp [h]
  · intro i h1 h2
    simp only [List.length_map, List.length_range] at h1
    have h3 : i < a.length := by omega
    simp [List.getD_eq_getElem, h1, h3]

theorem innerSum_mod (a s : NativeVector) (q : Nat)
    (h : a.data.length = s.data.length) :
    innerSum a s q s.data.length % q = innerProduct a.data s.data % q := by
  unfold innerSum innerProduct
  simp only [NativeVector.at, ModMulFast]
  rw [range_map_getD_eq_zipWith (fun x y => x * y % q) a.data s.data h]
  rw [← sum_map_mod_mod (List.zipWith (· * ·) a.data s.data) q, List.map_zipWith]

@[simp]

theorem SwitchModulus_length (v : NativeVector) (q : Nat) :
    (v.SwitchModulus q).data.length = v.data.length := by
  simp [NativeVector.SwitchModulus]

@[simp]

theorem SwitchModulus_modulus (v : NativeVector) (q : Nat) :
    (v.SwitchModulus q).modulus = q := rfl

theorem Encrypt_eq (params : LWECryptoParams) (sk : LWEPrivateKeyImpl) (m p q e : Nat)
    (a : List Nat) (hp : 1 ≤ p) (hq : 0 < q) :
    Encrypt params sk m p q e a = .ok
      { a := { data := a, modulus := q }
        b := accumulateInner { data := a, modulus := q } (sk.s.SwitchModulus q) q
            sk.s.data.length (((m % p) * (q / p) + e) % 2 ^ NATIVEINT) % q
        p := p } := by
  have h : ¬ (p = 0 ∨ q = 0) := by omega
  simp only [Encrypt, divisibilityGuard_eq_false, Bool.false_eq_true, if_false, Mod,
    NativeVector.GetLength, h]

/-- With `p = 0` or `q = 0` the call of `Encrypt` divides by zero. -/
theorem Encrypt_division_by_zero (params : LWECryptoParams) (sk : LWEPrivateKeyImpl)
    (m p q e : Nat) (a : List Nat) (h : p = 0 ∨ q = 0) :
    Encrypt params sk m p q e a = .error .division_by_zero := by
  simp only [Encrypt, h, if_true]

/-- The scalar of `Encrypt` through the exact sum, when the running sum cannot
leave the word or `q` divides the word size. -/
theorem Encrypt_eq_sum (params : LWECryptoParams) (sk : LWEPrivateKeyImpl) (m p q e : Nat)
    (a : List Nat) (hp : 1 ≤ p) (hq : 0 < q)
    (hw : (m % p) * (q / p) + e + sk.s.data.length * q < 2 ^ NATIVEINT
      ∨ 2 ^ NATIVEINT % q = 0) :
    Encrypt params sk m p q e a = .ok
      { a := { data := a, modulus := q }
        b := ((m % p) * (q / p) + e +
          innerSum { data := a, modulus := q } (sk.s.SwitchModulus q) q sk.s.data.length) % q
        p := p } := by
  rw [Encrypt_eq _ _ _ _ _ _ _ hp hq]
  rcases hw with h | h
  · rw [Nat.mod_eq_of_lt (by omega : (m % p) * (q / p) + e < 2 ^ NATIVEINT),
      accumulateInner_mod_q _ _ _ _ _ hq (Or.inl (le_of_lt h))]
  · have hle := Nat.mod_le ((m % p) * (q / p) + e) (2 ^ NATIVEINT)
    rw [accumulateInner_mod_q _ _ _ _ _ hq (Or.inr h)]
    congr 1
    have h1 : ((m % p) * (q / p) + e) % 2 ^ NATIVEINT % q = ((m % p) * (q / p) + e) % q :=
      Nat.mod_mod_of_dvd _ (Nat.dvd_of_mod_eq_zero h)
    rw [Nat.add_mod, h1, ← Nat.add_mod]

/-- `Decrypt` through its phase; the product `p * r` wraps in the word. -/
theorem Decrypt_eq_word (params : LWECryptoParams) (sk : LWEPrivateKeyImpl)
    (ct : LWECiphertextImpl) (p : Nat) (hp : 1 ≤ p) (hq : 0 < ct.a.modulus) :
    Decrypt params sk ct p = .ok
      ((p * ModAddFast (decryptPhase sk ct) (ct.a.modulus / (p * 2)) ct.a.modulus)
        % 2 ^ NATIVEINT / ct.a.modulus) := by
  have h : ¬ (p * 2 = 0 ∨ ct.a.modulus = 0) := by omega
  simp only [Decrypt, divisibilityGuard_eq_false, Bool.false_eq_true, if_false, Mod,
    NativeVector.GetLength, LWECiphertextImpl.GetModulus, decryptPhase, h]

theorem ModSubFast_lt (a b q : Nat) (ha : a < q) (hb : b ≤ q) : ModSubFast a b q < q := by
  rw [ModSubFast_of_le _ _ _ (by omega)]
  split_ifs <;> omega

theorem decryptPhase_lt (sk : LWEPrivateKeyImpl) (ct : LWECiphertextImpl)
    (hb : ct.b < ct.a.modulus) : decryptPhase sk ct < ct.a.modulus :=
  ModSubFast_lt _ _ _ hb (le_of_lt (Nat.mod_lt _ (by omega)))

theorem ModAddFast_lt (a b q : Nat) (ha : a < q) (hb : b < q) : ModAddFast a b q < q := by
  rw [ModAddFast_of_lt _ _ _ ha hb]
  split_ifs <;> omega

/-- The product `p * r` of `Decrypt` for a reduced `b`: below `p * q`. -/
theorem decryptRound_lt (sk : LWEPrivateKeyImpl) (ct : LWECiphertextImpl) (p : Nat)
    (hp : 1 ≤ p) (hb : ct.b < ct.a.modulus) :
    p * ModAddFast (decryptPhase sk ct) (ct.a.modulus / (p * 2)) ct.a.modulus
      < p * ct.a.modulus := by
  have hq : 0 < ct.a.modulus := by omega
  have h1 := decryptPhase_lt sk ct hb
  have h2 : ct.a.modulus / (p * 2) < ct.a.modulus := Nat.div_lt_self hq (by omega)
  exact Nat.mul_lt_mul_of_pos_left (ModAddFast_lt _ _ _ h1 h2) (by omega)

/-- `Decrypt` through its phase, for a reduced `b` and a product `p * r` that
stays within the word. -/
theorem Decrypt_eq (params : LWECryptoParams) (sk : LWEPrivateKeyImpl) (ct : LWECiphertextImpl)
    (p : Nat) (hp : 1 ≤ p) (hq : 0 < ct.a.modulus) (hb : ct.b < ct.a.modulus)
    (hpq : p * ct.a.modulus ≤ 2 ^ NATIVEINT) :
    Decrypt params sk ct p = .ok
      (p * ModAddFast (decryptPhase sk ct) (ct.a.modulus / (p * 2)) ct.a.modulus
        / ct.a.modulus) := by
  rw [Decrypt_eq_word _ _ _ _ hp hq,
    Nat.mod_eq_of_lt (lt_of_lt_of_le (decryptRound_lt sk ct p hp hb) hpq)]

/-- With `p = 0` or under the modulus `0` the call of `Decrypt` divides by zero. -/
theorem Decrypt_division_by_zero (params : LWECryptoParams) (sk : LWEPrivateKeyImpl)
    (ct : LWECiphertextImpl) (p : Nat) (h : p = 0 ∨ ct.a.modulus = 0) :
    Decrypt params sk ct p = .error .division_by_zero := by
  have h2 : p * 2 = 0 ∨ ct.a.modulus = 0 := by omega
  simp only [Decrypt, LWECiphertextImpl.GetModulus, h2, if_true]

/-- The phase of `Decrypt` through the exact sum, when the running sum cannot
leave the word or the modulus divides the word size. -/
theorem decryptPhase_eq_sum (sk : LWEPrivateKeyImpl) (ct : LWECiphertextImpl)
    (hq : 0 < ct.a.modulus)
    (hw : sk.s.data.length * ct.a.modulus ≤ 2 ^ NATIVEINT
      ∨ 2 ^ NATIVEINT % ct.a.modulus = 0) :
    decryptPhase sk ct = ModSubFast ct.b
      (innerSum ct.a (sk.s.SwitchModulus ct.a.modulus) ct.a.modulus sk.s.data.length
        % ct.a.modulus) ct.a.modulus := by
  unfold decryptPhase
  rw [accumulateInner_mod_q _ _ _ _ _ hq (by simpa using hw), Nat.zero_add]

/-- Zero-noise encryption followed by decryption returns the message, when the
running sums cannot leave the word or `q` divides the word size. -/
theorem Encrypt_Decrypt_zero_noise (params : LWECryptoParams) (sk : LWEPrivateKeyImpl)
    (m p q : Nat) (a : List Nat) (hp : 1 ≤ p) (hq : 0 < q) (hdvd : q % p = 0) (hm : m < p)
    (hw : (sk.s.data.length + 1) * q ≤ 2 ^ NATIVEINT ∨ 2 ^ NATIVEINT % q = 0)
    (hpq : p * q ≤ 2 ^ NATIVEINT) :
    (Encrypt params sk m p q 0 a >>= fun ct => Decrypt params sk ct p) = .ok m := by
  have hX : m * (q / p) < q := by
    obtain ⟨d, rfl⟩ : p ∣ q := Nat.dvd_of_mod_eq_zero hdvd
    rw [Nat.mul_div_cancel_left d (by omega)]
    have hd : 0 < d := Nat.pos_of_ne_zero (by rintro rfl; simp at hq)
    calc m * d < p * d := Nat.mul_lt_mul_of_pos_right hm hd
      _ = p * d := rfl
  have hw1 : (m % p) * (q / p) + 0 + sk.s.data.length * q < 2 ^ NATIVEINT
      ∨ 2 ^ NATIVEINT % q = 0 := by
    rcases hw with h | h
    · left
      rw [Nat.mod_eq_of_lt hm]
      rw [Nat.add_mul] at h
      omega
    · exact Or.inr h
  have hw2 : sk.s.data.length * q ≤ 2 ^ NATIVEINT ∨ 2 ^ NATIVEINT % q = 0 := by
    rcases hw with h | h
    · left
      rw [Nat.add_mul] at h
      omega
    · exact Or.inr h
  rw [Encrypt_eq_sum _ _ _ _ _ _ _ hp hq hw1]
  show Decrypt params sk _ p = _
  rw [Decrypt_eq _ _ _ _ hp hq (Nat.mod_lt _ hq) hpq, decryptPhase_eq_sum _ _ hq hw2]
  simp only [Nat.add_zero, Nat.mod_eq_of_lt hm]
  rw [ModSubFast_add_mod _ _ _ hX, round_scaled m p q hp hq hdvd hm]

theorem ModSubFast_int (a b q : Nat) (ha : a < q) (hb : b < q) :
    ((ModSubFast a b q : Nat) : Int) = ((a : Int) - (b : Int)) % (q : Int) := by
  rw [ModSubFast_of_le _ _ _ (by omega)]
  split_ifs with h
  · rw [← Int.add_emod_self, Int.emod_eq_of_lt (by omega) (by omega)]
    omega
  · rw [Int.emod_eq_of_lt (by omega) (by omega)]
    omega

theorem ModAddFast_eq_mod (a b q : Nat) (ha : a < q) (hb : b < q) :
    ModAddFast a b q = (a + b) % q := by
  rw [add_mod_cases a b q ha hb]
  simp only [ModAddFast]
  split_ifs <;> omega

theorem decryptPhase_int (sk : LWEPrivateKeyImpl) (ct : LWECiphertextImpl)
    (hb : ct.b < ct.a.modulus) (hlen : ct.a.data.length = sk.s.data.length)
    (hw : sk.s.data.length * ct.a.modulus ≤ 2 ^ NATIVEINT
      ∨ 2 ^ NATIVEINT % ct.a.modulus = 0) :
    ((decryptPhase sk ct : Nat) : Int) =
      ((ct.b : Int) - (innerProduct ct.a.data (sk.s.SwitchModulus ct.a.modulus).data : Nat))
        % (ct.a.modulus : Int) := by
  have hq : 0 < ct.a.modulus := by omega
  rw [decryptPhase_eq_sum _ _ hq hw]
  have hl : ct.a.data.length = (sk.s.SwitchModulus ct.a.modulus).data.length := by
    simpa using hlen
  have hacc := innerSum_mod ct.a (sk.s.SwitchModulus ct.a.modulus) ct.a.modulus hl
  rw [SwitchModulus_length] at hacc
  rw [hacc, ModSubFast_int _ _ _ hb (Nat.mod_lt _ hq), Int.natCast_mod, Int.sub_emod,
    Int.emod_emod_of_dvd _ (dvd_refl _), ← Int.sub_emod]

theorem round_offset (p h y : Nat) (hp : 0 < p) :
    p * (y % (2 * p * h)) / (2 * p * h) = y / (2 * h) % p := by
  have e1 : 2 * p * h = p * (2 * h) := by ring
  have e2 : 2 * p * h = (2 * h) * p := by ring
  rw [e1, Nat.mul_div_mul_left _ _ hp, ← e1, e2, Nat.mod_mul_right_div_self]

theorem floor_half_add (p h x : Nat) (hp : 0 < p) (hh : 0 < h) :
    ⌊(1 / 2 : ℚ) + ((p : ℚ) * (x : ℚ)) / ((2 * p * h : Nat) : ℚ)⌋ = ((x + h) / (2 * h) : Nat) := by
  have hp' : (p : ℚ) ≠ 0 := by exact_mod_cast hp.ne'
  have hh' : (h : ℚ) ≠ 0 := by exact_mod_cast hh.ne'
  have : (1 / 2 : ℚ) + ((p : ℚ) * (x : ℚ)) / ((2 * p * h : Nat) : ℚ)
      = ((x + h : Nat) : ℚ) / ((2 * h : Nat) : ℚ) := by
    push_cast
    field_simp
    ring
  rw [this, Rat.floor_natCast_div_natCast]
  norm_cast

/-- C4 (code at the failing input). With `q = 1024` and `p = 3`, so that
`q % p != 0`, `Encrypt` and `EncryptN` still return a ciphertext: the guard
`mod % p != 0 && mod.ConvertToInt() & (1 == 0)` is false for every input. -/
theorem C4_encrypt_accepts_indivisible_modulus :
    1024 % 3 ≠ 0
    ∧ Encrypt scenarioParams scenarioKey 2 3 1024 0 [5, 10, 15, 20] = .ok
        { a := { data := [5, 10, 15, 20], modulus := 1024 }, b := 692, p := 3 }
    ∧ EncryptN scenarioParams
        { A := [{ data := [1, 2], modulus := 1024 }, { data := [3, 4], modulus := 1024 }]
          v := { data := [1023, 1023], modulus := 1024 } }
        2 3 1024 0 [1, 1023] [0, 0] = .ok
        { a := { data := [1022, 1022], modulus := 1024 }, b := 682, p := 3 }
    ∧ ∀ remainder modInt, divisibilityGuard remainder modInt = false := by
  refine ⟨by decide, by rfl, by rfl, divisibilityGuard_eq_false⟩

/-- C5 (code at the failing input). With `q = 1024` and `p = 3`, so that
`q % (2p) != 0`, `Decrypt` still returns a plaintext: the guard
`mod % (p * 2) != 0 && mod.ConvertToInt() & (1 == 0)` is false for every input. -/
theorem C5_decrypt_accepts_indivisible_modulus :
    1024 % (2 * 3) ≠ 0
    ∧ Decrypt scenarioParams scenarioKey
        { a := { data := [5, 10, 15, 20], modulus := 1024 }, b := 692, p := 3 } 3 = .ok 2
    ∧ ∀ remainder modInt, divisibilityGuard remainder modInt = false := by
  refine ⟨by decide, by rfl, divisibilityGuard_eq_false⟩

theorem updateEach_succ (f : Nat → Nat → Nat) (n : Nat) (l : List Nat) :
    updateEach f (n + 1) l = (updateEach f n l).set n (f n ((updateEach f n l).getD n 0)) := by
  simp [updateEach, List.range_succ, List.foldl_append]

@[simp]

theorem updateEach_length (f : Nat → Nat → Nat) (n : Nat) (l : List Nat) :
    (updateEach f n l).length = l.length := by
  induction n with
  | zero => simp [updateEach]
  | succ n ih => rw [updateEach_succ, List.length_set, ih]

theorem updateEach_getD (f : Nat → Nat → Nat) (n : Nat) (l : List Nat) (i : Nat) :
    (updateEach f n l).getD i 0 =
      if i < n ∧ i < l.length then f i (l.getD i 0) else l.getD i 0 := by
  induction n with
  | zero => simp [updateEach]
  | succ n ih =>
    rw [updateEach_succ]
    have hn := ih
    simp only [List.getD_eq_getElem?_getD, List.getElem?_set, updateEach_length] at hn ⊢
    by_cases hin : n = i
    · subst hin
      simp only [if_true]
      by_cases hl : n < l.length
      · have hn' : (updateEach f n l)[n]?.getD 0 = l[n]?.getD 0 := by simpa using hn
        rw [hn']
        simp [hl]
      · have : l.length ≤ n := by omega
        simp [hl, List.getElem?_eq_none this]
    · have hlt : i < n + 1 ↔ i < n := by omega
      simp only [if_neg hin, hn, hlt]

theorem updateEach_eq_map (f : Nat → Nat → Nat) (l : List Nat) :
    updateEach f l.length l = (List.range l.length).map (fun i => f i (l.getD i 0)) := by
  apply List.ext_getElem
  · simp
  · intro i h1 h2
    simp only [updateEach_length] at h1
    have := updateEach_getD f l.length l i
    simp only [h1, and_self, if_true] at this
    rw [List.getD_eq_getElem _ _ (by simpa using h1)] at this
    simp [this]

theorem ModAdd_eq_mod (a b q : Nat) (hq : 0 < q) : ModAdd a b q = (a + b) % q := by
  unfold ModAdd
  rw [ModAddFast_eq_mod _ _ _ (Nat.mod_lt _ hq) (Nat.mod_lt _ hq), ← Nat.add_mod]

theorem foldl_ModAdd (f : Nat → Nat) (q : Nat) (hq : 0 < q) (l : List Nat) (x : Nat)
    (hx : x < q) :
    l.foldl (fun x i => ModAdd x (f i) q) x = (x + (l.map f).sum) % q := by
  induction l generalizing x with
  | nil => simp [Nat.mod_eq_of_lt hx]
  | cons a as ih =>
    simp only [List.foldl_cons, List.map_cons, List.sum_cons]
    rw [ih _ (by rw [ModAdd_eq_mod _ _ _ hq]; exact Nat.mod_lt _ hq), ModAdd_eq_mod _ _ _ hq,
      Nat.mod_add_mod, Nat.add_assoc]

theorem list_sum_range (f : Nat → Nat) (n : Nat) :
    ((List.range n).map f).sum = ∑ i ∈ Finset.range n, f i := by
  induction n with
  | zero => simp
  | succ n ih => simp [List.range_succ, Finset.sum_range_succ, ih]

theorem sum_mod_mod (f : Nat → Nat) (n q : Nat) :
    (∑ i ∈ Finset.range n, f i % q) % q = (∑ i ∈ Finset.range n, f i) % q := by
  rw [← list_sum_range, ← list_sum_range]
  have := sum_map_mod_mod ((List.range n).map f) q
  simpa [List.map_map, Function.comp_def] using this

theorem accumulateRow_zero (row s : NativeVector) (q dim : Nat) (hq : 0 < q) :
    accumulateRow row s q dim 0 = (∑ i ∈ Finset.range dim, row.at i * s.at i) % q := by
  unfold accumulateRow
  rw [foldl_ModAdd (fun i => ModMulFast (row.at i) (s.at i) q) q hq _ 0 hq, Nat.zero_add,
    list_sum_range]
  simp only [ModMulFast]
  rw [sum_mod_mod]

theorem PubKeyGen_A (params : LWECryptoParams) (skN : LWEPrivateKeyImpl)
    (ASample : List (List Nat)) (eSample : List Nat) :
    (PubKeyGen params skN ASample eSample).A =
      (List.range params.N).map fun i => { data := ASample.getD i [], modulus := params.Q } := rfl

theorem PubKeyGen_v (params : LWECryptoParams) (skN : LWEPrivateKeyImpl)
    (ASample : List (List Nat)) (eSample : List Nat) (hQ : 0 < params.Q)
    (he : eSample.length = params.N) :
    (PubKeyGen params skN ASample eSample).v =
      { data := (List.range params.N).map fun j =>
          (∑ i ∈ Finset.range params.N, (ASample.getD j []).getD i 0 * skN.s.at i) % params.Q
        modulus := params.Q } := by
  simp only [PubKeyGen]
  congr 1
  have h1 : updateEach (fun _ _ => 0) params.N eSample = List.replicate params.N 0 := by
    rw [← he, updateEach_eq_map]
    apply List.ext_getElem <;> simp
  rw [h1]
  have h2 := updateEach_eq_map
    (fun j x => accumulateRow
      (((List.range params.N).map fun i =>
        ({ data := ASample.getD i [], modulus := params.Q } : NativeVector)).getD j
        { data := [], modulus := 0 }) skN.s params.Q params.N x) (List.replicate params.N 0)
  simp only [List.length_replicate] at h2
  rw [h2]
  apply List.map_congr_left
  intro j hj
  have hj' : j < params.N := by simpa using hj
  have hrow : ((List.range params.N).map fun i =>
        ({ data := ASample.getD i [], modulus := params.Q } : NativeVector)).getD j
        { data := [], modulus := 0 } = { data := ASample.getD j [], modulus := params.Q } := by
    simp [List.getD_eq_getElem?_getD, hj']
  rw [hrow]
  have hz : (List.replicate params.N 0).getD j 0 = 0 := by
    simp [List.getD_eq_getElem?_getD, hj']
  rw [hz, accumulateRow_zero _ _ _ _ hQ]
  rfl

theorem ModMul_eq_mod (a b q : Nat) : ModMul a b q = (a * b) % q := by
  unfold ModMul
  rw [← Nat.mul_mod]

/-- The vector `a` of `EncryptN` after `k` rounds of the column loop. -/
theorem EncryptN_columns (A : List NativeVector) (sp : NativeVector) (ep : List Nat)
    (q N : Nat) (hq : 0 < q) (hep : ep.length = N) (hepq : ∀ i, ep.getD i 0 < q)
    (hA : ∀ j, j < N →
      (A.getD j { data := [], modulus := 0 }).data.length = N ∧
      (A.getD j { data := [], modulus := 0 }).modulus = q)
    (k : Nat) (hk : k ≤ N) :
    (List.range k).foldl
      (fun a j => a.ModAddEq ((A.getD j { data := [], modulus := 0 }).ModMul (sp.at j)))
      ({ data := ep, modulus := q } : NativeVector) =
    { data := (List.range N).map fun i =>
        (ep.getD i 0 + ∑ j ∈ Finset.range k,
          (A.getD j { data := [], modulus := 0 }).at i * sp.at j) % q
      modulus := q } := by
  induction k with
  | zero =>
    simp only [List.range_zero, List.foldl_nil, Finset.range_zero, Finset.sum_empty, Nat.add_zero]
    congr 1
    apply List.ext_getElem
    · simp [hep]
    · intro i h1 h2
      have := hepq i
      rw [List.getD_eq_getElem _ _ h1] at this
      simp [List.getElem?_eq_getElem h1, Nat.mod_eq_of_lt this]
  | succ k ih =>
    rw [List.range_succ, List.foldl_append, ih (by omega)]
    obtain ⟨hlen, hmod⟩ := hA k (by omega)
    simp only [List.foldl_cons, List.foldl_nil, NativeVector.ModAddEq, NativeVector.ModMul, hmod]
    congr 1
    apply List.ext_getElem
    · have hlen' := hlen
      simp only [List.getD_eq_getElem?_getD] at hlen'
      simp [hlen']
    · intro i h1 h2
      have hi : i < N := by simpa using h2
      have hi' : i < (A.getD k { data := [], modulus := 0 }).data.length := by omega
      simp only [List.getElem_zipWith, List.getElem_map, List.getElem_range,
        Finset.sum_range_succ, NativeVector.at, List.getD_eq_getElem _ _ hi']
      rw [ModAddFast_eq_mod _ _ _ (Nat.mod_lt _ hq) (by rw [ModMul_eq_mod]; exact Nat.mod_lt _ hq),
        ModMul_eq_mod, Nat.mod_add_mod, Nat.add_mod_mod, Nat.add_assoc]

theorem innerProduct_eq_sum (a s : List Nat) (h : a.length = s.length) :
    innerProduct a s = ∑ i ∈ Finset.range s.length, a.getD i 0 * s.getD i 0 := by
  unfold innerProduct
  rw [← range_map_getD_eq_zipWith (· * ·) a s h, list_sum_range]

theorem SwitchModulus_at_cast (v : NativeVector) (q : Nat) (hq : 0 < q) (hmod : v.modulus = q)
    (i : Nat) :
    (((v.SwitchModulus q).at i : Nat) : ZMod q) = ((v.at i : Nat) : ZMod q) := by
  simp only [NativeVector.at, NativeVector.SwitchModulus, hmod, List.getD_eq_getElem?_getD,
    List.getElem?_map]
  rcases hx : v.data[i]? with _ | x
  · simp
  · simp only [Option.map_some', Option.getD_some]
    split_ifs with h
    · have hnn : (0 : Int) ≤ ((x : Int) - (q : Int)) % (q : Int) :=
        Int.emod_nonneg _ (by omega)
      rw [ZMod.natCast_toNat q hnn, ZMod.intCast_mod]
      simp
    · simp

theorem decryptPhase_eq_of_cast (sk : LWEPrivateKeyImpl) (ct : LWECiphertextImpl) (X : Nat)
    (hb : ct.b < ct.a.modulus) (hlen : ct.a.data.length = sk.s.data.length)
    (hX : X < ct.a.modulus)
    (hw : sk.s.data.length * ct.a.modulus ≤ 2 ^ NATIVEINT
      ∨ 2 ^ NATIVEINT % ct.a.modulus = 0)
    (h : (ct.b : ZMod ct.a.modulus)
        - ((innerProduct ct.a.data (sk.s.SwitchModulus ct.a.modulus).data : Nat) : ZMod ct.a.modulus)
        = (X : ZMod ct.a.modulus)) :
    decryptPhase sk ct = X := by
  have hint := decryptPhase_int sk ct hb hlen hw
  have hlt := decryptPhase_lt sk ct hb
  have hc : ((decryptPhase sk ct : Nat) : ZMod ct.a.modulus) = (X : ZMod ct.a.modulus) := by
    have := congrArg (fun z : Int => (z : ZMod ct.a.modulus)) hint
    simp only [Int.cast_natCast, ZMod.intCast_mod, Int.cast_sub] at this
    rw [this, h]
  rw [ZMod.natCast_eq_natCast_iff'] at hc
  rwa [Nat.mod_eq_of_lt hlt, Nat.mod_eq_of_lt hX] at hc

theorem EncryptN_eq (params : LWECryptoParams) (pk : LWEPublicKeyImpl) (m p q e : Nat)
    (sp ep : List Nat) (hp : 1 ≤ p) (hq : 0 < q) (hep : ep.length = pk.v.data.length)
    (hepq : ∀ i, ep.getD i 0 < q)
    (hA : ∀ j, j < pk.v.data.length →
      (pk.A.getD j { data := [], modulus := 0 }).data.length = pk.v.data.length ∧
      (pk.A.getD j { data := [], modulus := 0 }).modulus = q)
    (hb : (m % p) * (q / p) + e < q) (hqW : q ≤ 2 ^ NATIVEINT) :
    EncryptN params pk m p q e sp ep = .ok
      { a := { data := (List.range pk.v.data.length).map (fun i =>
            (ep.getD i 0 + ∑ j ∈ Finset.range pk.v.data.length,
              (pk.A.getD j { data := [], modulus := 0 }).at i * sp.getD j 0) % q),
               modulus := q },
        b := ((m % p) * (q / p) + e + ∑ i ∈ Finset.range pk.v.data.length,
            (pk.v.SwitchModulus q).at i * sp.getD i 0) % q,
        p := p } := by
  have hz : ¬ (p = 0 ∨ q = 0) := by omega
  simp only [EncryptN, divisibilityGuard_eq_false, Bool.false_eq_true, if_false,
    NativeVector.GetLength, hz]
  rw [Nat.mod_eq_of_lt (lt_of_lt_of_le hb hqW)]
  rw [EncryptN_columns pk.A { data := sp, modulus := q } ep q pk.v.data.length hq hep hepq hA
    pk.v.data.length (le_refl _)]
  rw [foldl_ModAdd (fun i => ModMulFast ((pk.v.SwitchModulus q).at i)
    (NativeVector.at { data := sp, modulus := q } i) q) q hq _ _ hb, list_sum_range]
  simp only [ModMulFast, NativeVector.at]
  rw [Nat.add_mod, sum_mod_mod, ← Nat.add_mod]

theorem PubKeyGen_row (params : LWECryptoParams) (skN : LWEPrivateKeyImpl)
    (ASample : List (List Nat)) (eSample : List Nat) (j : Nat) (hj : j < params.N) :
    (PubKeyGen params skN ASample eSample).A.getD j { data := [], modulus := 0 } =
      { data := ASample.getD j [], modulus := params.Q } := by
  rw [PubKeyGen_A]
  simp [List.getD_eq_getElem?_getD, hj]

/-- C10 (code at the failing input). With `N = 2`, `Q = 8`, `A = [[1, 2], [3, 4]]`,
secret `[1, -1]` and sampled error `e = [3, 5]`, `PubKeyGen` returns
`v = [7, 7] = A * s mod 8`: the loop `v[i] = 0` erases the error before the
rows are accumulated, so the key is the one obtained with `e = [0, 0]`, whereas
`A * s + e` has first coordinate `(3 + (1 * 1 + 2 * 7)) mod 8 = 2`. -/
theorem C10_pubkeygen_discards_error :
    (PubKeyGen pkScenarioParams pkScenarioKey [[1, 2], [3, 4]] [3, 5]).v
        = { data := [7, 7], modulus := 8 }
    ∧ PubKeyGen pkScenarioParams pkScenarioKey [[1, 2], [3, 4]] [3, 5]
        = PubKeyGen pkScenarioParams pkScenarioKey [[1, 2], [3, 4]] [0, 0]
    ∧ (3 + (1 * 1 + 2 * 7)) % 8 = 2 := by
  refine ⟨by rfl, by rfl, by decide⟩

theorem populateDigits_state (baseKS d : Nat) :
    (List.range d).foldl
      (fun (st : List Nat × Nat) _ => (st.1 ++ [st.2], (st.2 * baseKS) % 2 ^ NATIVEINT))
      ([], 1)
      = ((List.range d).map fun k => baseKS ^ k % 2 ^ NATIVEINT,
          baseKS ^ d % 2 ^ NATIVEINT) := by
  induction d with
  | zero => simp [NATIVEINT]
  | succ d ih =>
    rw [List.range_succ, List.foldl_append, ih]
    simp [List.map_append, Nat.pow_succ, Nat.mod_mul_mod]

theorem populateDigits_getD (baseKS d k : Nat) (hk : k < d) :
    (populateDigits baseKS d).getD k 0 = baseKS ^ k % 2 ^ NATIVEINT := by
  unfold populateDigits
  rw [populateDigits_state]
  simp [List.getD_eq_getElem?_getD, hk]

theorem foldl_ModAddFast (f : Nat → Nat) (q : Nat) (hf : ∀ i, f i < q) (l : List Nat) (x : Nat)
    (hx : x < q) :
    l.foldl (fun x i => ModAddFast x (f i) q) x = (x + (l.map f).sum) % q := by
  induction l generalizing x with
  | nil => simp [Nat.mod_eq_of_lt hx]
  | cons a as ih =>
    have hq : 0 < q := by omega
    simp only [List.foldl_cons, List.map_cons, List.sum_cons]
    rw [ih _ (by rw [ModAddFast_eq_mod _ _ _ hx (hf a)]; exact Nat.mod_lt _ hq),
      ModAddFast_eq_mod _ _ _ hx (hf a), Nat.mod_add_mod, Nat.add_assoc]

/-- The entry that `KeySwitchGen` stores, with the factor `j * digitsKS[k]`
as the word holds it. -/
theorem KeySwitchGenEntry_eq_word (n qKS baseKS d : Nat) (sv svN : NativeVector) (i j k : Nat)
    (aSample : List Nat) (hq : 0 < qKS) (hk : k < d) (hlen : aSample.length = n)
    (hsv : sv.data.length = n) :
    KeySwitchGenEntry n qKS (populateDigits baseKS d) sv svN i j k aSample =
      ({ data := aSample, modulus := qKS },
        ((j * baseKS ^ k) % 2 ^ NATIVEINT * svN.at i + innerProduct aSample sv.data) % qKS) := by
  unfold KeySwitchGenEntry
  simp only [populateDigits_getD _ _ _ hk, Mod, Nat.mod_mod]
  congr 1
  rw [foldl_ModAddFast
    (fun ai => ModMulFast (NativeVector.at { data := aSample, modulus := qKS } ai) (sv.at ai) qKS)
    qKS (fun _ => Nat.mod_lt _ hq) _ _ (by rw [ModMul_eq_mod]; exact Nat.mod_lt _ hq),
    Nat.mod_mod, ModMul_eq_mod, Nat.mod_add_mod]
  have h := innerSum_mod { data := aSample, modulus := qKS } sv qKS (by simp [hlen, hsv])
  unfold innerSum at h
  rw [hsv] at h
  rw [Nat.mul_mod_mod, Nat.add_mod, h, ← Nat.add_mod, Nat.mul_comm (svN.at i)]

/-- The factor `(j * baseKS ^ k) mod 2 ^ NATIVEINT` is `j * baseKS ^ k` modulo
`qKS` when the product stays within the word or `qKS` divides the word size. -/
theorem digitFactor_mul_mod (j baseKS k x y qKS : Nat)
    (hwd : j * baseKS ^ k < 2 ^ NATIVEINT ∨ 2 ^ NATIVEINT % qKS = 0) :
    ((j * baseKS ^ k) % 2 ^ NATIVEINT * x + y) % qKS = (j * baseKS ^ k * x + y) % qKS := by
  rcases hwd with h | h
  · rw [Nat.mod_eq_of_lt h]
  · have h1 : (j * baseKS ^ k) % 2 ^ NATIVEINT % qKS = (j * baseKS ^ k) % qKS :=
      Nat.mod_mod_of_dvd _ (Nat.dvd_of_mod_eq_zero h)
    rw [Nat.add_mod, Nat.mul_mod, h1, ← Nat.mul_mod, ← Nat.add_mod]

theorem KeySwitchGenEntry_eq (n qKS baseKS d : Nat) (sv svN : NativeVector) (i j k : Nat)
    (aSample : List Nat) (hq : 0 < qKS) (hk : k < d) (hlen : aSample.length = n)
    (hsv : sv.data.length = n)
    (hwd : j * baseKS ^ k < 2 ^ NATIVEINT ∨ 2 ^ NATIVEINT % qKS = 0) :
    KeySwitchGenEntry n qKS (populateDigits baseKS d) sv svN i j k aSample =
      ({ data := aSample, modulus := qKS },
        (j * baseKS ^ k * svN.at i + innerProduct aSample sv.data) % qKS) := by
  rw [KeySwitchGenEntry_eq_word n qKS baseKS d sv svN i j k aSample hq hk hlen hsv,
    digitFactor_mul_mod _ _ _ _ _ _ hwd]

theorem getD_map_range {α : Type} (f : Nat → α) (n i : Nat) (d : α) (hi : i < n) :
    ((List.range n).map f).getD i d = f i := by
  simp [List.getD_eq_getElem?_getD, hi]

theorem KeySwitchGen_atA (params : LWECryptoParams) (digitCount : Nat)
    (sk skN : LWEPrivateKeyImpl) (aSample : Nat → Nat → Nat → List Nat) (i j k : Nat)
    (hi : i < params.N) (hj : j < params.baseKS) (hk : k < digitCount) :
    (KeySwitchGenBody params digitCount sk skN aSample).atA i j k =
      { data := aSample i j k, modulus := params.qKS } := by
  simp only [KeySwitchGenBody, LWESwitchingKeyImpl.atA]
  rw [getD_map_range _ _ _ _ hi, getD_map_range _ _ _ _ hj, getD_map_range _ _ _ _ hk]
  rfl

theorem KeySwitchGen_atB_word (params : LWECryptoParams) (digitCount : Nat)
    (sk skN : LWEPrivateKeyImpl) (aSample : Nat → Nat → Nat → List Nat) (i j k : Nat)
    (hq : 0 < params.qKS) (hsk : sk.s.data.length = params.n)
    (hlen : (aSample i j k).length = params.n)
    (hi : i < params.N) (hj : j < params.baseKS) (hk : k < digitCount) :
    (KeySwitchGenBody params digitCount sk skN aSample).atB i j k =
      ((j * params.baseKS ^ k) % 2 ^ NATIVEINT * (skN.s.SwitchModulus params.qKS).at i
        + innerProduct (aSample i j k) (sk.s.SwitchModulus params.qKS).data) % params.qKS := by
  simp only [KeySwitchGenBody, LWESwitchingKeyImpl.atB]
  rw [getD_map_range _ _ _ _ hi, getD_map_range _ _ _ _ hj, getD_map_range _ _ _ _ hk,
    KeySwitchGenEntry_eq_word _ _ _ _ _ _ _ _ _ _ hq hk hlen (by simpa using hsk)]

theorem KeySwitchGen_atB (params : LWECryptoParams) (digitCount : Nat)
    (sk skN : LWEPrivateKeyImpl) (aSample : Nat → Nat → Nat → List Nat) (i j k : Nat)
    (hq : 0 < params.qKS) (hsk : sk.s.data.length = params.n)
    (hlen : (aSample i j k).length = params.n)
    (hi : i < params.N) (hj : j < params.baseKS) (hk : k < digitCount)
    (hwd : j * params.baseKS ^ k < 2 ^ NATIVEINT ∨ 2 ^ NATIVEINT % params.qKS = 0) :
    (KeySwitchGenBody params digitCount sk skN aSample).atB i j k =
      (j * params.baseKS ^ k * (skN.s.SwitchModulus params.qKS).at i
        + innerProduct (aSample i j k) (sk.s.SwitchModulus params.qKS).data) % params.qKS := by
  simp only [KeySwitchGenBody, LWESwitchingKeyImpl.atB]
  rw [getD_map_range _ _ _ _ hi, getD_map_range _ _ _ _ hj, getD_map_range _ _ _ _ hk,
    KeySwitchGenEntry_eq _ _ _ _ _ _ _ _ _ _ hq hk hlen (by simpa using hsk) hwd]

theorem foldl_range_invariant {σ : Type} (P : Nat → σ → Prop) (f : σ → Nat → σ) (s0 : σ)
    (n : Nat) (h0 : P 0 s0) (hstep : ∀ k s, k < n → P k s → P (k + 1) (f s k)) :
    P n ((List.range n).foldl f s0) := by
  suffices h : ∀ m, m ≤ n → P m ((List.range m).foldl f s0) from h n (le_refl n)
  intro m
  induction m with
  | zero => intro _; simpa using h0
  | succ m ih =>
    intro hm
    rw [List.range_succ, List.foldl_append]
    exact hstep m _ (by omega) (ih (by omega))

theorem ModSubFast_cast (a b q : Nat) (hb : b ≤ q) :
    ((ModSubFast a b q : Nat) : ZMod q) = (a : ZMod q) - (b : ZMod q) := by
  rw [ModSubFast_of_le _ _ _ (by omega)]
  split_ifs with h
  · rw [Nat.cast_sub (by omega), Nat.cast_add, ZMod.natCast_self, add_zero]
  · rw [Nat.cast_sub (by omega)]

/-- One digit step of `KeySwitch` lowers the phase of the accumulator by
`digit * baseKS^j * skN[i]`. -/
theorem KeySwitchDigit_spec (n q baseKS : Nat) (K : LWESwitchingKeyImpl) (i j : Nat)
    (sv : Nat → Nat) (svNi : Nat) (st : KeySwitchState)
    (hlen : st.a.length = n) (ha : ∀ t, st.a.getD t 0 < q) (hb : st.b < q)
    (hKA : ∀ t, (K.atA i (st.atmp % baseKS) j).at t < q)
    (hKB : K.atB i (st.atmp % baseKS) j < q)
    (hKeq : ((K.atB i (st.atmp % baseKS) j : Nat) : ZMod q) =
      ((st.atmp % baseKS * baseKS ^ j : Nat) : ZMod q) * (svNi : ZMod q)
        + ∑ t ∈ Finset.range n,
            (((K.atA i (st.atmp % baseKS) j).at t : Nat) : ZMod q) * (sv t : ZMod q)) :
    (KeySwitchDigit n q baseKS K i st j).atmp = st.atmp / baseKS
    ∧ (KeySwitchDigit n q baseKS K i st j).a.length = n
    ∧ (∀ t, (KeySwitchDigit n q baseKS K i st j).a.getD t 0 < q)
    ∧ (KeySwitchDigit n q baseKS K i st j).b < q
    ∧ (((KeySwitchDigit n q baseKS K i st j).b : Nat) : ZMod q)
        - ∑ t ∈ Finset.range n,
            (((KeySwitchDigit n q baseKS K i st j).a.getD t 0 : Nat) : ZMod q) * (sv t : ZMod q)
      = ((st.b : ZMod q) - ∑ t ∈ Finset.range n, ((st.a.getD t 0 : Nat) : ZMod q) * (sv t : ZMod q))
        - ((st.atmp % baseKS * baseKS ^ j : Nat) : ZMod q) * (svNi : ZMod q) := by
  have hget : ∀ t, (KeySwitchDigit n q baseKS K i st j).a.getD t 0 =
      if t < n then ModSubFast (st.a.getD t 0) ((K.atA i (st.atmp % baseKS) j).at t) q
      else st.a.getD t 0 := by
    intro t
    simp only [KeySwitchDigit]
    rw [updateEach_getD, hlen]
    simp only [and_self]
  refine ⟨rfl, by simp [KeySwitchDigit, hlen], ?_, ModSubFast_lt _ _ _ hb (le_of_lt hKB), ?_⟩
  · intro t
    rw [hget]
    split_ifs
    · exact ModSubFast_lt _ _ _ (ha t) (le_of_lt (hKA t))
    · exact ha t
  · have hsum : ∑ t ∈ Finset.range n,
          (((KeySwitchDigit n q baseKS K i st j).a.getD t 0 : Nat) : ZMod q) * (sv t : ZMod q)
        = ∑ t ∈ Finset.range n, ((st.a.getD t 0 : Nat) : ZMod q) * (sv t : ZMod q)
          - ∑ t ∈ Finset.range n,
            (((K.atA i (st.atmp % baseKS) j).at t : Nat) : ZMod q) * (sv t : ZMod q) := by
      rw [← Finset.sum_sub_distrib]
      apply Finset.sum_congr rfl
      intro t ht
      rw [hget, if_pos (Finset.mem_range.mp ht), ModSubFast_cast _ _ _ (le_of_lt (hKA t)), sub_mul]
    have hbcast : (((KeySwitchDigit n q baseKS K i st j).b : Nat) : ZMod q)
        = (st.b : ZMod q) - ((K.atB i (st.atmp % baseKS) j : Nat) : ZMod q) := by
      simp only [KeySwitchDigit]
      exact ModSubFast_cast _ _ _ (le_of_lt hKB)
    rw [hsum, hbcast, hKeq]
    ring

/-- The digit loop of `KeySwitch` for coordinate `i` with value `x`: the phase of
the accumulator drops by `x * skN[i]` once all digits are consumed. -/
theorem KeySwitch_digits_spec (n q baseKS d : Nat) (K : LWESwitchingKeyImpl) (i : Nat)
    (sv : Nat → Nat) (svNi : Nat) (x : Nat) (a0 : List Nat) (b0 : Nat)
    (hbase : 0 < baseKS) (hx : x < baseKS ^ d)
    (hlen : a0.length = n) (ha : ∀ t, a0.getD t 0 < q) (hb : b0 < q)
    (hK : ∀ v j, v < baseKS → j < d →
      (∀ t, (K.atA i v j).at t < q) ∧ K.atB i v j < q ∧
      (v * baseKS ^ j ≤ x →
        ((K.atB i v j : Nat) : ZMod q) =
          ((v * baseKS ^ j : Nat) : ZMod q) * (svNi : ZMod q)
            + ∑ t ∈ Finset.range n, (((K.atA i v j).at t : Nat) : ZMod q) * (sv t : ZMod q))) :
    ((List.range d).foldl (KeySwitchDigit n q baseKS K i) { atmp := x, a := a0, b := b0 }).a.length
        = n
    ∧ (∀ t, ((List.range d).foldl (KeySwitchDigit n q baseKS K i)
        { atmp := x, a := a0, b := b0 }).a.getD t 0 < q)
    ∧ ((List.range d).foldl (KeySwitchDigit n q baseKS K i) { atmp := x, a := a0, b := b0 }).b < q
    ∧ ((((List.range d).foldl (KeySwitchDigit n q baseKS K i)
          { atmp := x, a := a0, b := b0 }).b : Nat) : ZMod q)
        - ∑ t ∈ Finset.range n,
            ((((List.range d).foldl (KeySwitchDigit n q baseKS K i)
              { atmp := x, a := a0, b := b0 }).a.getD t 0 : Nat) : ZMod q) * (sv t : ZMod q)
      = ((b0 : ZMod q) - ∑ t ∈ Finset.range n, ((a0.getD t 0 : Nat) : ZMod q) * (sv t : ZMod q))
        - (x : ZMod q) * (svNi : ZMod q) := by
  have key := foldl_range_invariant
    (fun j (st : KeySwitchState) =>
      st.atmp = x / baseKS ^ j ∧ st.a.length = n ∧ (∀ t, st.a.getD t 0 < q) ∧ st.b < q ∧
      ((st.b : ZMod q) - ∑ t ∈ Finset.range n, ((st.a.getD t 0 : Nat) : ZMod q) * (sv t : ZMod q)
        = ((b0 : ZMod q) - ∑ t ∈ Finset.range n, ((a0.getD t 0 : Nat) : ZMod q) * (sv t : ZMod q))
          - ((x % baseKS ^ j : Nat) : ZMod q) * (svNi : ZMod q)))
    (KeySwitchDigit n q baseKS K i) { atmp := x, a := a0, b := b0 } d
    (by
      refine ⟨by simp, hlen, ha, hb, ?_⟩
      simp [Nat.mod_one])
    (by
      intro j st hj ⟨h1, h2, h3, h4, h5⟩
      obtain ⟨k1, k2, k3⟩ := hK (st.atmp % baseKS) j (Nat.mod_lt _ hbase) hj
      have hused : st.atmp % baseKS * baseKS ^ j ≤ x := by
        rw [h1]
        exact le_trans (Nat.mul_le_mul_right _ (Nat.mod_le _ _)) (Nat.div_mul_le_self _ _)
      obtain ⟨s1, s2, s3, s4, s5⟩ :=
        KeySwitchDigit_spec n q baseKS K i j sv svNi st h2 h3 h4 k1 k2 (k3 hused)
      refine ⟨?_, s2, s3, s4, ?_⟩
      · rw [s1, h1, Nat.div_div_eq_div_mul, ← Nat.pow_succ]
      · rw [s5, h5, Nat.mod_pow_succ, h1]
        push_cast
        ring)
  obtain ⟨_, h2, h3, h4, h5⟩ := key
  refine ⟨h2, h3, h4, ?_⟩
  rw [h5, Nat.mod_eq_of_lt hx]

/-- `KeySwitch` with a key whose entries, those that the digits of the
coordinates select, encode `v * baseKS^j * svN[i]` under `sv`: the output has
dimension `n`, reduced coordinates, and the phase of the input. -/
theorem KeySwitch_spec (params : LWECryptoParams) (d : Nat) (K : LWESwitchingKeyImpl)
    (ct : LWECiphertextImpl) (sv svN : Nat → Nat)
    (hq : 0 < params.qKS) (hbase : 0 < params.baseKS) (hd : params.qKS ≤ params.baseKS ^ d)
    (hcta : ∀ i, ct.a.at i < params.qKS) (hctb : ct.b < params.qKS)
    (hK : ∀ i v j, i < params.N → v < params.baseKS → j < d →
      (∀ t, (K.atA i v j).at t < params.qKS) ∧ K.atB i v j < params.qKS ∧
      (v * params.baseKS ^ j ≤ ct.a.at i →
        ((K.atB i v j : Nat) : ZMod params.qKS) =
          ((v * params.baseKS ^ j : Nat) : ZMod params.qKS) * (svN i : ZMod params.qKS)
            + ∑ t ∈ Finset.range params.n,
                (((K.atA i v j).at t : Nat) : ZMod params.qKS) * (sv t : ZMod params.qKS))) :
    (KeySwitchBody params d K ct).a.data.length = params.n
    ∧ (KeySwitchBody params d K ct).a.modulus = params.qKS
    ∧ (∀ t, (KeySwitchBody params d K ct).a.data.getD t 0 < params.qKS)
    ∧ (KeySwitchBody params d K ct).b < params.qKS
    ∧ (((KeySwitchBody params d K ct).b : Nat) : ZMod params.qKS)
        - ∑ t ∈ Finset.range params.n,
            (((KeySwitchBody params d K ct).a.data.getD t 0 : Nat) : ZMod params.qKS)
              * (sv t : ZMod params.qKS)
      = (ct.b : ZMod params.qKS)
        - ∑ i ∈ Finset.range params.N,
            ((ct.a.at i : Nat) : ZMod params.qKS) * (svN i : ZMod params.qKS) := by
  have key := foldl_range_invariant
    (fun i (ab : List Nat × Nat) =>
      ab.1.length = params.n ∧ (∀ t, ab.1.getD t 0 < params.qKS) ∧ ab.2 < params.qKS ∧
      ((ab.2 : ZMod params.qKS) - ∑ t ∈ Finset.range params.n,
          ((ab.1.getD t 0 : Nat) : ZMod params.qKS) * (sv t : ZMod params.qKS)
        = (ct.b : ZMod params.qKS) - ∑ k ∈ Finset.range i,
            ((ct.a.at k : Nat) : ZMod params.qKS) * (svN k : ZMod params.qKS)))
    (fun (ab : List Nat × Nat) i =>
      let st := (List.range d).foldl (KeySwitchDigit params.n params.qKS params.baseKS K i)
        { atmp := ct.a.at i, a := ab.1, b := ab.2 }
      (st.a, st.b))
    (List.replicate params.n 0, ct.b) params.N
    (by
      refine ⟨by simp, ?_, hctb, ?_⟩
      · intro t
        by_cases h : t < params.n <;> simp [List.getD_eq_getElem?_getD, h, hq]
      · have hz : ∀ t, (List.replicate params.n 0).getD t 0 = 0 := by
          intro t
          by_cases h : t < params.n <;> simp [List.getD_eq_getElem?_getD, h]
        simp [hz])
    (by
      intro i ab hi ⟨h1, h2, h3, h4⟩
      obtain ⟨s1, s2, s3, s4⟩ := KeySwitch_digits_spec params.n params.qKS params.baseKS d K i
        sv (svN i) (ct.a.at i) ab.1 ab.2 hbase (lt_of_lt_of_le (hcta i) hd) h1 h2 h3
        (fun v j hv hj => hK i v j hi hv hj)
      refine ⟨s1, s2, s3, ?_⟩
      simp only []
      rw [s4, h4, Finset.sum_range_succ]
      ring)
  obtain ⟨h1, h2, h3, h4⟩ := key
  exact ⟨h1, rfl, h2, h3, h4⟩

theorem decryptPhase_cast (sk : LWEPrivateKeyImpl) (ct : LWECiphertextImpl)
    (hb : ct.b < ct.a.modulus) (hlen : ct.a.data.length = sk.s.data.length)
    (hw : sk.s.data.length * ct.a.modulus ≤ 2 ^ NATIVEINT
      ∨ 2 ^ NATIVEINT % ct.a.modulus = 0) :
    ((decryptPhase sk ct : Nat) : ZMod ct.a.modulus) =
      (ct.b : ZMod ct.a.modulus)
        - ((innerProduct ct.a.data (sk.s.SwitchModulus ct.a.modulus).data : Nat)
            : ZMod ct.a.modulus) := by
  have := congrArg (fun z : Int => (z : ZMod ct.a.modulus)) (decryptPhase_int sk ct hb hlen hw)
  simpa only [Int.cast_natCast, ZMod.intCast_mod, Int.cast_sub] using this

/-- Two ciphertexts under the same modulus whose phases under their keys agree
decrypt to the same plaintext. -/
theorem Decrypt_eq_of_phase (params : LWECryptoParams) (sk1 sk2 : LWEPrivateKeyImpl)
    (a1 a2 : List Nat) (b1 b2 p1 p2 q p : Nat)
    (hb1 : b1 < q) (hb2 : b2 < q)
    (hlen1 : a1.length = sk1.s.data.length) (hlen2 : a2.length = sk2.s.data.length)
    (hw1 : sk1.s.data.length * q ≤ 2 ^ NATIVEINT ∨ 2 ^ NATIVEINT % q = 0)
    (hw2 : sk2.s.data.length * q ≤ 2 ^ NATIVEINT ∨ 2 ^ NATIVEINT % q = 0)
    (h : (b1 : ZMod q) - ((innerProduct a1 (sk1.s.SwitchModulus q).data : Nat) : ZMod q)
        = (b2 : ZMod q) - ((innerProduct a2 (sk2.s.SwitchModulus q).data : Nat) : ZMod q)) :
    Decrypt params sk1 { a := { data := a1, modulus := q }, b := b1, p := p1 } p
      = Decrypt params sk2 { a := { data := a2, modulus := q }, b := b2, p := p2 } p := by
  rcases Nat.eq_zero_or_pos p with hp | hp
  · rw [Decrypt_division_by_zero _ _ _ _ (Or.inl hp),
      Decrypt_division_by_zero _ _ _ _ (Or.inl hp)]
  have hq : 0 < q := by omega
  rw [Decrypt_eq_word _ _ _ _ hp hq, Decrypt_eq_word _ _ _ _ hp hq]
  have h2lt := decryptPhase_lt sk2 { a := { data := a2, modulus := q }, b := b2, p := p2 } hb2
  have h2c := decryptPhase_cast sk2 { a := { data := a2, modulus := q }, b := b2, p := p2 }
    hb2 hlen2 hw2
  have := decryptPhase_eq_of_cast sk1 { a := { data := a1, modulus := q }, b := b1, p := p1 }
    (decryptPhase sk2 { a := { data := a2, modulus := q }, b := b2, p := p2 }) hb1 hlen1 h2lt
    hw1 (by rw [h2c]; exact h)
  rw [this]

theorem KeySwitchGen_entries (params : LWECryptoParams) (d : Nat) (sk skN : LWEPrivateKeyImpl)
    (aSample : Nat → Nat → Nat → List Nat)
    (hq : 0 < params.qKS) (hsk : sk.s.data.length = params.n)
    (hA : ∀ i j k, (aSample i j k).length = params.n ∧ ∀ x ∈ aSample i j k, x < params.qKS)
    (i v j : Nat) (hi : i < params.N) (hv : v < params.baseKS) (hj : j < d) :
    (∀ t, ((KeySwitchGenBody params d sk skN aSample).atA i v j).at t < params.qKS)
    ∧ (KeySwitchGenBody params d sk skN aSample).atB i v j < params.qKS
    ∧ ((v * params.baseKS ^ j < 2 ^ NATIVEINT ∨ 2 ^ NATIVEINT % params.qKS = 0) →
      (((KeySwitchGenBody params d sk skN aSample).atB i v j : Nat) : ZMod params.qKS) =
        ((v * params.baseKS ^ j : Nat) : ZMod params.qKS)
            * (((skN.s.SwitchModulus params.qKS).at i : Nat) : ZMod params.qKS)
          + ∑ t ∈ Finset.range params.n,
              ((((KeySwitchGenBody params d sk skN aSample).atA i v j).at t : Nat) : ZMod params.qKS)
                * (((sk.s.SwitchModulus params.qKS).at t : Nat) : ZMod params.qKS)) := by
  have hBlt : (KeySwitchGenBody params d sk skN aSample).atB i v j < params.qKS := by
    simp only [KeySwitchGenBody, LWESwitchingKeyImpl.atB]
    rw [getD_map_range _ _ _ _ hi, getD_map_range _ _ _ _ hv, getD_map_range _ _ _ _ hj]
    exact Nat.mod_lt _ hq
  rw [KeySwitchGen_atA _ _ _ _ _ _ _ _ hi hv hj]
  refine ⟨?_, hBlt, fun hwd => ?_⟩
  swap
  · rw [KeySwitchGen_atB _ _ _ _ _ _ _ _ hq hsk (hA i v j).1 hi hv hj hwd]
    rw [ZMod.natCast_mod, Nat.cast_add, Nat.cast_mul,
      innerProduct_eq_sum _ _ (by simp [(hA i v j).1, hsk]), SwitchModulus_length, hsk,
      Nat.cast_sum]
    simp only [Nat.cast_mul, NativeVector.at]
  · intro t
    simp only [NativeVector.at]
    by_cases ht : t < (aSample i v j).length
    · rw [List.getD_eq_getElem _ _ ht]
      exact (hA i v j).2 _ (List.getElem_mem _)
    · rw [List.getD_eq_default _ _ (by omega)]
      exact hq

/-- The loops of `KeySwitch` with the key of `KeySwitchGen` keep the phase when
the digits reach `qKS`, and the decryption when moreover the running sums of
`Decrypt` stay within the word. -/
theorem KeySwitch_KeySwitchGen_spec (params : LWECryptoParams) (digitCount : Nat)
    (sk skN : LWEPrivateKeyImpl) (aSample : Nat → Nat → Nat → List Nat)
    (ct : LWECiphertextImpl) (p : Nat)
    (hq : 0 < params.qKS) (hbase : 0 < params.baseKS)
    (hd : params.qKS ≤ params.baseKS ^ digitCount)
    (hsk : sk.s.GetLength = params.n) (hskN : skN.s.GetLength = params.N)
    (hA : ∀ i j k, (aSample i j k).length = params.n ∧ ∀ x ∈ aSample i j k, x < params.qKS)
    (hmod : ct.GetModulus = params.qKS) (hlen : ct.GetLength = params.N)
    (hcta : ∀ x ∈ ct.a.data, x < params.qKS) (hctb : ct.b < params.qKS)
    (hword : params.qKS ≤ 2 ^ NATIVEINT) :
    (KeySwitchBody params digitCount (KeySwitchGenBody params digitCount sk skN aSample) ct).GetLength
        = params.n
    ∧ Int.ModEq (params.qKS : Int)
        (((KeySwitchBody params digitCount (KeySwitchGenBody params digitCount sk skN aSample) ct).b : Int)
          - (innerProduct
              (KeySwitchBody params digitCount (KeySwitchGenBody params digitCount sk skN aSample) ct).a.data
              (sk.s.SwitchModulus params.qKS).data : Nat))
        ((ct.b : Int) - (innerProduct ct.a.data (skN.s.SwitchModulus params.qKS).data : Nat))
    ∧ ((params.n * params.qKS ≤ 2 ^ NATIVEINT ∨ 2 ^ NATIVEINT % params.qKS = 0) →
        (params.N * params.qKS ≤ 2 ^ NATIVEINT ∨ 2 ^ NATIVEINT % params.qKS = 0) →
        Decrypt params sk
          (KeySwitchBody params digitCount (KeySwitchGenBody params digitCount sk skN aSample) ct) p
        = Decrypt params skN ct p) := by
  simp only [NativeVector.GetLength, LWECiphertextImpl.GetLength,
    LWECiphertextImpl.GetModulus] at hsk hskN hmod hlen ⊢
  have hcta' : ∀ i, ct.a.at i < params.qKS := by
    intro i
    simp only [NativeVector.at]
    by_cases hi : i < ct.a.data.length
    · rw [List.getD_eq_getElem _ _ hi]
      exact hcta _ (List.getElem_mem _)
    · rw [List.getD_eq_default _ _ (by omega)]
      exact hq
  obtain ⟨h1, h2, h3, h4, h5⟩ := KeySwitch_spec params digitCount
    (KeySwitchGenBody params digitCount sk skN aSample) ct
    (fun t => (sk.s.SwitchModulus params.qKS).at t)
    (fun i => (skN.s.SwitchModulus params.qKS).at i) hq hbase hd hcta' hctb
    (fun i v j hi hv hj =>
      have h := KeySwitchGen_entries params digitCount sk skN aSample hq hsk hA i v j hi hv hj
      ⟨h.1, h.2.1, fun hle =>
        h.2.2 (Or.inl (lt_of_le_of_lt hle (lt_of_lt_of_le (hcta' i) hword)))⟩)
  generalize KeySwitchBody params digitCount (KeySwitchGenBody params digitCount sk skN aSample) ct
    = out at h1 h2 h3 h4 h5 ⊢
  obtain ⟨⟨a', q'⟩, b', p'⟩ := out
  obtain ⟨⟨a, q⟩, b, pc⟩ := ct
  simp only at h1 h2 h3 h4 h5 hmod hlen hcta hctb ⊢
  subst h2
  subst hmod
  have hz : (b' : ZMod params.qKS)
        - ((innerProduct a' (sk.s.SwitchModulus params.qKS).data : Nat) : ZMod params.qKS)
      = (b : ZMod params.qKS)
        - ((innerProduct a (skN.s.SwitchModulus params.qKS).data : Nat) : ZMod params.qKS) := by
    rw [innerProduct_eq_sum _ _ (by simp [h1, hsk]), innerProduct_eq_sum _ _ (by simp [hlen, hskN]),
      SwitchModulus_length, SwitchModulus_length, hsk, hskN, Nat.cast_sum, Nat.cast_sum]
    simp only [Nat.cast_mul]
    exact h5
  refine ⟨h1, ?_, ?_⟩
  · rw [← ZMod.intCast_eq_intCast_iff]
    push_cast
    exact hz
  · intro hwn hwN
    exact Decrypt_eq_of_phase params sk skN a' a b' b p' pc params.qKS p h4 hctb
      (by rw [h1, hsk]) (by rw [hlen, hskN]) (by rw [hsk]; exact hwn) (by rw [hskN]; exact hwN) hz

theorem ksScenarioSample_ok (i j k : Nat) :
    (ksScenarioSample i j k).length = 2 ∧ ∀ x ∈ ksScenarioSample i j k, x < 8 := by
  refine ⟨rfl, ?_⟩
  intro x hx
  simp only [ksScenarioSample, List.mem_cons, List.mem_singleton, List.not_mem_nil,
    or_false] at hx
  rcases hx with rfl | rfl <;> exact Nat.mod_lt _ (by decide)

theorem ModSwitch_eq (q : Nat) (ct : LWECiphertextImpl) :
    ModSwitch q ct =
      { a := { data := (List.range ct.a.data.length).map
                 (fun i => RoundqQ (ct.a.at i) q ct.a.modulus),
               modulus := q },
        b := RoundqQ ct.b q ct.a.modulus } := by
  simp only [ModSwitch, LWECiphertextImpl.GetLength, NativeVector.GetLength,
    LWECiphertextImpl.GetModulus]
  have h := updateEach_eq_map (fun i _ => RoundqQ (ct.a.at i) q ct.a.modulus)
    (List.replicate ct.a.data.length 0)
  simp only [List.length_replicate] at h
  rw [h]

theorem RoundqQ_lt (v q Q : Nat) (hq : 0 < q) : RoundqQ v q Q < q :=
  Nat.mod_lt _ hq

theorem ModAddFast_cast (a b q : Nat) (ha : a < q) (hb : b < q) :
    ((ModAddFast a b q : Nat) : ZMod q) = (a : ZMod q) + (b : ZMod q) := by
  rw [ModAddFast_of_lt _ _ _ ha hb]
  split_ifs with h
  · rw [Nat.cast_sub h, Nat.cast_add, ZMod.natCast_self, sub_zero]
  · rw [Nat.cast_add]

theorem innerProduct_cast (a s : List Nat) (q : Nat) (h : a.length = s.length) :
    ((innerProduct a s : Nat) : ZMod q) =
      ∑ i ∈ Finset.range s.length, ((a.getD i 0 : Nat) : ZMod q) * ((s.getD i 0 : Nat) : ZMod q) := by
  rw [innerProduct_eq_sum a s h, Nat.cast_sum]
  simp only [Nat.cast_mul]

/-- The `b` of a zero-noise encryption is the scaled message plus `<a, s>`, modulo `q`. -/
theorem Encrypt_phase_cast (sk : LWEPrivateKeyImpl) (m p q : Nat) (a : List Nat)
    (hlen : a.length = sk.s.data.length) :
    ((((m % p) * (q / p) + 0 +
        innerSum { data := a, modulus := q } (sk.s.SwitchModulus q) q
          sk.s.data.length) % q : Nat) : ZMod q)
      = (((m % p) * (q / p) : Nat) : ZMod q)
        + ((innerProduct a (sk.s.SwitchModulus q).data : Nat) : ZMod q) := by
  have hl : (NativeVector.mk a q).data.length = (sk.s.SwitchModulus q).data.length := by
    simpa using hlen
  have hacc := innerSum_mod (NativeVector.mk a q) (sk.s.SwitchModulus q) q hl
  rw [SwitchModulus_length] at hacc
  rw [ZMod.natCast_mod, Nat.add_zero, Nat.cast_add, ← ZMod.natCast_mod (innerSum _ _ _ _),
    hacc, ZMod.natCast_mod]

/-- A reduced ciphertext whose phase is `m * (q / p)` decrypts to `m`, when the
running sum and the product `p * r` stay within the word. -/
theorem Decrypt_of_phase (params : LWECryptoParams) (sk : LWEPrivateKeyImpl)
    (ct : LWECiphertextImpl) (m p : Nat) (hp : 1 ≤ p) (hq : 0 < ct.a.modulus)
    (hdvd : ct.a.modulus % p = 0) (hm : m < p) (hb : ct.b < ct.a.modulus)
    (hlen : ct.a.data.length = sk.s.data.length)
    (hw : sk.s.data.length * ct.a.modulus ≤ 2 ^ NATIVEINT
      ∨ 2 ^ NATIVEINT % ct.a.modulus = 0)
    (hpq : p * ct.a.modulus ≤ 2 ^ NATIVEINT)
    (h : (ct.b : ZMod ct.a.modulus)
        - ((innerProduct ct.a.data (sk.s.SwitchModulus ct.a.modulus).data : Nat) : ZMod ct.a.modulus)
        = ((m * (ct.a.modulus / p) : Nat) : ZMod ct.a.modulus)) :
    Decrypt params sk ct p = Except.ok m := by
  have hX : m * (ct.a.modulus / p) < ct.a.modulus := by
    obtain ⟨d, hd⟩ : p ∣ ct.a.modulus := Nat.dvd_of_mod_eq_zero hdvd
    rw [hd, Nat.mul_div_cancel_left d (by omega)]
    have hd0 : 0 < d := Nat.pos_of_ne_zero (by rintro rfl; simp at hd; omega)
    exact Nat.mul_lt_mul_of_pos_right hm hd0
  rw [Decrypt_eq _ _ _ _ hp hq hb hpq, decryptPhase_eq_of_cast sk ct _ hb hlen hX hw h,
    round_scaled m p ct.a.modulus hp hq hdvd hm]

theorem dvd_of_two_mul_mod {p q : Nat} (hq : 0 < q) (h : q % (2 * p) = 0) :
    1 ≤ p ∧ q % p = 0 := by
  have hp : 0 < p := by
    rcases Nat.eq_zero_or_pos p with h0 | h0
    · subst h0; simp at h; omega
    · exact h0
  refine ⟨hp, ?_⟩
  have h2 : 2 * p ∣ q := Nat.dvd_of_mod_eq_zero h
  exact Nat.mod_eq_zero_of_dvd (dvd_trans (Dvd.intro_left 2 rfl) h2)

theorem zipWith_getD_cast (f : Nat → Nat → Nat) (a1 a2 : List Nat) (i : Nat)
    (h1 : i < a1.length) (h2 : i < a2.length) :
    (List.zipWith f a1 a2).getD i 0 = f (a1.getD i 0) (a2.getD i 0) := by
  rw [List.getD_eq_getElem _ _ (by simp [h1, h2]), List.getD_eq_getElem _ _ h1,
    List.getD_eq_getElem _ _ h2, List.getElem_zipWith]

theorem map_getD_zero (f : Nat → Nat) (a : List Nat) (i : Nat) (hi : i < a.length) :
    (a.map f).getD i 0 = f (a.getD i 0) := by
  rw [List.getD_eq_getElem _ _ (by simpa using hi), List.getD_eq_getElem _ _ hi,
    List.getElem_map]

theorem innerProduct_switch_cast (a : List Nat) (v : NativeVector) (q : Nat) (hq : 0 < q)
    (hmod : v.modulus = q) (hlen : a.length = v.data.length) :
    ((innerProduct a (v.SwitchModulus q).data : Nat) : ZMod q) =
      ∑ i ∈ Finset.range v.data.length, ((a.getD i 0 : Nat) : ZMod q) * ((v.at i : Nat) : ZMod q) := by
  rw [innerProduct_cast a _ q (by simpa using hlen), SwitchModulus_length]
  apply Finset.sum_congr rfl
  intro i _
  have h := SwitchModulus_at_cast v q hq hmod i
  simp only [NativeVector.at] at h ⊢
  rw [h]

theorem MultipartyDecryptLead_eq (params : LWECryptoParams) (sk : LWEPrivateKeyImpl)
    (ct : LWECiphertextImpl) (p : Nat) (hp : 1 ≤ p) (hq : 0 < ct.a.modulus) :
    MultipartyDecryptLead params sk ct p = .ok { a := ct.a, b := decryptPhase sk ct } := by
  have h : ¬ (p * 2 = 0 ∨ ct.a.modulus = 0) := by omega
  simp only [MultipartyDecryptLead, divisibilityGuard_eq_false, Bool.false_eq_true, if_false,
    Mod, NativeVector.GetLength, LWECiphertextImpl.GetModulus, decryptPhase, h]

theorem MultipartyDecryptLead_division_by_zero (params : LWECryptoParams)
    (sk : LWEPrivateKeyImpl) (ct : LWECiphertextImpl) (p : Nat)
    (h : p = 0 ∨ ct.a.modulus = 0) :
    MultipartyDecryptLead params sk ct p = .error .division_by_zero := by
  have h2 : p * 2 = 0 ∨ ct.a.modulus = 0 := by omega
  simp only [MultipartyDecryptLead, LWECiphertextImpl.GetModulus, h2, if_true]

theorem MultipartyDecryptMain_division_by_zero (params : LWECryptoParams)
    (sk : LWEPrivateKeyImpl) (ct : LWECiphertextImpl) (p : Nat)
    (h : p = 0 ∨ ct.a.modulus = 0) :
    MultipartyDecryptMain params sk ct p = .error .division_by_zero := by
  have h2 : p * 2 = 0 ∨ ct.a.modulus = 0 := by omega
  simp only [MultipartyDecryptMain, LWECiphertextImpl.GetModulus, h2, if_true]

theorem MultipartyDecryptMain_eq (params : LWECryptoParams) (sk : LWEPrivateKeyImpl)
    (ct : LWECiphertextImpl) (p : Nat) (hp : 1 ≤ p) (hq : 0 < ct.a.modulus) :
    MultipartyDecryptMain params sk ct p = .ok
      { a := ct.a
        b := accumulateInner ct.a (sk.s.SwitchModulus ct.a.modulus) ct.a.modulus
          sk.s.data.length 0 % ct.a.modulus } := by
  have h : ¬ (p * 2 = 0 ∨ ct.a.modulus = 0) := by omega
  simp only [MultipartyDecryptMain, divisibilityGuard_eq_false, Bool.false_eq_true, if_false,
    Mod, NativeVector.GetLength, LWECiphertextImpl.GetModulus, h]

theorem MultipartyDecryptFusion_pair (l m : LWECiphertextImpl) (p : Nat) (hp : 1 ≤ p)
    (hq : 0 < l.a.modulus) :
    MultipartyDecryptFusion [l, m] p = .ok
      ((p * ModAddFast (ModSubFast l.b m.b l.a.modulus) (l.a.modulus / (p * 2)) l.a.modulus)
        % 2 ^ NATIVEINT / l.a.modulus) := by
  have h1 : p ≠ 0 := by omega
  have h2 : l.a.modulus ≠ 0 := by omega
  simp [MultipartyDecryptFusion, vectorRead, LWECiphertextImpl.GetModulus, List.range_succ, h1,
    h2, bind, Except.bind]

theorem foldl_range_getD {α β : Type} (f : β → α → β) (l : List α) (d : α) (init : β) :
    (List.range l.length).foldl (fun acc i => f acc (l.getD i d)) init = l.foldl f init := by
  induction l generalizing init with
  | nil => simp
  | cons x xs ih =>
    rw [List.length_cons, List.range_succ_eq_map, List.foldl_cons, List.foldl_map]
    simp only [List.getD_cons_zero, List.getD_cons_succ, List.foldl_cons]
    exact ih (f init x)

theorem getD_lt_of_forall (a : List Nat) (q : Nat) (hq : 0 < q) (h : ∀ x ∈ a, x < q) (i : Nat) :
    a.getD i 0 < q := by
  by_cases hi : i < a.length
  · rw [List.getD_eq_getElem _ _ hi]
    exact h _ (List.getElem_mem _)
  · rw [List.getD_eq_default _ _ (by omega)]
    exact hq

/-- Adding a reduced share of the same length into a reduced accumulator. -/
theorem addEq_data (acc x : LWEPrivateKeyImpl) (q n : Nat)
    (hmod : acc.s.modulus = q) (hlen : acc.s.data.length = n) (hred : ∀ y ∈ acc.s.data, y < q)
    (hxlen : x.s.data.length = n) (hxred : ∀ y ∈ x.s.data, y < q) :
    acc.addEq x =
      { s := { data := (List.range n).map (fun i => (acc.s.at i + x.s.at i) % q),
               modulus := q } } := by
  simp only [LWEPrivateKeyImpl.addEq, NativeVector.ModAddEq, hmod]
  congr 2
  apply List.ext_getElem
  · simp [hlen, hxlen]
  · intro i h1 h2
    have hi : i < n := by simpa using h2
    simp only [List.getElem_zipWith, List.getElem_map, List.getElem_range, NativeVector.at]
    rw [List.getD_eq_getElem _ _ (by omega), List.getD_eq_getElem _ _ (by omega)]
    exact ModAddFast_eq_mod _ _ _ (hred _ (List.getElem_mem _)) (hxred _ (List.getElem_mem _))

/-- Folding `+=` over reduced shares of equal length gives the coordinate-wise sum mod `q`. -/
theorem foldl_addEq (rest : List LWEPrivateKeyImpl) (acc : LWEPrivateKeyImpl) (q n : Nat)
    (hmod : acc.s.modulus = q) (hlen : acc.s.data.length = n) (hred : ∀ y ∈ acc.s.data, y < q)
    (hrest : ∀ sh ∈ rest, sh.s.data.length = n ∧ ∀ y ∈ sh.s.data, y < q) :
    rest.foldl (fun sk x => sk.addEq x) acc =
      { s := { data := (List.range n).map
                 (fun i => (acc.s.at i + (rest.map fun sh => sh.s.at i).sum) % q),
               modulus := q } } := by
  induction rest generalizing acc with
  | nil =>
    obtain ⟨⟨data, modulus⟩⟩ := acc
    simp only at hmod hlen hred
    subst hmod
    simp only [List.foldl_nil, List.map_nil, List.sum_nil, Nat.add_zero, NativeVector.at]
    congr 2
    apply List.ext_getElem
    · simp [hlen]
    · intro i h1 h2
      simp only [List.getElem_map, List.getElem_range]
      rw [List.getD_eq_getElem _ _ h1, Nat.mod_eq_of_lt (hred _ (List.getElem_mem _))]
  | cons x xs ih =>
    have hx := hrest x (List.mem_cons_self _ _)
    have hxs : ∀ sh ∈ xs, sh.s.data.length = n ∧ ∀ y ∈ sh.s.data, y < q :=
      fun sh hsh => hrest sh (List.mem_cons_of_mem _ hsh)
    have hstep := addEq_data acc x q n hmod hlen hred hx.1 hx.2
    rw [List.foldl_cons, hstep]
    rw [ih _ rfl (by simp) ?_ hxs]
    · congr 2
      apply List.map_congr_left
      intro i hi
      have hi' : i < n := by simpa using hi
      simp only [NativeVector.at, List.map_cons, List.sum_cons]
      rw [getD_map_range _ _ _ _ hi', Nat.mod_add_mod, Nat.add_assoc]
    · intro y hy
      simp only [List.mem_map] at hy
      obtain ⟨i, hi, rfl⟩ := hy
      have hi' : i < acc.s.data.length := by simpa [hlen] using hi
      have hpos : 0 < q := by
        have := hred _ (List.getElem_mem hi')
        omega
      exact Nat.mod_lt _ hpos

theorem MultipartyKeyGen_cons (first : LWEPrivateKeyImpl) (rest : List LWEPrivateKeyImpl)
    (params : LWECryptoParams) (ASample : List (List Nat)) (eSample : List Nat) :
    MultipartyKeyGen (first :: rest) params ASample eSample = .ok
      { keyPair :=
          { publicKey := PubKeyGen params (rest.foldl (fun sk x => sk.addEq x) first)
              ASample eSample,
            secretKey := rest.foldl (fun sk x => sk.addEq x) first },
        privateKeyVec := rest.foldl (fun sk x => sk.addEq x) first :: rest } := by
  have h := foldl_range_getD (fun (sk : LWEPrivateKeyImpl) x => sk.addEq x) rest first first
  simp only [MultipartyKeyGen, vectorRead, List.get?_cons_zero, bind, Except.bind, pure,
    Except.pure, List.length_cons, Nat.add_sub_cancel, List.getD_cons_succ,
    List.set_cons_zero, h]

theorem MultipartyDecryptFusion_cons (first : LWECiphertextImpl) (rest : List LWECiphertextImpl)
    (p : Nat) (hp : 1 ≤ p) (hq : 0 < first.a.modulus) :
    MultipartyDecryptFusion (first :: rest) p = .ok
      ((p * ModAddFast
          (rest.foldl (fun b share => ModSubFast b share.b first.a.modulus) first.b)
          (first.a.modulus / (p * 2)) first.a.modulus)
        % 2 ^ NATIVEINT / first.a.modulus) := by
  have h := foldl_range_getD
    (fun (b : Nat) (share : LWECiphertextImpl) => ModSubFast b share.b first.a.modulus)
    rest first first.b
  have hz : ¬ (p * 2 = 0 ∨ first.a.modulus = 0) := by omega
  simp only [MultipartyDecryptFusion, vectorRead, List.get?_cons_zero, bind, Except.bind,
    List.length_cons, Nat.add_sub_cancel, List.getD_cons_succ, LWECiphertextImpl.GetModulus, h,
    hz, if_false]

/-- C14. Multiparty secret additivity: for every non-empty list of private-key
shares of equal length and modulus, the private key in the pair returned by
`MultipartyKeyGen` is the coordinate-wise sum of all shares mod the shared
modulus, and the returned public key is `PubKeyGen` applied to that secret. -/
theorem C14_multiparty_secret_additivity (first : LWEPrivateKeyImpl)
    (rest : List LWEPrivateKeyImpl) (params : LWECryptoParams) (ASample : List (List Nat))
    (eSample : List Nat) (q n : Nat)
    (hall : ∀ sh ∈ first :: rest,
      sh.s.modulus = q ∧ sh.s.GetLength = n ∧ ∀ y ∈ sh.s.data, y < q) :
    ∃ r, MultipartyKeyGen (first :: rest) params ASample eSample = Except.ok r
      ∧ r.keyPair.secretKey =
          { s := { data := (List.range n).map
                     (fun i => ((first :: rest).map fun sh => sh.s.at i).sum % q),
                   modulus := q } }
      ∧ r.keyPair.publicKey = PubKeyGen params r.keyPair.secretKey ASample eSample := by
  refine ⟨_, MultipartyKeyGen_cons first rest params ASample eSample, ?_, rfl⟩
  obtain ⟨hmod, hlen, hred⟩ := hall first (List.mem_cons_self _ _)
  have hrest : ∀ sh ∈ rest, sh.s.data.length = n ∧ ∀ y ∈ sh.s.data, y < q := by
    intro sh hsh
    obtain ⟨_, h2, h3⟩ := hall sh (List.mem_cons_of_mem _ hsh)
    exact ⟨h2, h3⟩
  simp only []
  rw [foldl_addEq rest first q n hmod hlen hred hrest]
  simp only [List.map_cons, List.sum_cons]

theorem MultiPartyKeySwitchGenEntry_eq_word (n qKS baseKS d : Nat) (sv svN : NativeVector)
    (prev : LWESwitchingKeyImpl) (i j k : Nat) (hq : 0 < qKS) (hk : k < d)
    (hlen : (prev.atA i j k).data.length = n) (hsv : sv.data.length = n) :
    MultiPartyKeySwitchGenEntry n qKS (populateDigits baseKS d) sv svN prev i j k =
      ((j * baseKS ^ k) % 2 ^ NATIVEINT * svN.at i + innerProduct (prev.atA i j k).data sv.data
        + prev.atB i j k) % qKS := by
  unfold MultiPartyKeySwitchGenEntry
  simp only [populateDigits_getD _ _ _ hk]
  rw [foldl_ModAddFast (fun ai => ModMulFast ((prev.atA i j k).at ai) (sv.at ai) qKS)
    qKS (fun _ => Nat.mod_lt _ hq) _ _ (by rw [ModMul_eq_mod]; exact Nat.mod_lt _ hq),
    ModAdd_eq_mod _ _ _ hq, Nat.mod_add_mod, ModMul_eq_mod, Nat.mul_mod_mod]
  have h := innerSum_mod (prev.atA i j k) sv qKS (by rw [hlen, hsv])
  unfold innerSum at h
  rw [hsv] at h
  have h1 : Nat.ModEq qKS (svN.at i * ((j * baseKS ^ k) % 2 ^ NATIVEINT) % qKS)
      ((j * baseKS ^ k) % 2 ^ NATIVEINT * svN.at i) := by
    rw [Nat.mul_comm (svN.at i)]
    exact Nat.mod_modEq _ _
  exact Nat.ModEq.add (Nat.ModEq.add h1 h) (Nat.ModEq.refl _)

theorem MultiPartyKeySwitchGenEntry_eq (n qKS baseKS d : Nat) (sv svN : NativeVector)
    (prev : LWESwitchingKeyImpl) (i j k : Nat) (hq : 0 < qKS) (hk : k < d)
    (hlen : (prev.atA i j k).data.length = n) (hsv : sv.data.length = n)
    (hwd : j * baseKS ^ k < 2 ^ NATIVEINT ∨ 2 ^ NATIVEINT % qKS = 0) :
    MultiPartyKeySwitchGenEntry n qKS (populateDigits baseKS d) sv svN prev i j k =
      (j * baseKS ^ k * svN.at i + innerProduct (prev.atA i j k).data sv.data
        + prev.atB i j k) % qKS := by
  rw [MultiPartyKeySwitchGenEntry_eq_word n qKS baseKS d sv svN prev i j k hq hk hlen hsv,
    Nat.add_assoc, digitFactor_mul_mod _ _ _ _ _ _ hwd, Nat.add_assoc]

theorem MultiPartyKeySwitchGen_atB_word (params : LWECryptoParams) (digitCount : Nat)
    (sk skN : LWEPrivateKeyImpl) (prev : LWESwitchingKeyImpl) (i j k : Nat)
    (hq : 0 < params.qKS) (hsk : sk.s.data.length = params.n)
    (hlen : (prev.atA i j k).data.length = params.n)
    (hi : i < params.N) (hj : j < params.baseKS) (hk : k < digitCount) :
    (MultiPartyKeySwitchGenBody params digitCount sk skN prev).atB i j k =
      ((j * params.baseKS ^ k) % 2 ^ NATIVEINT * (skN.s.SwitchModulus params.qKS).at i
        + innerProduct (prev.atA i j k).data (sk.s.SwitchModulus params.qKS).data
        + prev.atB i j k) % params.qKS := by
  simp only [MultiPartyKeySwitchGenBody, LWESwitchingKeyImpl.atB]
  rw [getD_map_range _ _ _ _ hi, getD_map_range _ _ _ _ hj, getD_map_range _ _ _ _ hk,
    MultiPartyKeySwitchGenEntry_eq_word _ _ _ _ _ _ _ _ _ _ hq hk hlen (by simpa using hsk)]
  rfl

theorem MultiPartyKeySwitchGen_atB (params : LWECryptoParams) (digitCount : Nat)
    (sk skN : LWEPrivateKeyImpl) (prev : LWESwitchingKeyImpl) (i j k : Nat)
    (hq : 0 < params.qKS) (hsk : sk.s.data.length = params.n)
    (hlen : (prev.atA i j k).data.length = params.n)
    (hi : i < params.N) (hj : j < params.baseKS) (hk : k < digitCount)
    (hwd : j * params.baseKS ^ k < 2 ^ NATIVEINT ∨ 2 ^ NATIVEINT % params.qKS = 0) :
    (MultiPartyKeySwitchGenBody params digitCount sk skN prev).atB i j k =
      (j * params.baseKS ^ k * (skN.s.SwitchModulus params.qKS).at i
        + innerProduct (prev.atA i j k).data (sk.s.SwitchModulus params.qKS).data
        + prev.atB i j k) % params.qKS := by
  rw [MultiPartyKeySwitchGen_atB_word params digitCount sk skN prev i j k hq hsk hlen hi hj hk,
    Nat.add_assoc, digitFactor_mul_mod _ _ _ _ _ _ hwd, Nat.add_assoc]

/-- C17 (counterexample). `n = N = 2`, `qKS = 8`, `baseKS = 2`, three digits,
`sk_i = [1, -1]`, `skN = [-1, 1]`, prior key from `KeySwitchGen`: the entry
`B[0][1][0]` of `MultiPartyKeySwitchGen` is `0`, while
`(B_prior[0][1][0] + <A_prior[0][1][0], sk_i>) mod 8 = 1`; the difference is
`1 * 2^0 * skN[0] = 7`.  Moreover the factor `j * digitsKS[k]` is a product in
the 64-bit word: with `qKS = 3 * 2^58`, `baseKS = 2^25` (three digits),
`n = N = 1`, `sk_i = [0]`, `skN = [1]` and the prior key that `KeySwitchGen`
builds from zero secrets and zero vectors, whose entry `[0][2^14 + 1][2]` is
`([0], 0)`, the entry `B[0][2^14 + 1][2]` is `2^50`, the wrapped
`(2^14 + 1) * 2^50`, and not
`((2^14 + 1) * baseKS^2 * skN[0] + <A_prior, sk_i> + B_prior) mod qKS = 2^58 + 2^50`. -/
theorem C17_multiparty_switch_key_counterexample :
    (MultiPartyKeySwitchGen ksScenarioParams scenarioLog ksScenarioKey ksScenarioKeyN
        ksScenarioPrior).atB 0 1 0 = 0
    ∧ (ksScenarioPrior.atB 0 1 0
        + innerProduct (ksScenarioPrior.atA 0 1 0).data
            (ksScenarioKey.s.SwitchModulus 8).data) % 8 = 1
    ∧ digitCount scenarioLog gadgetScenarioParams.qKS gadgetScenarioParams.baseKS = 3
    ∧ gadgetScenarioPrior.atA 0 (2 ^ 14 + 1) 2 = { data := [0], modulus := 3 * 2 ^ 58 }
    ∧ gadgetScenarioPrior.atB 0 (2 ^ 14 + 1) 2 = 0
    ∧ (MultiPartyKeySwitchGen gadgetScenarioParams scenarioLog
        { s := { data := [0], modulus := 3 * 2 ^ 58 } }
        { s := { data := [1], modulus := 3 * 2 ^ 58 } }
        gadgetScenarioPrior).atB 0 (2 ^ 14 + 1) 2 = 2 ^ 50
    ∧ ((2 ^ 14 + 1) * (2 ^ 25) ^ 2 * 1 + innerProduct [0] [0] + 0) % (3 * 2 ^ 58)
        = 2 ^ 58 + 2 ^ 50 := by
  have hA : gadgetScenarioPrior.atA 0 (2 ^ 14 + 1) 2 = { data := [0], modulus := 3 * 2 ^ 58 } :=
    KeySwitchGen_atA gadgetScenarioParams
      (digitCount scenarioLog gadgetScenarioParams.qKS gadgetScenarioParams.baseKS)
      { s := { data := [0], modulus := 3 * 2 ^ 58 } }
      { s := { data := [0], modulus := 3 * 2 ^ 58 } } (fun _ _ _ => [0]) 0 (2 ^ 14 + 1) 2
      (by decide) (by decide) (by decide)
  have hB : gadgetScenarioPrior.atB 0 (2 ^ 14 + 1) 2 = 0 :=
    (KeySwitchGen_atB_word gadgetScenarioParams
      (digitCount scenarioLog gadgetScenarioParams.qKS gadgetScenarioParams.baseKS)
      { s := { data := [0], modulus := 3 * 2 ^ 58 } }
      { s := { data := [0], modulus := 3 * 2 ^ 58 } } (fun _ _ _ => [0]) 0 (2 ^ 14 + 1) 2
      (by decide) rfl rfl (by decide) (by decide) (by decide)).trans (by decide)
  refine ⟨by rfl, by rfl, by decide, hA, hB, ?_, by decide⟩
  have h := MultiPartyKeySwitchGen_atB_word gadgetScenarioParams
    (digitCount scenarioLog gadgetScenarioParams.qKS gadgetScenarioParams.baseKS)
    { s := { data := [0], modulus := 3 * 2 ^ 58 } }
    { s := { data := [1], modulus := 3 * 2 ^ 58 } }
    gadgetScenarioPrior 0 (2 ^ 14 + 1) 2 (by decide) rfl (by rw [hA]; rfl) (by decide)
    (by decide) (by decide)
  rw [hA, hB] at h
  exact h.trans (by decide)

/-- C17 (amended). For `qKS > 0`, `sk_i` of length `n` and a prior key whose `A`
entries have length `n`, `MultiPartyKeySwitchGen(params, sk_i, skN, prior)`
(default `NATIVEINT` build) returns a switching key whose `A` entries are exactly
the prior's `A` entries and whose `B` entries are, for every `i` in `[0, N)`,
`j` in `[0, baseKS)`, `k` in `[0, digitCount)`, with `digitCount` the value that
the code computes, `(uint32_t)ceil(log(qKS) / log(baseKS))`, and `sk_i`, `skN`
taken mod `qKS`,
`B[i][j][k] = (g * skN[i] + <A_prior[i][j][k], sk_i> + B_prior[i][j][k]) mod qKS`
with the factor `g = (j * baseKS^k) mod 2^64`, the product as the 64-bit word
holds it; `g` is `j * baseKS^k` when `j * baseKS^k < 2^64`, and can be replaced
by it when `qKS` divides `2^64`. -/
theorem C17_multiparty_switch_key_entries (params : LWECryptoParams) (log : Double → Double)
    (sk skN : LWEPrivateKeyImpl) (prior : LWESwitchingKeyImpl)
    (hq : 0 < params.qKS) (hsk : sk.s.GetLength = params.n)
    (hprior : ∀ i j k, i < params.N → j < params.baseKS →
      k < digitCount log params.qKS params.baseKS →
      (prior.atA i j k).GetLength = params.n) :
    (MultiPartyKeySwitchGen params log sk skN prior).A = prior.A
    ∧ ∀ i j k, i < params.N → j < params.baseKS →
      k < digitCount log params.qKS params.baseKS →
      (MultiPartyKeySwitchGen params log sk skN prior).atA i j k = prior.atA i j k
      ∧ (MultiPartyKeySwitchGen params log sk skN prior).atB i j k =
          ((j * params.baseKS ^ k) % 2 ^ NATIVEINT * (skN.s.SwitchModulus params.qKS).at i
            + innerProduct (prior.atA i j k).data (sk.s.SwitchModulus params.qKS).data
            + prior.atB i j k) % params.qKS
      ∧ ((j * params.baseKS ^ k < 2 ^ NATIVEINT ∨ 2 ^ NATIVEINT % params.qKS = 0) →
        (MultiPartyKeySwitchGen params log sk skN prior).atB i j k =
          (j * params.baseKS ^ k * (skN.s.SwitchModulus params.qKS).at i
            + innerProduct (prior.atA i j k).data (sk.s.SwitchModulus params.qKS).data
            + prior.atB i j k) % params.qKS) := by
  refine ⟨rfl, ?_⟩
  intro i j k hi hj hk
  exact ⟨rfl, MultiPartyKeySwitchGen_atB_word params (digitCount log params.qKS params.baseKS)
      sk skN prior i j k hq hsk (hprior i j k hi hj hk) hi hj hk,
    MultiPartyKeySwitchGen_atB params (digitCount log params.qKS params.baseKS)
      sk skN prior i j k hq hsk (hprior i j k hi hj hk) hi hj hk⟩

/-- Witness for C17 (amended): the small key-switching scenario. -/
theorem C17_multiparty_switch_key_entries_witness :
    (MultiPartyKeySwitchGen ksScenarioParams scenarioLog ksScenarioKey ksScenarioKeyN
        ksScenarioPrior).A
      = ksScenarioPrior.A :=
  (C17_multiparty_switch_key_entries ksScenarioParams scenarioLog ksScenarioKey ksScenarioKeyN
    ksScenarioPrior (by decide) rfl
    (fun i j k hi hj hk => by
      have h := KeySwitchGen_atA ksScenarioParams
        (digitCount scenarioLog ksScenarioParams.qKS ksScenarioParams.baseKS)
        ksScenarioKey ksScenarioKeyN ksScenarioSample i j k hi hj hk
      simp only [ksScenarioPrior, KeySwitchGen, h]
      rfl)).1

/-- C18 (code at the failing input). With `dim = 2`, `q = 8`, prior key
`(A, v) = ([[1, 2], [3, 4]], [5, 6])`, secret `[1, -1]` and sampled error
`e' = [3, 5]`, `MultipartyPubKeyGen` returns `v = [4, 5] = v_prior + A * s mod 8`:
the loop `v[i] = 0` erases the error, so the key is the one obtained with
`e' = [0, 0]`, whereas `v_prior + e' + A * s` has first coordinate
`(5 + 3 + (1 * 1 + 2 * 7)) mod 8 = 7`. -/
theorem C18_multiparty_pubkeygen_discards_error :
    MultipartyPubKeyGen pkScenarioKey pkScenarioPrior [3, 5]
        = { A := pkScenarioPrior.A, v := { data := [4, 5], modulus := 8 } }
    ∧ MultipartyPubKeyGen pkScenarioKey pkScenarioPrior [3, 5]
        = MultipartyPubKeyGen pkScenarioKey pkScenarioPrior [0, 0]
    ∧ (5 + 3 + (1 * 1 + 2 * 7)) % 8 = 7 := by
  refine ⟨by rfl, by rfl, by decide⟩

/-- The closed form of `MultipartyPubKeyGen`: the prior `v` plus `A * s`, row by row. -/
theorem MultipartyPubKeyGen_eq (sk : LWEPrivateKeyImpl) (pk : LWEPublicKeyImpl)
    (eSample : List Nat) (hq : 0 < pk.v.modulus) (he : eSample.length = pk.v.data.length) :
    MultipartyPubKeyGen sk pk eSample =
      { A := pk.A,
        v := { data := (List.range pk.v.data.length).map (fun j =>
                 ((∑ i ∈ Finset.range pk.v.data.length,
                     (pk.A.getD j { data := [], modulus := 0 }).at i * sk.s.at i)
                   + pk.v.at j) % pk.v.modulus),
               modulus := pk.v.modulus } } := by
  simp only [MultipartyPubKeyGen, LWEPublicKeyImpl.GetLength, LWEPublicKeyImpl.GetModulus,
    NativeVector.GetLength]
  congr 2
  have h1 : updateEach (fun _ _ => 0) pk.v.data.length eSample
      = List.replicate pk.v.data.length 0 := by
    rw [← he, updateEach_eq_map]
    apply List.ext_getElem <;> simp
  rw [h1]
  have h2 := updateEach_eq_map
    (fun j x => accumulateRow (pk.A.getD j { data := [], modulus := 0 }) sk.s pk.v.modulus
      pk.v.data.length x) (List.replicate pk.v.data.length 0)
  simp only [List.length_replicate] at h2
  rw [h2]
  have h3 := updateEach_eq_map (fun j x => ModAdd x (pk.v.at j) pk.v.modulus)
    ((List.range pk.v.data.length).map fun i =>
      accumulateRow (pk.A.getD i { data := [], modulus := 0 }) sk.s pk.v.modulus
        pk.v.data.length ((List.replicate pk.v.data.length 0).getD i 0))
  simp only [List.length_map, List.length_range] at h3
  rw [h3]
  apply List.map_congr_left
  intro j hj
  have hj' : j < pk.v.data.length := by simpa using hj
  have hz : (List.replicate pk.v.data.length 0).getD j 0 = 0 := by
    simp [List.getD_eq_getElem?_getD, hj']
  rw [getD_map_range _ _ _ _ hj', hz, accumulateRow_zero _ _ _ _ hq, ModAdd_eq_mod _ _ _ hq,
    Nat.mod_add_mod]

/-- C19. Public-key accumulation is order independent: for every public key
`pk = (A, v)` and every two party secrets `s1`, `s2` (each party's error draw
fixed), `MultipartyPubKeyGen(s2, MultipartyPubKeyGen(s1, pk))` and
`MultipartyPubKeyGen(s1, MultipartyPubKeyGen(s2, pk))` are the same public key. -/
theorem C19_pubkey_accumulation_commutes (pk : LWEPublicKeyImpl) (s1 s2 : LWEPrivateKeyImpl)
    (e1 e2 : List Nat) (hq : 0 < pk.GetModulus)
    (hs1 : s1.s.GetLength = pk.GetLength) (hs2 : s2.s.GetLength = pk.GetLength)
    (he1 : e1.length = pk.GetLength) (he2 : e2.length = pk.GetLength) :
    MultipartyPubKeyGen s2 (MultipartyPubKeyGen s1 pk e1) e2
      = MultipartyPubKeyGen s1 (MultipartyPubKeyGen s2 pk e2) e1 := by
  have _ := hs1
  have _ := hs2
  simp only [LWEPublicKeyImpl.GetLength, LWEPublicKeyImpl.GetModulus,
    NativeVector.GetLength] at hq he1 he2
  rw [MultipartyPubKeyGen_eq s1 pk e1 hq he1, MultipartyPubKeyGen_eq s2 pk e2 hq he2]
  rw [MultipartyPubKeyGen_eq s2 _ e2 (by simpa using hq) (by simpa using he2),
    MultipartyPubKeyGen_eq s1 _ e1 (by simpa using hq) (by simpa using he1)]
  simp only [List.length_map, List.length_range]
  congr 2
  apply List.map_congr_left
  intro j hj
  have hj' : j < pk.v.data.length := by simpa using hj
  simp only [NativeVector.at, getD_map_range _ _ _ _ hj']
  rw [Nat.add_mod_mod, Nat.add_mod_mod, Nat.add_left_comm]

/-- Witness for C14: the shares `[1, -1]` and `[-1, -1]` mod 8; the secret
returned is `[(1 + 7) mod 8, (7 + 7) mod 8] = [0, 6]`. -/
theorem C14_multiparty_secret_additivity_witness :
    ∃ r, MultipartyKeyGen [pkScenarioKey, pkScenarioKey2] pkScenarioParams
          [[1, 2], [3, 4]] [3, 5] = Except.ok r
      ∧ r.keyPair.secretKey =
          { s := { data := (List.range 2).map
                     (fun i => ([pkScenarioKey, pkScenarioKey2].map fun sh => sh.s.at i).sum % 8),
                   modulus := 8 } }
      ∧ r.keyPair.publicKey
          = PubKeyGen pkScenarioParams r.keyPair.secretKey [[1, 2], [3, 4]] [3, 5] :=
  C14_multiparty_secret_additivity pkScenarioKey [pkScenarioKey2] pkScenarioParams
    [[1, 2], [3, 4]] [3, 5] 8 2 (by decide)

/-- Witness for C19: the prior key `([[1, 2], [3, 4]], [5, 6]) mod 8`, the shares
`[1, -1]` and `[-1, -1]`, error draws `[3, 5]` and `[1, 2]`. -/
theorem C19_pubkey_accumulation_commutes_witness :
    MultipartyPubKeyGen pkScenarioKey2
        (MultipartyPubKeyGen pkScenarioKey pkScenarioPrior [3, 5]) [1, 2]
      = MultipartyPubKeyGen pkScenarioKey
        (MultipartyPubKeyGen pkScenarioKey2 pkScenarioPrior [1, 2]) [3, 5] :=
  C19_pubkey_accumulation_commutes pkScenarioPrior pkScenarioKey pkScenarioKey2 [3, 5] [1, 2]
    (by decide) rfl rfl rfl rfl

theorem sum_map_mod_modEq {α : Type} (f : α → Nat) (q : Nat) (l : List α) :
    Int.ModEq (q : Int) ((l.map fun s => ((f s % q : Nat) : Int)).sum)
      ((l.map fun s => ((f s : Nat) : Int)).sum) := by
  induction l with
  | nil => exact Int.ModEq.refl _
  | cons x xs ih =>
    simp only [List.map_cons, List.sum_cons]
    refine Int.ModEq.add ?_ ih
    rw [Int.natCast_mod]
    exact Int.mod_modEq _ _

theorem innerProduct_replicate_zero (n : Nat) (s : List Nat) :
    innerProduct (List.replicate n 0) s = 0 := by
  unfold innerProduct
  induction n generalizing s with
  | zero => simp
  | succ k ih =>
    cases s with
    | nil => simp
    | cons x xs => simpa [List.replicate_succ] using ih xs

theorem accumulateInner_replicate_zero (n k : Nat) (s : NativeVector) (q : Nat) :
    accumulateInner { data := List.replicate n 0, modulus := q } s q k 0 = 0 := by
  unfold accumulateInner
  have hstep : ∀ i, (0 + ModMulFast
      (NativeVector.at { data := List.replicate n 0, modulus := q } i) (s.at i) q)
        % 2 ^ NATIVEINT = 0 := by
    intro i
    have h0 : NativeVector.at { data := List.replicate n 0, modulus := q } i = 0 := by
      simp only [NativeVector.at]
      by_cases hi : i < (List.replicate n 0).length
      · rw [List.getD_eq_getElem _ _ hi]
        simp
      · rw [List.getD_eq_default _ _ (by omega)]
    rw [h0]
    simp [ModMulFast]
  generalize List.range k = l
  induction l with
  | nil => rfl
  | cons x xs ih => rw [List.foldl_cons, hstep x, ih]

theorem NoiselessEmbedding_eq_word (params : LWECryptoParams) (m : Nat) :
    NoiselessEmbedding params m =
      { a := { data := List.replicate params.n 0, modulus := params.q }
        b := (m * (params.q / 4)) % 2 ^ NATIVEINT } := by
  simp only [NoiselessEmbedding, Nat.shiftRight_eq_div_pow]

theorem NoiselessEmbedding_eq (params : LWECryptoParams) (m : Nat)
    (h : m * (params.q / 4) < 2 ^ NATIVEINT) :
    NoiselessEmbedding params m =
      { a := { data := List.replicate params.n 0, modulus := params.q }
        b := m * (params.q / 4) } := by
  rw [NoiselessEmbedding_eq_word, Nat.mod_eq_of_lt h]

/-- C23 (counterexample). With the modulus `q = 3 * 2^61`, of 63 bits and
divisible by 4, `m = 3` and the key `[1]`: `NoiselessEmbedding` returns
`b = 3 * (q / 4) = 9 * 2^59`, below `q`; `Decrypt` with `p = 4` forms
`r = b + q / 8 = 21 * 2^58` and the product `4 * r = 2^64 + 5 * 2^60`, which
wraps in the 64-bit word to `5 * 2^60`, and returns `5 * 2^60 / q = 0`, not `3`. -/
theorem C23_noiseless_embedding_wraps_counterexample :
    wordScenarioParams.q % 4 = 0
    ∧ NoiselessEmbedding wordScenarioParams 3
        = { a := { data := [0], modulus := 3 * 2 ^ 61 }, b := 9 * 2 ^ 59 }
    ∧ 9 * 2 ^ 59 < wordScenarioParams.q
    ∧ Decrypt wordScenarioParams { s := { data := [1], modulus := 3 * 2 ^ 61 } }
        (NoiselessEmbedding wordScenarioParams 3) 4 = Except.ok 0 := by
  refine ⟨by decide, by rfl, by decide, by rfl⟩

/-- C23 (amended). `NoiselessEmbedding` is a noise-free encryption under
plaintext modulus 4: for every `q > 0` divisible by 4 with `4 * q <= 2^64`, so
that the product `4 * r` of `Decrypt` stays within the 64-bit word, and every
`m` in `[0, 4)`, `NoiselessEmbedding(params, m)` returns `a` = the zero vector of
length `n` and `b = m * floor(q / 4)`, and
`Decrypt(sk, NoiselessEmbedding(params, m), 4)` returns `m` for every secret key
`sk` of length `n`. -/
theorem C23_noiseless_embedding_decrypts (params : LWECryptoParams) (sk : LWEPrivateKeyImpl)
    (m : Nat) (hq : 0 < params.q) (hdvd : params.q % 4 = 0) (hm : m < 4)
    (hlen : sk.s.data.length = params.n) (hword : 4 * params.q ≤ 2 ^ NATIVEINT) :
    NoiselessEmbedding params m =
        { a := { data := List.replicate params.n 0, modulus := params.q }
          b := m * (params.q / 4) }
    ∧ Decrypt params sk (NoiselessEmbedding params m) 4 = Except.ok m := by
  have hb : m * (params.q / 4) < params.q := by
    have h1 : m * (params.q / 4) ≤ 3 * (params.q / 4) := Nat.mul_le_mul_right _ (by omega)
    omega
  have hne := NoiselessEmbedding_eq params m (by omega)
  refine ⟨hne, ?_⟩
  rw [hne]
  have _ := hlen
  rw [Decrypt_eq _ _ _ _ (by omega) hq hb hword]
  have hph : decryptPhase sk
      { a := { data := List.replicate params.n 0, modulus := params.q }
        b := m * (params.q / 4) } = m * (params.q / 4) := by
    simp only [decryptPhase, accumulateInner_replicate_zero, Nat.zero_mod]
    rw [ModSubFast_of_le _ _ _ (by omega)]
    simp
  rw [hph]
  simp only []
  rw [round_scaled m 4 params.q (by omega) hq hdvd hm]

/-- C23 (amended) at `n = 4`, `q = 1024`, `m = 3` and the key `[1, 0, -1, 1]`. -/
theorem C23_noiseless_embedding_decrypts_witness :
    NoiselessEmbedding scenarioParams 3 =
        { a := { data := List.replicate scenarioParams.n 0, modulus := scenarioParams.q }
          b := 3 * (scenarioParams.q / 4) }
    ∧ Decrypt scenarioParams scenarioKey (NoiselessEmbedding scenarioParams 3) 4 = Except.ok 3 :=
  C23_noiseless_embedding_decrypts scenarioParams scenarioKey 3 (by decide) (by decide)
    (by decide) (by decide) (by decide)

theorem zipWith_congr_mem (f g : Nat → Nat → Nat) (a1 a2 : List Nat)
    (h : ∀ x ∈ a1, ∀ y ∈ a2, f x y = g x y) :
    List.zipWith f a1 a2 = List.zipWith g a1 a2 := by
  induction a1 generalizing a2 with
  | nil => simp
  | cons x xs ih =>
    cases a2 with
    | nil => simp
    | cons y ys =>
      simp only [List.zipWith_cons_cons]
      rw [h x (List.mem_cons_self _ _) y (List.mem_cons_self _ _),
        ih ys (fun u hu v hv => h u (List.mem_cons_of_mem _ hu) v (List.mem_cons_of_mem _ hv))]

theorem ModSubFast_ModAddFast (x y q : Nat) (hx : x < q) (hy : y < q) :
    ModSubFast (ModAddFast x y q) y q = x := by
  rw [ModSubFast_of_le _ _ _ (by omega)]
  simp only [ModAddFast]
  split_ifs <;> omega

theorem zipWith_sub_add (q : Nat) (a1 a2 : List Nat) (hlen : a1.length = a2.length)
    (h1 : ∀ x ∈ a1, x < q) (h2 : ∀ y ∈ a2, y < q) :
    List.zipWith (fun x y => ModSubFast x y q)
      (List.zipWith (fun x y => ModAddFast x y q) a1 a2) a2 = a1 := by
  induction a1 generalizing a2 with
  | nil => simp
  | cons x xs ih =>
    cases a2 with
    | nil => simp at hlen
    | cons y ys =>
      simp only [List.zipWith_cons_cons]
      rw [ModSubFast_ModAddFast x y q (h1 x (List.mem_cons_self _ _))
          (h2 y (List.mem_cons_self _ _)),
        ih ys (by simpa using hlen) (fun u hu => h1 u (List.mem_cons_of_mem _ hu))
          (fun v hv => h2 v (List.mem_cons_of_mem _ hv))]

/-- C24. `EvalSubEq2` stores the difference in its second operand: for reduced
ciphertexts `ct1`, `ct2` of equal length under the same modulus `q`, after
`EvalSubEq2(ct1, ct2)` the ciphertext `ct2` has the modulus and the length of
the operands, `a[i] = (a1[i] - a2[i]) mod q` at every coordinate and
`b = (b1 - b2) mod q`, which are the `a` and `b` that `EvalSubEq(ct1, ct2)` leaves
in `ct1`; and `ct1` is unchanged. -/
theorem C24_evalsub2_second_operand (ct1 ct2 : LWECiphertextImpl)
    (hmod : ct2.a.modulus = ct1.a.modulus) (hlen : ct1.a.data.length = ct2.a.data.length)
    (ha1 : ∀ x ∈ ct1.a.data, x < ct1.a.modulus) (ha2 : ∀ x ∈ ct2.a.data, x < ct1.a.modulus)
    (hb1 : ct1.b < ct1.a.modulus) (hb2 : ct2.b < ct1.a.modulus) :
    (EvalSubEq2 ct1 ct2).1 = ct1
    ∧ (EvalSubEq2 ct1 ct2).2.a.modulus = ct1.a.modulus
    ∧ (EvalSubEq2 ct1 ct2).2.a.data.length = ct1.a.data.length
    ∧ (∀ i, i < ct1.a.data.length →
        (((EvalSubEq2 ct1 ct2).2.a.at i : Nat) : Int)
          = ((ct1.a.at i : Int) - (ct2.a.at i : Int)) % (ct1.a.modulus : Int))
    ∧ (((EvalSubEq2 ct1 ct2).2.b : Nat) : Int)
          = ((ct1.b : Int) - (ct2.b : Int)) % (ct1.a.modulus : Int)
    ∧ (EvalSubEq2 ct1 ct2).2.a = (EvalSubEq ct1 ct2).a
    ∧ (EvalSubEq2 ct1 ct2).2.b = (EvalSubEq ct1 ct2).b := by
  have _ := hmod
  refine ⟨rfl, rfl, ?_, ?_, ?_, rfl, rfl⟩
  · simp [EvalSubEq2, NativeVector.ModSub, NativeVector.ModSubEq, hlen]
  · intro i hi
    simp only [EvalSubEq2, NativeVector.ModSub, NativeVector.ModSubEq, NativeVector.at]
    rw [zipWith_getD_cast _ _ _ i hi (by omega)]
    refine ModSubFast_int _ _ _ ?_ ?_
    · rw [List.getD_eq_getElem _ _ hi]
      exact ha1 _ (List.getElem_mem _)
    · rw [List.getD_eq_getElem _ _ (by omega : i < ct2.a.data.length)]
      exact ha2 _ (List.getElem_mem _)
  · exact ModSubFast_int _ _ _ hb1 hb2

/-- C24 at `ct1 = ([3, 5], 6)` and `ct2 = ([4, 1], 7)` under modulus `8`: the
second operand becomes `([7, 4], 7)`. -/
theorem C24_evalsub2_second_operand_witness :
    (EvalSubEq2 pkScenarioCt evalScenarioCt).1 = pkScenarioCt
    ∧ (EvalSubEq2 pkScenarioCt evalScenarioCt).2.a.modulus = pkScenarioCt.a.modulus
    ∧ (EvalSubEq2 pkScenarioCt evalScenarioCt).2.a.data.length = pkScenarioCt.a.data.length
    ∧ (∀ i, i < pkScenarioCt.a.data.length →
        (((EvalSubEq2 pkScenarioCt evalScenarioCt).2.a.at i : Nat) : Int)
          = ((pkScenarioCt.a.at i : Int) - (evalScenarioCt.a.at i : Int))
              % (pkScenarioCt.a.modulus : Int))
    ∧ (((EvalSubEq2 pkScenarioCt evalScenarioCt).2.b : Nat) : Int)
          = ((pkScenarioCt.b : Int) - (evalScenarioCt.b : Int)) % (pkScenarioCt.a.modulus : Int)
    ∧ (EvalSubEq2 pkScenarioCt evalScenarioCt).2.a = (EvalSubEq pkScenarioCt evalScenarioCt).a
    ∧ (EvalSubEq2 pkScenarioCt evalScenarioCt).2.b = (EvalSubEq pkScenarioCt evalScenarioCt).b :=
  C24_evalsub2_second_operand pkScenarioCt evalScenarioCt (by decide) (by decide) (by decide)
    (by decide) (by decide) (by decide)

/-- C26. `EvalSubEq` undoes `EvalAddEq`: for reduced ciphertexts `ct1`, `ct2` of
equal length under the same modulus `q`, `EvalAddEq(ct1, ct2)` sets `ct1` to the
coordinate-wise sums `(a1[i] + a2[i]) mod q` and `(b1 + b2) mod q`, and a
following `EvalSubEq(ct1, ct2)` restores `ct1`. -/
theorem C26_evalsub_undoes_evaladd (ct1 ct2 : LWECiphertextImpl)
    (hmod : ct2.a.modulus = ct1.a.modulus) (hlen : ct1.a.data.length = ct2.a.data.length)
    (ha1 : ∀ x ∈ ct1.a.data, x < ct1.a.modulus) (ha2 : ∀ x ∈ ct2.a.data, x < ct1.a.modulus)
    (hb1 : ct1.b < ct1.a.modulus) (hb2 : ct2.b < ct1.a.modulus) :
    (EvalAddEq ct1 ct2).a =
        { data := List.zipWith (fun x y => (x + y) % ct1.a.modulus) ct1.a.data ct2.a.data
          modulus := ct1.a.modulus }
    ∧ (EvalAddEq ct1 ct2).b = (ct1.b + ct2.b) % ct1.a.modulus
    ∧ EvalSubEq (EvalAddEq ct1 ct2) ct2 = ct1 := by
  have _ := hmod
  refine ⟨?_, ModAddFast_eq_mod _ _ _ hb1 hb2, ?_⟩
  · simp only [EvalAddEq, NativeVector.ModAddEq]
    rw [zipWith_congr_mem _ (fun x y => (x + y) % ct1.a.modulus) _ _
      (fun x hx y hy => ModAddFast_eq_mod x y _ (ha1 x hx) (ha2 y hy))]
  · obtain ⟨⟨a1, q⟩, b1, p1⟩ := ct1
    simp only at ha1 ha2 hb1 hb2 hlen
    simp only [EvalSubEq, EvalAddEq, NativeVector.ModSubEq, NativeVector.ModAddEq,
      LWECiphertextImpl.GetModulus]
    rw [zipWith_sub_add q a1 ct2.a.data hlen ha1 ha2, ModSubFast_ModAddFast b1 ct2.b q hb1 hb2]

/-- C26 at `ct1 = ([3, 5], 6)` and `ct2 = ([4, 1], 7)` under modulus `8`: the sum
is `([7, 6], 5)`. -/
theorem C26_evalsub_undoes_evaladd_witness :
    (EvalAddEq pkScenarioCt evalScenarioCt).a =
        { data := List.zipWith (fun x y => (x + y) % pkScenarioCt.a.modulus)
                    pkScenarioCt.a.data evalScenarioCt.a.data
          modulus := pkScenarioCt.a.modulus }
    ∧ (EvalAddEq pkScenarioCt evalScenarioCt).b
        = (pkScenarioCt.b + evalScenarioCt.b) % pkScenarioCt.a.modulus
    ∧ EvalSubEq (EvalAddEq pkScenarioCt evalScenarioCt) evalScenarioCt = pkScenarioCt :=
  C26_evalsub_undoes_evaladd pkScenarioCt evalScenarioCt (by decide) (by decide) (by decide)
    (by decide) (by decide) (by decide)

theorem ModAddFast_modEq (a b q : Nat)
    (h : (a < q ∧ b < q) ∨ a + b < 2 ^ NATIVEINT ∨ 2 ^ NATIVEINT % q = 0) :
    Int.ModEq (q : Int) ((ModAddFast a b q : Nat) : Int) ((a : Int) + (b : Int)) := by
  have hr : Int.ModEq (q : Int)
      (((if a < q ∧ b < q then a + b else (a + b) % 2 ^ NATIVEINT : Nat)) : Int)
      ((a : Int) + (b : Int)) := by
    split_ifs with h1
    · rw [Nat.cast_add]
    · rcases h with h | h | h
      · exact absurd h h1
      · rw [Nat.mod_eq_of_lt h, Nat.cast_add]
      · have hd : (q : Int) ∣ ((2 ^ NATIVEINT : Nat) : Int) :=
          Int.natCast_dvd_natCast.mpr (Nat.dvd_of_mod_eq_zero h)
        rw [Int.natCast_mod, Nat.cast_add]
        exact Int.ModEq.symm ((Int.mod_modEq _ _).symm.of_dvd hd)
  simp only [ModAddFast]
  generalize (if a < q ∧ b < q then a + b else (a + b) % 2 ^ NATIVEINT) = r at hr ⊢
  split_ifs with h2
  · refine Int.ModEq.trans ?_ hr
    rw [Int.modEq_iff_dvd]
    exact ⟨1, by omega⟩
  · exact hr

theorem ModSubFast_modEq (a b q : Nat)
    (hb : b ≤ a + q ∨ (2 ^ NATIVEINT % q = 0 ∧ b < 2 ^ NATIVEINT)) :
    Int.ModEq (q : Int) ((ModSubFast a b q : Nat) : Int) ((a : Int) - (b : Int)) := by
  unfold ModSubFast
  split_ifs with h1 h2
  · rw [Int.modEq_iff_dvd]
    exact ⟨-1, by omega⟩
  · rcases hb with hb | ⟨hdvd, hlt⟩
    · omega
    · obtain ⟨k, hk⟩ := Nat.dvd_of_mod_eq_zero hdvd
      rw [Int.modEq_iff_dvd]
      refine ⟨-(1 + (k : Int)), ?_⟩
      have hk' : ((2 ^ NATIVEINT : Nat) : Int) = (q : Int) * (k : Int) := by
        rw [hk]; push_cast; ring
      rw [Nat.cast_sub (by omega), Nat.cast_add, Nat.cast_add, hk']
      ring
  · rw [Nat.cast_sub (by omega)]

/-- C27 (code at the failing input). With the shares `[1, -1]` and `[-1, -1]`
mod `8`, `MultipartyKeyGen` returns the secret `[0, 6]`, and the share list after
the call is `[[0, 6], [-1, -1]]`: `sk` is a copy of the pointer
`privateKeyVec[0]`, so `*sk += *privateKeyVec[1]` has overwritten the first share
with the aggregate, and the returned secret is that same object, not a new
value. -/
theorem C27_multiparty_keygen_overwrites_first_share :
    ∃ r, MultipartyKeyGen [pkScenarioKey, pkScenarioKey2] pkScenarioParams
          [[1, 2], [3, 4]] [3, 5] = Except.ok r
      ∧ r.keyPair.secretKey = { s := { data := [0, 6], modulus := 8 } }
      ∧ r.privateKeyVec = [{ s := { data := [0, 6], modulus := 8 } }, pkScenarioKey2]
      ∧ r.privateKeyVec ≠ [pkScenarioKey, pkScenarioKey2]
      ∧ r.privateKeyVec.head? = some r.keyPair.secretKey :=
  ⟨_, rfl, by rfl, by rfl, by decide, by rfl⟩

/-- Encryption with noise `e` followed by decryption, for `q = 2 * p * h`: the
result is the scaled noisy message, offset by `h` and divided by `2 * h`, mod `p`. -/
theorem Encrypt_Decrypt_noise (params : LWECryptoParams) (sk : LWEPrivateKeyImpl)
    (m p h e : Nat) (a : List Nat) (hp : 0 < p) (hh : 0 < h) (he : e < 2 * p * h)
    (hw : (sk.s.data.length + 2) * (2 * p * h) ≤ 2 ^ NATIVEINT
      ∨ 2 ^ NATIVEINT % (2 * p * h) = 0)
    (hpq : p * (2 * p * h) ≤ 2 ^ NATIVEINT) :
    (Encrypt params sk m p (2 * p * h) e a >>= fun ct => Decrypt params sk ct p)
      = Except.ok ((((m % p) * (2 * h) + e) % (2 * p * h) + h) / (2 * h) % p) := by
  have hq : 0 < 2 * p * h := by positivity
  have e1 : 2 * p * h / p = 2 * h := by
    rw [show 2 * p * h = p * (2 * h) by ring]
    exact Nat.mul_div_cancel_left _ hp
  have e2 : 2 * p * h / (p * 2) = h := by
    rw [show 2 * p * h = p * 2 * h by ring]
    exact Nat.mul_div_cancel_left _ (by omega)
  have hmlt : (m % p) * (2 * h) < 2 * p * h := by
    have := Nat.mod_lt m hp
    nlinarith
  have hw1 : (m % p) * (2 * p * h / p) + e + sk.s.data.length * (2 * p * h) < 2 ^ NATIVEINT
      ∨ 2 ^ NATIVEINT % (2 * p * h) = 0 := by
    rcases hw with h1 | h1
    · left
      rw [e1]
      rw [Nat.add_mul] at h1
      linarith
    · exact Or.inr h1
  have hw2 : sk.s.data.length * (2 * p * h) ≤ 2 ^ NATIVEINT
      ∨ 2 ^ NATIVEINT % (2 * p * h) = 0 := by
    rcases hw with h1 | h1
    · left
      rw [Nat.add_mul] at h1
      linarith
    · exact Or.inr h1
  rw [Encrypt_eq_sum _ _ _ _ _ _ _ hp hq hw1]
  show Decrypt params sk _ p = _
  rw [Decrypt_eq _ _ _ _ hp hq (Nat.mod_lt _ hq) hpq, decryptPhase_eq_sum _ _ hq hw2]
  simp only [e1, e2]
  have hX : ((m % p) * (2 * h) + e) % (2 * p * h) < 2 * p * h := Nat.mod_lt _ hq
  have hmm : ∀ S, ((m % p) * (2 * h) + e + S) % (2 * p * h)
      = (((m % p) * (2 * h) + e) % (2 * p * h) + S) % (2 * p * h) := by
    intro S
    exact Nat.ModEq.add_right S (Nat.mod_modEq _ _).symm
  have hhq : h < 2 * p * h := by nlinarith
  rw [hmm, ModSubFast_add_mod _ _ _ hX, ModAddFast_eq_mod _ _ _ hX hhq, round_offset p h _ hp]

/-- The decryption of a noisy encryption is the message exactly when the noise
lies in the window `[-h, h)`, for noise in `[-p*h, p*h)`. -/
theorem noise_window (m p h : Nat) (e : Int) (hp : 1 ≤ p) (hh : 0 < h) (hm : m < p)
    (hlo : -((p * h : Nat) : Int) ≤ e) (hhi : e < ((p * h : Nat) : Int)) :
    ((m * (2 * h) + (e % ((2 * p * h : Nat) : Int)).toNat) % (2 * p * h) + h) / (2 * h) % p = m
      ↔ (-(h : Int) ≤ e ∧ e < (h : Int)) := by
  have hq : (0 : Int) < ((2 * p * h : Nat) : Int) := by
    have : 0 < 2 * p * h := by positivity
    exact_mod_cast this
  have h2 : (0 : Int) < 2 * (h : Int) := by omega
  have hpI : (0 : Int) < (p : Int) := by omega
  have hph : (h : Int) ≤ ((p * h : Nat) : Int) := by
    exact_mod_cast Nat.le_mul_of_pos_left h hp
  have hphc : ((p * h : Nat) : Int) = (p : Int) * (h : Int) := by push_cast; ring
  -- the value, as an integer
  have hval : ((((m * (2 * h) + (e % ((2 * p * h : Nat) : Int)).toNat) % (2 * p * h) + h)
        / (2 * h) % p : Nat) : Int)
      = ((e + (h : Int)) / (2 * (h : Int)) + (m : Int)) % (p : Int) := by
    have he' : (((e % ((2 * p * h : Nat) : Int)).toNat : Nat) : Int)
        = e % ((2 * p * h : Nat) : Int) := Int.toNat_of_nonneg (Int.emod_nonneg _ hq.ne')
    rw [Int.natCast_mod, Int.natCast_div, Nat.cast_add, Int.natCast_mod, Nat.cast_add, he',
      Int.add_emod, Int.emod_emod_of_dvd _ (dvd_refl _), ← Int.add_emod]
    have hqc : ((2 * p * h : Nat) : Int) = 2 * (h : Int) * (p : Int) := by push_cast; ring
    have hmc : ((m * (2 * h) : Nat) : Int) = 2 * (h : Int) * (m : Int) := by push_cast; ring
    have h2c : ((2 * h : Nat) : Int) = 2 * (h : Int) := by push_cast; ring
    rw [hqc, hmc, h2c, Int.emod_def (2 * (h : Int) * (m : Int) + e) (2 * (h : Int) * (p : Int))]
    generalize (2 * (h : Int) * (m : Int) + e) / (2 * (h : Int) * (p : Int)) = k
    have e3 : 2 * (h : Int) * (m : Int) + e - 2 * (h : Int) * (p : Int) * k + (h : Int)
        = (e + (h : Int)) + 2 * (h : Int) * ((m : Int) + (p : Int) * (-k)) := by ring
    rw [e3, Int.add_mul_ediv_left _ _ h2.ne', ← add_assoc, Int.add_mul_emod_self_left]
  have hflo : -(p : Int) < (e + (h : Int)) / (2 * (h : Int)) := by
    have : (-(p : Int) + 1) ≤ (e + (h : Int)) / (2 * (h : Int)) := by
      apply Int.le_ediv_of_mul_le h2
      have : (-(p : Int) + 1) * (2 * (h : Int)) = -2 * ((p : Int) * (h : Int)) + 2 * (h : Int) := by
        ring
      rw [this]
      rw [hphc] at hlo hph
      linarith
    omega
  have hfhi : (e + (h : Int)) / (2 * (h : Int)) < (p : Int) := by
    apply Int.ediv_lt_of_lt_mul h2
    have : (p : Int) * (2 * (h : Int)) = 2 * ((p : Int) * (h : Int)) := by ring
    rw [this]
    rw [hphc] at hhi hph
    linarith
  have hf0 : (e + (h : Int)) / (2 * (h : Int)) = 0 ↔ (-(h : Int) ≤ e ∧ e < (h : Int)) := by
    constructor
    · intro hz
      have hdm := Int.ediv_add_emod (e + (h : Int)) (2 * (h : Int))
      rw [hz, mul_zero, zero_add] at hdm
      have h1 := Int.emod_nonneg (e + (h : Int)) h2.ne'
      have h3 := Int.emod_lt_of_pos (e + (h : Int)) h2
      omega
    · rintro ⟨h1, h3⟩
      exact Int.ediv_eq_zero_of_lt (by omega) (by omega)
  rw [← hf0, ← Int.natCast_inj, hval]
  generalize (e + (h : Int)) / (2 * (h : Int)) = f at hflo hfhi
  constructor
  · intro hv
    have hmod : (f + (m : Int)) % (p : Int) = (m : Int) % (p : Int) := by
      rw [hv, Int.emod_eq_of_lt (by omega) (by omega)]
    have hd : (p : Int) ∣ f := by
      have := Int.emod_emod_of_dvd
      have h0 := (Int.emod_eq_emod_iff_emod_sub_eq_zero).mp hmod
      rw [add_sub_cancel_right] at h0
      exact Int.dvd_of_emod_eq_zero h0
    exact Int.eq_zero_of_abs_lt_dvd hd (by rw [abs_lt]; omega)
  · intro hz
    rw [hz, zero_add, Int.emod_eq_of_lt (by omega) (by omega)]

theorem innerProduct_zipWith_add (a s1 s2 : List Nat) :
    innerProduct a (List.zipWith (· + ·) s1 s2)
      = innerProduct (a.take s2.length) s1 + innerProduct (a.take s1.length) s2 := by
  unfold innerProduct
  induction a generalizing s1 s2 with
  | nil => simp
  | cons x xs ih =>
    cases s1 with
    | nil => simp
    | cons y ys =>
      cases s2 with
      | nil => simp
      | cons z zs =>
        have := ih ys zs
        simp only [List.zipWith_cons_cons, List.sum_cons, List.length_cons,
          List.take_succ_cons] at this ⊢
        rw [this]
        ring

theorem innerProduct_add (a s1 s2 : List Nat) (h1 : a.length = s1.length)
    (h2 : a.length = s2.length) :
    innerProduct a (List.zipWith (· + ·) s1 s2) = innerProduct a s1 + innerProduct a s2 := by
  have h := innerProduct_zipWith_add a s1 s2
  rw [← h1, ← h2, List.take_length] at h
  exact h

/-- The entries of the key that `MultiPartyKeySwitchGen` builds on top of a key
from `KeySwitchGen`. -/
theorem MultiPartyKeySwitchGen_KeySwitchGen_atB (params : LWECryptoParams) (d : Nat)
    (sk1 skN1 sk2 skN2 : LWEPrivateKeyImpl) (aSample : Nat → Nat → Nat → List Nat)
    (hq : 0 < params.qKS) (hsk1 : sk1.s.data.length = params.n)
    (hsk2 : sk2.s.data.length = params.n)
    (i j k : Nat) (hlen : (aSample i j k).length = params.n)
    (hi : i < params.N) (hj : j < params.baseKS) (hk : k < d)
    (hwd : j * params.baseKS ^ k < 2 ^ NATIVEINT ∨ 2 ^ NATIVEINT % params.qKS = 0) :
    (MultiPartyKeySwitchGenBody params d sk2 skN2 (KeySwitchGenBody params d sk1 skN1 aSample)).atB i j k
      = (j * params.baseKS ^ k
            * ((skN1.s.SwitchModulus params.qKS).at i + (skN2.s.SwitchModulus params.qKS).at i)
          + innerProduct (aSample i j k)
              (List.zipWith (· + ·) (sk1.s.SwitchModulus params.qKS).data
                (sk2.s.SwitchModulus params.qKS).data)) % params.qKS := by
  have hA := KeySwitchGen_atA params d sk1 skN1 aSample i j k hi hj hk
  rw [MultiPartyKeySwitchGen_atB params d sk2 skN2 _ i j k hq hsk2 (by rw [hA]; exact hlen)
      hi hj hk hwd,
    KeySwitchGen_atB params d sk1 skN1 aSample i j k hq hsk1 hlen hi hj hk hwd, hA,
    innerProduct_add _ _ _ (by simp [hlen, hsk1]) (by simp [hlen, hsk2]), Nat.add_mod_mod]
  congr 1
  ring

theorem KeySwitchDigitLoop_succ (params : LWECryptoParams) (K : LWESwitchingKeyImpl)
    (ct : LWECiphertextImpl) (ab : List Nat × Nat) (i j : Nat) :
    KeySwitchDigitLoop params K ct ab i (j + 1)
      = KeySwitchDigit params.n params.qKS params.baseKS K i
          (KeySwitchDigitLoop params K ct ab i j) j := by
  simp only [KeySwitchDigitLoop, List.range_succ, List.foldl_append, List.foldl_cons,
    List.foldl_nil]

theorem KeySwitchDigitLoop_atmp (params : LWECryptoParams) (K : LWESwitchingKeyImpl)
    (ct : LWECiphertextImpl) (ab : List Nat × Nat) (i j : Nat) :
    (KeySwitchDigitLoop params K ct ab i j).atmp = ct.a.at i / params.baseKS ^ j := by
  induction j with
  | zero => simp [KeySwitchDigitLoop]
  | succ j ih =>
    rw [KeySwitchDigitLoop_succ]
    simp only [KeySwitchDigit]
    rw [ih, Nat.div_div_eq_div_mul, ← Nat.pow_succ]

theorem KeySwitchDigitLoop_length (params : LWECryptoParams) (K : LWESwitchingKeyImpl)
    (ct : LWECiphertextImpl) (ab : List Nat × Nat) (i j : Nat) :
    (KeySwitchDigitLoop params K ct ab i j).a.length = ab.1.length := by
  induction j with
  | zero => simp [KeySwitchDigitLoop]
  | succ j ih =>
    rw [KeySwitchDigitLoop_succ]
    simp only [KeySwitchDigit, updateEach_length]
    exact ih

/-- The loop of `KeySwitch` is the fold of `KeySwitchDigitLoop` over the
coordinates. -/
theorem KeySwitch_eq_loop (params : LWECryptoParams) (digitCount : Nat)
    (K : LWESwitchingKeyImpl) (ct : LWECiphertextImpl) :
    KeySwitchBody params digitCount K ct =
      { a := { data := ((List.range params.N).foldl
                  (fun (ab : List Nat × Nat) i =>
                    ((KeySwitchDigitLoop params K ct ab i digitCount).a,
                      (KeySwitchDigitLoop params K ct ab i digitCount).b))
                  (List.replicate params.n 0, ct.b)).1,
               modulus := params.qKS },
        b := ((List.range params.N).foldl
                  (fun (ab : List Nat × Nat) i =>
                    ((KeySwitchDigitLoop params K ct ab i digitCount).a,
                      (KeySwitchDigitLoop params K ct ab i digitCount).b))
                  (List.replicate params.n 0, ct.b)).2 } := rfl

theorem digits_sum (x b d : Nat) :
    ∑ j ∈ Finset.range d, (x / b ^ j % b) * b ^ j = x % b ^ d := by
  induction d with
  | zero => simp [Nat.mod_one]
  | succ d ih =>
    rw [Finset.sum_range_succ, ih, Nat.mod_pow_succ, Nat.mul_comm]

theorem getD_mem_of_lt {α : Type} (l : List α) (i : Nat) (dflt : α) (h : i < l.length) :
    l.getD i dflt ∈ l := by
  rw [List.getD_eq_getElem _ _ h]
  exact List.getElem_mem _

/-- The accumulated vector with which `KeySwitch` enters the digit loop of
coordinate `i` has length `n`. -/
theorem KeySwitch_acc_length (params : LWECryptoParams) (digitCount : Nat)
    (K : LWESwitchingKeyImpl) (ct : LWECiphertextImpl) (i : Nat) :
    ((List.range i).foldl
        (fun (ab : List Nat × Nat) i =>
          ((KeySwitchDigitLoop params K ct ab i digitCount).a,
            (KeySwitchDigitLoop params K ct ab i digitCount).b))
        (List.replicate params.n 0, ct.b)).1.length = params.n := by
  induction i with
  | zero => simp
  | succ i ih =>
    rw [List.range_succ, List.foldl_append]
    simp only [List.foldl_cons, List.foldl_nil]
    rw [KeySwitchDigitLoop_length, ih]

/-- C30. The digit decomposition of `KeySwitch` is complete and its table
lookups are in range: with `baseKS >= 1` (in particular `>= 2`), `digitCount`
such that `baseKS ^ digitCount >= qKS`, a ciphertext of dimension `N` with
coordinates below `qKS` and a switching key of shape `N x baseKS x digitCount`
with `A` entries of length `n`, for every coordinate `i < N` and every
accumulator of length `n` with which the digit loop is entered (as is the one
that `KeySwitch` has accumulated over the coordinates before `i`): at every
iteration `j < digitCount` the digit `a0 = atmp % baseKS` is below `baseKS` and is
the `j`-th digit of `a[i]`; the reads `ctQN->GetA(i)`, `GetElementsA()[i]`,
`GetElementsB()[i]`, `refA[a0][j]`, `refB[a0][j]` are within bounds, `refAj` has
length `n` and so has the accumulator, so that `refAj[k]` and `a[k]` are within
bounds for `k < n`; the digits satisfy `sum_j d_j * baseKS^j = a[i]`; and `atmp`
is `0` after the loop. -/
theorem C30_keyswitch_digits_complete_in_range (params : LWECryptoParams) (digitCount : Nat)
    (K : LWESwitchingKeyImpl) (ct : LWECiphertextImpl) (ab : List Nat × Nat) (i : Nat)
    (hbase : 0 < params.baseKS) (hd : params.qKS ≤ params.baseKS ^ digitCount)
    (hlen : ct.GetLength = params.N) (hcta : ∀ x ∈ ct.a.data, x < params.qKS)
    (hKA : K.A.length = params.N ∧ ∀ row ∈ K.A, row.length = params.baseKS ∧
      ∀ col ∈ row, col.length = digitCount ∧ ∀ v ∈ col, v.GetLength = params.n)
    (hKB : K.B.length = params.N ∧ ∀ row ∈ K.B, row.length = params.baseKS ∧
      ∀ col ∈ row, col.length = digitCount)
    (hab : ab.1.length = params.n) (hi : i < params.N) :
    ((List.range i).foldl
        (fun (ab : List Nat × Nat) i =>
          ((KeySwitchDigitLoop params K ct ab i digitCount).a,
            (KeySwitchDigitLoop params K ct ab i digitCount).b))
        (List.replicate params.n 0, ct.b)).1.length = params.n
    ∧ (∀ j, j < digitCount →
      (KeySwitchDigitLoop params K ct ab i j).atmp % params.baseKS < params.baseKS
      ∧ (KeySwitchDigitLoop params K ct ab i j).atmp % params.baseKS
          = ct.a.at i / params.baseKS ^ j % params.baseKS
      ∧ i < ct.a.data.length ∧ i < K.A.length ∧ i < K.B.length
      ∧ (KeySwitchDigitLoop params K ct ab i j).atmp % params.baseKS < (K.A.getD i []).length
      ∧ j < ((K.A.getD i []).getD
              ((KeySwitchDigitLoop params K ct ab i j).atmp % params.baseKS) []).length
      ∧ (KeySwitchDigitLoop params K ct ab i j).atmp % params.baseKS < (K.B.getD i []).length
      ∧ j < ((K.B.getD i []).getD
              ((KeySwitchDigitLoop params K ct ab i j).atmp % params.baseKS) []).length
      ∧ (K.atA i ((KeySwitchDigitLoop params K ct ab i j).atmp % params.baseKS) j).GetLength
          = params.n
      ∧ (KeySwitchDigitLoop params K ct ab i j).a.length = params.n)
    ∧ ∑ j ∈ Finset.range digitCount,
        ((KeySwitchDigitLoop params K ct ab i j).atmp % params.baseKS) * params.baseKS ^ j
        = ct.a.at i
    ∧ (KeySwitchDigitLoop params K ct ab i digitCount).atmp = 0 := by
  simp only [LWECiphertextImpl.GetLength, NativeVector.GetLength] at hlen
  have hx : ct.a.at i < params.baseKS ^ digitCount := by
    have : ct.a.at i < params.qKS := by
      simp only [NativeVector.at]
      rw [List.getD_eq_getElem _ _ (by omega : i < ct.a.data.length)]
      exact hcta _ (List.getElem_mem _)
    omega
  refine ⟨KeySwitch_acc_length params digitCount K ct i, ?_, ?_, ?_⟩
  · intro j hj
    have ha0 : (KeySwitchDigitLoop params K ct ab i j).atmp % params.baseKS < params.baseKS :=
      Nat.mod_lt _ hbase
    generalize hgen : (KeySwitchDigitLoop params K ct ab i j).atmp % params.baseKS = a0 at ha0 ⊢
    obtain ⟨hA1, hA2⟩ := hKA
    obtain ⟨hB1, hB2⟩ := hKB
    obtain ⟨hrow, hcols⟩ := hA2 _ (getD_mem_of_lt K.A i [] (by omega))
    obtain ⟨hcol, hvs⟩ := hcols _ (getD_mem_of_lt (K.A.getD i []) a0 [] (by omega))
    obtain ⟨hrowB, hcolsB⟩ := hB2 _ (getD_mem_of_lt K.B i [] (by omega))
    have hcolB := hcolsB _ (getD_mem_of_lt (K.B.getD i []) a0 [] (by omega))
    refine ⟨ha0, ?_, by omega, by omega, by omega, by omega, by omega, by omega, by omega,
      ?_, ?_⟩
    · rw [← hgen, KeySwitchDigitLoop_atmp]
    · exact hvs _ (getD_mem_of_lt _ j _ (by omega))
    · rw [KeySwitchDigitLoop_length, hab]
  · rw [Finset.sum_congr rfl (fun j _ => by rw [KeySwitchDigitLoop_atmp]),
      digits_sum, Nat.mod_eq_of_lt hx]
  · rw [KeySwitchDigitLoop_atmp]
    exact Nat.div_eq_of_lt hx

/-- C30 at `n = N = 2`, `qKS = 8`, `baseKS = 2`, three digits, the switching key
of the small scenario and the ciphertext `([3, 5], 6)`, coordinate `i = 1`: the
digits of `5` are `1, 0, 1`. -/
theorem C30_keyswitch_digits_complete_in_range_witness :
    ∑ j ∈ Finset.range 3,
        ((KeySwitchDigitLoop ksScenarioParams
            (KeySwitchGen ksScenarioParams scenarioLog ksScenarioKey ksScenarioKeyN
              ksScenarioSample)
            pkScenarioCt ([0, 0], 6) 1 j).atmp % ksScenarioParams.baseKS)
          * ksScenarioParams.baseKS ^ j
        = pkScenarioCt.a.at 1
    ∧ (KeySwitchDigitLoop ksScenarioParams
        (KeySwitchGen ksScenarioParams scenarioLog ksScenarioKey ksScenarioKeyN ksScenarioSample)
        pkScenarioCt ([0, 0], 6) 1 3).atmp = 0 :=
  (C30_keyswitch_digits_complete_in_range ksScenarioParams 3
    (KeySwitchGen ksScenarioParams scenarioLog ksScenarioKey ksScenarioKeyN ksScenarioSample)
    pkScenarioCt ([0, 0], 6) 1 (by decide) (by decide) rfl (by decide) (by decide) (by decide)
    rfl (by decide)).2.2

/-- C31 (code at the failing inputs). `n = N = 2`, `qKS = 8`, `baseKS = 2`,
three digits, `sk = [1, -1]`, `skN = [-1, 1]` and the prior key of the small
scenario, whose `A[0][0][0]` is `[0, 1]` and `B[0][0][0]` is `7`: the branch for
`NATIVEINT == 32` multiplies every `A[0][0][0][ai]` by `sv[0] = 1` and gives
`B[0][0][0] = (0 + (0 * 1 + 1 * 1) + 7) mod 8 = 0`, the default branch multiplies
by `sv[ai]` and gives `(0 + (0 * 1 + 1 * 7) + 7) mod 8 = 6`; the two `B` tables
differ.  With `n = 1` and `N = 2` the branch for `NATIVEINT == 32` reads `sv[1]`
of a vector of length `1`. -/
theorem C31_build_variants_disagree :
    (∃ K32, MultiPartyKeySwitchGen32 ksScenarioParams scenarioLog ksScenarioKey ksScenarioKeyN
          ksScenarioPrior = Except.ok K32
      ∧ K32.B = [[[0, 2, 4], [0, 0, 6]], [[2, 0, 6], [6, 6, 0]]]
      ∧ (MultiPartyKeySwitchGen ksScenarioParams scenarioLog ksScenarioKey ksScenarioKeyN
          ksScenarioPrior).B = [[[6, 6, 6], [0, 6, 2]], [[4, 4, 4], [2, 4, 0]]]
      ∧ K32.B ≠ (MultiPartyKeySwitchGen ksScenarioParams scenarioLog ksScenarioKey
          ksScenarioKeyN ksScenarioPrior).B)
    ∧ (msScenarioKey.s.SwitchModulus wideScenarioParams.qKS).GetLength = wideScenarioParams.n
    ∧ MultiPartyKeySwitchGen32 wideScenarioParams scenarioLog msScenarioKey pkScenarioKey
        wideScenarioPrior = Except.error CallFailure.out_of_range_read := by
  refine ⟨⟨_, rfl, by rfl, by rfl, by decide⟩, by rfl, by rfl⟩

theorem forall_mem_of_getD_lt (l : List Nat) (q : Nat) (h : ∀ t, l.getD t 0 < q) :
    ∀ x ∈ l, x < q := by
  intro x hx
  obtain ⟨i, hi, rfl⟩ := List.getElem_of_mem hx
  have := h i
  rwa [List.getD_eq_getElem _ _ hi] at this

theorem getD_lt_of_forall_mem (l : List Nat) (q : Nat) (hq : 0 < q) (h : ∀ x ∈ l, x < q)
    (t : Nat) : l.getD t 0 < q := by
  by_cases ht : t < l.length
  · rw [List.getD_eq_getElem _ _ ht]
    exact h _ (List.getElem_mem _)
  · rw [List.getD_eq_default _ _ (by omega)]
    exact hq

theorem zipWith_forall_lt (f : Nat → Nat → Nat) (q : Nat) (a1 a2 : List Nat)
    (h : ∀ x ∈ a1, ∀ y ∈ a2, f x y < q) :
    ∀ z ∈ List.zipWith f a1 a2, z < q := by
  induction a1 generalizing a2 with
  | nil => simp
  | cons x xs ih =>
    cases a2 with
    | nil => simp
    | cons y ys =>
      intro z hz
      simp only [List.zipWith_cons_cons, List.mem_cons] at hz
      rcases hz with rfl | hz
      · exact h x (List.mem_cons_self _ _) y (List.mem_cons_self _ _)
      · exact ih ys (fun u hu v hv =>
          h u (List.mem_cons_of_mem _ hu) v (List.mem_cons_of_mem _ hv)) z hz

theorem Encrypt_reduced (params : LWECryptoParams) (sk : LWEPrivateKeyImpl) (m p q e : Nat)
    (a : List Nat) (hp : 1 ≤ p) (hq : 0 < q) (ha : ∀ x ∈ a, x < q) :
    ∃ ct, Encrypt params sk m p q e a = Except.ok ct ∧ ct.Reduced :=
  ⟨_, Encrypt_eq params sk m p q e a hp hq, ha, Nat.mod_lt _ hq⟩

theorem foldl_ModAdd_lt (f : Nat → Nat) (q : Nat) (hq : 0 < q) (k : Nat) (x : Nat) :
    (List.range (k + 1)).foldl (fun x i => ModAdd x (f i) q) x < q := by
  rw [List.range_succ, List.foldl_append]
  simp only [List.foldl_cons, List.foldl_nil]
  rw [ModAdd_eq_mod _ _ _ hq]
  exact Nat.mod_lt _ hq

theorem EncryptN_reduced (params : LWECryptoParams) (pk : LWEPublicKeyImpl) (m p q e : Nat)
    (sp ep : List Nat) (hp : 1 ≤ p) (hq : 0 < q) (hN : 0 < pk.v.data.length)
    (hep : ep.length = pk.v.data.length) (hepq : ∀ x ∈ ep, x < q)
    (hA : ∀ j, j < pk.v.data.length →
      (pk.A.getD j { data := [], modulus := 0 }).data.length = pk.v.data.length ∧
      (pk.A.getD j { data := [], modulus := 0 }).modulus = q) :
    ∃ ct, EncryptN params pk m p q e sp ep = Except.ok ct ∧ ct.Reduced := by
  obtain ⟨k, hk⟩ : ∃ k, pk.v.data.length = k + 1 := ⟨pk.v.data.length - 1, by omega⟩
  have h : EncryptN params pk m p q e sp ep = Except.ok
      { a := (List.range pk.v.data.length).foldl
          (fun a j => a.ModAddEq ((pk.A.getD j { data := [], modulus := 0 }).ModMul
            (NativeVector.at { data := sp, modulus := q } j)))
          ({ data := ep, modulus := q } : NativeVector)
        b := (List.range pk.v.data.length).foldl
          (fun b i => ModAdd b (ModMulFast ((pk.v.SwitchModulus q).at i)
            (NativeVector.at { data := sp, modulus := q } i) q) q)
          (((m % p) * (q / p) + e) % 2 ^ NATIVEINT)
        p := p } := by
    have hz : ¬ (p = 0 ∨ q = 0) := by omega
    simp only [EncryptN, divisibilityGuard_eq_false, Bool.false_eq_true, if_false,
      NativeVector.GetLength, hz]
  refine ⟨_, h, ?_, ?_⟩
  · simp only []
    rw [EncryptN_columns pk.A { data := sp, modulus := q } ep q pk.v.data.length hq hep
      (getD_lt_of_forall_mem ep q hq hepq) hA pk.v.data.length (le_refl _)]
    intro x hx
    simp only [List.mem_map] at hx
    obtain ⟨i, -, rfl⟩ := hx
    exact Nat.mod_lt _ hq
  · simp only []
    rw [EncryptN_columns pk.A { data := sp, modulus := q } ep q pk.v.data.length hq hep
      (getD_lt_of_forall_mem ep q hq hepq) hA pk.v.data.length (le_refl _), hk]
    exact foldl_ModAdd_lt _ q hq k _

theorem KeySwitchDigit_reduced (n q baseKS : Nat) (K : LWESwitchingKeyImpl) (i j : Nat)
    (st : KeySwitchState) (ha : ∀ t, st.a.getD t 0 < q) (hb : st.b < q)
    (hKA : ∀ t, (K.atA i (st.atmp % baseKS) j).at t < q)
    (hKB : K.atB i (st.atmp % baseKS) j < q) :
    (∀ t, (KeySwitchDigit n q baseKS K i st j).a.getD t 0 < q)
    ∧ (KeySwitchDigit n q baseKS K i st j).b < q := by
  refine ⟨?_, ModSubFast_lt _ _ _ hb (le_of_lt hKB)⟩
  intro t
  simp only [KeySwitchDigit]
  rw [updateEach_getD]
  split_ifs
  · exact ModSubFast_lt _ _ _ (ha t) (le_of_lt (hKA t))
  · exact ha t

theorem KeySwitch_reduced (params : LWECryptoParams) (d : Nat) (K : LWESwitchingKeyImpl)
    (ct : LWECiphertextImpl) (hq : 0 < params.qKS) (hbase : 0 < params.baseKS)
    (hctb : ct.b < params.qKS)
    (hK : ∀ i v j, i < params.N → v < params.baseKS → j < d →
      (∀ t, (K.atA i v j).at t < params.qKS) ∧ K.atB i v j < params.qKS) :
    (KeySwitchBody params d K ct).Reduced := by
  have key := foldl_range_invariant
    (fun _ (ab : List Nat × Nat) => (∀ t, ab.1.getD t 0 < params.qKS) ∧ ab.2 < params.qKS)
    (fun (ab : List Nat × Nat) i =>
      let st := (List.range d).foldl (KeySwitchDigit params.n params.qKS params.baseKS K i)
        { atmp := ct.a.at i, a := ab.1, b := ab.2 }
      (st.a, st.b))
    (List.replicate params.n 0, ct.b) params.N
    (by
      refine ⟨?_, hctb⟩
      intro t
      by_cases h : t < params.n <;> simp [List.getD_eq_getElem?_getD, h, hq])
    (by
      intro i ab hi ⟨h1, h2⟩
      exact foldl_range_invariant
        (fun _ (st : KeySwitchState) => (∀ t, st.a.getD t 0 < params.qKS) ∧ st.b < params.qKS)
        (KeySwitchDigit params.n params.qKS params.baseKS K i)
        { atmp := ct.a.at i, a := ab.1, b := ab.2 } d ⟨h1, h2⟩
        (by
          intro j st hj ⟨s1, s2⟩
          obtain ⟨k1, k2⟩ := hK i (st.atmp % params.baseKS) j hi (Nat.mod_lt _ hbase) hj
          exact KeySwitchDigit_reduced _ _ _ K i j st s1 s2 k1 k2))
  exact ⟨forall_mem_of_getD_lt _ _ key.1, key.2⟩

theorem ModSwitch_reduced (q : Nat) (ct : LWECiphertextImpl) (hq : 0 < q) :
    (ModSwitch q ct).Reduced := by
  rw [ModSwitch_eq]
  refine ⟨?_, RoundqQ_lt _ _ _ hq⟩
  intro x hx
  simp only [List.mem_map] at hx
  obtain ⟨i, -, rfl⟩ := hx
  exact RoundqQ_lt _ _ _ hq

theorem EvalAddEq_reduced (ct1 ct2 : LWECiphertextImpl) (h1 : ct1.Reduced)
    (ha2 : ∀ x ∈ ct2.a.data, x < ct1.a.modulus) (hb2 : ct2.b < ct1.a.modulus) :
    (EvalAddEq ct1 ct2).Reduced :=
  ⟨zipWith_forall_lt _ _ _ _ (fun x hx y hy => ModAddFast_lt x y _ (h1.1 x hx) (ha2 y hy)),
    ModAddFast_lt _ _ _ h1.2 hb2⟩

theorem EvalSubEq_reduced (ct1 ct2 : LWECiphertextImpl) (h1 : ct1.Reduced)
    (ha2 : ∀ x ∈ ct2.a.data, x < ct1.a.modulus) (hb2 : ct2.b < ct1.a.modulus) :
    (EvalSubEq ct1 ct2).Reduced :=
  ⟨zipWith_forall_lt _ _ _ _
      (fun x hx y hy => ModSubFast_lt x y _ (h1.1 x hx) (le_of_lt (ha2 y hy))),
    ModSubFast_lt _ _ _ h1.2 (le_of_lt hb2)⟩

theorem EvalSubEq2_reduced (ct1 ct2 : LWECiphertextImpl) (h1 : ct1.Reduced)
    (ha2 : ∀ x ∈ ct2.a.data, x < ct1.a.modulus) (hb2 : ct2.b < ct1.a.modulus) :
    (EvalSubEq2 ct1 ct2).2.Reduced :=
  ⟨zipWith_forall_lt _ _ _ _
      (fun x hx y hy => ModSubFast_lt x y _ (h1.1 x hx) (le_of_lt (ha2 y hy))),
    ModSubFast_lt _ _ _ h1.2 (le_of_lt hb2)⟩

theorem EvalAddConstEq_reduced (ct : LWECiphertextImpl) (c : Nat) (h : ct.Reduced)
    (hc : c ≤ ct.a.modulus) : (EvalAddConstEq ct c).Reduced := by
  refine ⟨h.1, ?_⟩
  have hb := h.2
  have hle := Nat.mod_le (ct.b + c) (2 ^ NATIVEINT)
  simp only [EvalAddConstEq, LWECiphertextImpl.GetModulus, ModAddFast]
  split_ifs <;> omega

theorem EvalSubConstEq_reduced (ct : LWECiphertextImpl) (c : Nat) (h : ct.Reduced)
    (hc : c ≤ ct.a.modulus) : (EvalSubConstEq ct c).Reduced :=
  ⟨h.1, ModSubFast_lt _ _ _ h.2 hc⟩

theorem EvalMultConstEq_reduced (ct : LWECiphertextImpl) (c : Nat) (hq : 0 < ct.a.modulus) :
    (EvalMultConstEq ct c).Reduced := by
  refine ⟨?_, Nat.mod_lt _ hq⟩
  intro x hx
  simp only [EvalMultConstEq, NativeVector.ModMul, List.mem_map] at hx
  obtain ⟨y, -, rfl⟩ := hx
  rw [ModMul_eq_mod]
  exact Nat.mod_lt _ hq

theorem NoiselessEmbedding_reduced (params : LWECryptoParams) (m : Nat) (hq : 0 < params.q)
    (hm : m < 4) : (NoiselessEmbedding params m).Reduced := by
  rw [NoiselessEmbedding_eq_word]
  refine ⟨?_, ?_⟩
  · intro x hx
    rw [List.eq_of_mem_replicate hx]
    exact hq
  · show m * (params.q / 4) % 2 ^ NATIVEINT < params.q
    have h1 : m * (params.q / 4) ≤ 3 * (params.q / 4) := Nat.mul_le_mul_right _ (by omega)
    have h2 := Nat.mod_le (m * (params.q / 4)) (2 ^ NATIVEINT)
    omega

theorem Decrypt_lt_of_reduced (params : LWECryptoParams) (sk : LWEPrivateKeyImpl)
    (ct : LWECiphertextImpl) (p : Nat) (hp : 1 ≤ p) (h : ct.Reduced) :
    ∃ v, Decrypt params sk ct p = Except.ok v ∧ v < p := by
  have hq : 0 < ct.a.modulus := by have := h.2; omega
  refine ⟨_, Decrypt_eq_word params sk ct p hp hq, ?_⟩
  have hphase := decryptPhase_lt sk ct h.2
  have hhalf : ct.a.modulus / (p * 2) < ct.a.modulus :=
    Nat.div_lt_self hq (by omega)
  have hr := ModAddFast_lt _ _ _ hphase hhalf
  rw [Nat.div_lt_iff_lt_mul hq]
  exact lt_of_le_of_lt (Nat.mod_le _ _) (Nat.mul_lt_mul_of_pos_left hr (by omega))

/-- C32 (counterexample). `NoiselessEmbedding` with `q = 1024` and `m = 9` returns
`b = 9 * 256 = 2304`, which is not below `q`, and `Decrypt` of it with `p = 4`
returns `5`, which is not below `p`.  For the reduced ciphertext `([3, 5], 1)`
under modulus `7` and the constant `20`, `EvalAddConstEq` leaves
`b = 1 + 20 - 7 = 14` and `EvalSubConstEq` leaves `b = 2^64 - 12`, neither below
`7`.  With `p = 0`, `Encrypt` and `EncryptN` divide by zero in `mod % p` and
return no ciphertext. -/
theorem C32_unreduced_outputs_counterexample :
    (NoiselessEmbedding scenarioParams 9).b = 2304
    ∧ ¬ (NoiselessEmbedding scenarioParams 9).Reduced
    ∧ Decrypt scenarioParams scenarioKey (NoiselessEmbedding scenarioParams 9) 4 = Except.ok 5
    ∧ ¬ (5 < 4)
    ∧ oddScenarioCt.Reduced
    ∧ (EvalAddConstEq oddScenarioCt 20).b = 14
    ∧ ¬ (EvalAddConstEq oddScenarioCt 20).Reduced
    ∧ (EvalSubConstEq oddScenarioCt 20).b = 2 ^ 64 - 12
    ∧ ¬ (EvalSubConstEq oddScenarioCt 20).Reduced
    ∧ Encrypt scenarioParams scenarioKey 2 0 1024 0 [5, 10, 15, 20]
        = Except.error CallFailure.division_by_zero
    ∧ EncryptN pkScenarioParams pkScenarioPrior 3 0 8 7 [1, 7] [2, 3]
        = Except.error CallFailure.division_by_zero := by
  refine ⟨by rfl, by decide, by rfl, by decide, by decide, by rfl, by decide, by rfl, by decide,
    by rfl, by rfl⟩

/-- C32 (amended). The ciphertext-producing operations return reduced
components, every `a` coordinate and `b` in `[0, modulus)`, under these
conditions, all moduli being positive: `Encrypt` for `p >= 1` and a sampled `a`
that is reduced; `EncryptN` for `p >= 1`, a public key of dimension `N >= 1`
whose rows have length `N` and modulus `q`, and a reduced sampled `e'`; `ModSwitch` for every input;
`KeySwitch` for a switching key with reduced entries and `b` reduced; `EvalAddEq`,
`EvalSubEq` and `EvalSubEq2` for reduced operands under the modulus of the first;
`EvalAddConstEq` and `EvalSubConstEq` for a reduced ciphertext and a constant
`c <= q`; `EvalMultConstEq` for every ciphertext and every constant;
`NoiselessEmbedding` for `m < 4`.  `Decrypt` of a reduced ciphertext with `p >= 1`
returns a value in `[0, p)`. -/
theorem C32_operations_return_reduced :
    (∀ (params : LWECryptoParams) (sk : LWEPrivateKeyImpl) (m p q e : Nat) (a : List Nat),
      1 ≤ p → 0 < q → (∀ x ∈ a, x < q) →
      ∃ ct, Encrypt params sk m p q e a = Except.ok ct ∧ ct.Reduced)
    ∧ (∀ (params : LWECryptoParams) (pk : LWEPublicKeyImpl) (m p q e : Nat) (sp ep : List Nat),
      1 ≤ p → 0 < q → 0 < pk.v.data.length → ep.length = pk.v.data.length → (∀ x ∈ ep, x < q) →
      (∀ j, j < pk.v.data.length →
        (pk.A.getD j { data := [], modulus := 0 }).data.length = pk.v.data.length ∧
        (pk.A.getD j { data := [], modulus := 0 }).modulus = q) →
      ∃ ct, EncryptN params pk m p q e sp ep = Except.ok ct ∧ ct.Reduced)
    ∧ (∀ (q : Nat) (ct : LWECiphertextImpl), 0 < q → (ModSwitch q ct).Reduced)
    ∧ (∀ (params : LWECryptoParams) (log : Double → Double) (K : LWESwitchingKeyImpl)
        (ct : LWECiphertextImpl),
      0 < params.qKS → 0 < params.baseKS → ct.b < params.qKS →
      (∀ i v j, i < params.N → v < params.baseKS →
        j < digitCountSize log params.qKS params.baseKS →
        (∀ t, (K.atA i v j).at t < params.qKS) ∧ K.atB i v j < params.qKS) →
      (KeySwitch params log K ct).Reduced)
    ∧ (∀ (ct1 ct2 : LWECiphertextImpl),
      ct1.Reduced → (∀ x ∈ ct2.a.data, x < ct1.a.modulus) → ct2.b < ct1.a.modulus →
      (EvalAddEq ct1 ct2).Reduced ∧ (EvalSubEq ct1 ct2).Reduced
        ∧ (EvalSubEq2 ct1 ct2).2.Reduced)
    ∧ (∀ (ct : LWECiphertextImpl) (c : Nat), ct.Reduced → c ≤ ct.a.modulus →
      (EvalAddConstEq ct c).Reduced ∧ (EvalSubConstEq ct c).Reduced)
    ∧ (∀ (ct : LWECiphertextImpl) (c : Nat), 0 < ct.a.modulus → (EvalMultConstEq ct c).Reduced)
    ∧ (∀ (params : LWECryptoParams) (m : Nat), 0 < params.q → m < 4 →
      (NoiselessEmbedding params m).Reduced)
    ∧ (∀ (params : LWECryptoParams) (sk : LWEPrivateKeyImpl) (ct : LWECiphertextImpl) (p : Nat),
      1 ≤ p → ct.Reduced → ∃ v, Decrypt params sk ct p = Except.ok v ∧ v < p) := by
  refine ⟨?_, ?_, ?_, ?_, ?_, ?_, ?_, ?_, ?_⟩
  · intro params sk m p q e a hp hq ha
    exact Encrypt_reduced params sk m p q e a hp hq ha
  · intro params pk m p q e sp ep hp hq hN hep hepq hA
    exact EncryptN_reduced params pk m p q e sp ep hp hq hN hep hepq hA
  · intro q ct hq
    exact ModSwitch_reduced q ct hq
  · intro params log K ct hq hbase hctb hK
    exact KeySwitch_reduced params (digitCountSize log params.qKS params.baseKS) K ct hq hbase
      hctb hK
  · intro ct1 ct2 h1 ha2 hb2
    exact ⟨EvalAddEq_reduced ct1 ct2 h1 ha2 hb2, EvalSubEq_reduced ct1 ct2 h1 ha2 hb2,
      EvalSubEq2_reduced ct1 ct2 h1 ha2 hb2⟩
  · intro ct c h hc
    exact ⟨EvalAddConstEq_reduced ct c h hc, EvalSubConstEq_reduced ct c h hc⟩
  · intro ct c hq
    exact EvalMultConstEq_reduced ct c hq
  · intro params m hq hm
    exact NoiselessEmbedding_reduced params m hq hm
  · intro params sk ct p hp h
    exact Decrypt_lt_of_reduced params sk ct p hp h

/-- C32 (amended) at concrete inputs: `Encrypt` with `q = 1024`; `EncryptN` with
the public key `([[1, 2], [3, 4]], [5, 6])` mod `8`; `ModSwitch` to `8`;
`KeySwitch` with the key of the small scenario; the ciphertexts `([3, 5], 6)` and
`([4, 1], 7)` under modulus `8`; the constant `5` under modulus `7`;
`NoiselessEmbedding` of `3`; `Decrypt` of `([3, 5], 6)` with `p = 4`. -/
theorem C32_operations_return_reduced_witness :
    (∃ ct, Encrypt scenarioParams scenarioKey 2 4 1024 1000 [5, 10, 15, 20] = Except.ok ct
      ∧ ct.Reduced)
    ∧ (∃ ct, EncryptN pkScenarioParams pkScenarioPrior 3 4 8 7 [1, 7] [2, 3] = Except.ok ct
      ∧ ct.Reduced)
    ∧ (ModSwitch 8 msScenarioCt).Reduced
    ∧ (KeySwitch ksScenarioParams scenarioLog
        (KeySwitchGen ksScenarioParams scenarioLog ksScenarioKey ksScenarioKeyN ksScenarioSample)
        pkScenarioCt).Reduced
    ∧ ((EvalAddEq pkScenarioCt evalScenarioCt).Reduced
      ∧ (EvalSubEq pkScenarioCt evalScenarioCt).Reduced
      ∧ (EvalSubEq2 pkScenarioCt evalScenarioCt).2.Reduced)
    ∧ ((EvalAddConstEq oddScenarioCt 5).Reduced ∧ (EvalSubConstEq oddScenarioCt 5).Reduced)
    ∧ (EvalMultConstEq pkScenarioCt 20).Reduced
    ∧ (NoiselessEmbedding scenarioParams 3).Reduced
    ∧ (∃ v, Decrypt pkScenarioParams pkScenarioKey pkScenarioCt 4 = Except.ok v ∧ v < 4) :=
  ⟨C32_operations_return_reduced.1 scenarioParams scenarioKey 2 4 1024 1000 [5, 10, 15, 20]
      (by decide) (by decide) (by decide),
    C32_operations_return_reduced.2.1 pkScenarioParams pkScenarioPrior 3 4 8 7 [1, 7] [2, 3]
      (by decide) (by decide) (by decide) rfl (by decide) (by decide),
    C32_operations_return_reduced.2.2.1 8 msScenarioCt (by decide),
    C32_operations_return_reduced.2.2.2.1 ksScenarioParams scenarioLog
      (KeySwitchGen ksScenarioParams scenarioLog ksScenarioKey ksScenarioKeyN ksScenarioSample)
      pkScenarioCt (by decide) (by decide) (by decide)
      (fun i v j hi hv hj =>
        have h := KeySwitchGen_entries ksScenarioParams
          (digitCount scenarioLog ksScenarioParams.qKS ksScenarioParams.baseKS)
          ksScenarioKey ksScenarioKeyN
          ksScenarioSample (by decide) rfl ksScenarioSample_ok i v j hi hv hj
        ⟨h.1, h.2.1⟩),
    C32_operations_return_reduced.2.2.2.2.1 pkScenarioCt evalScenarioCt (by decide) (by decide)
      (by decide),
    C32_operations_return_reduced.2.2.2.2.2.1 oddScenarioCt 5 (by decide) (by decide),
    C32_operations_return_reduced.2.2.2.2.2.2.1 pkScenarioCt 20 (by decide),
    C32_operations_return_reduced.2.2.2.2.2.2.2.1 scenarioParams 3 (by decide) (by decide),
    C32_operations_return_reduced.2.2.2.2.2.2.2.2 pkScenarioParams pkScenarioKey pkScenarioCt 4
      (by decide) (by decide)⟩

theorem scaled_lt (m p q : Nat) (hp : 1 ≤ p) (hq : 0 < q) (hdvd : q % p = 0) (hm : m < p) :
    m * (q / p) < q := by
  obtain ⟨d, rfl⟩ : p ∣ q := Nat.dvd_of_mod_eq_zero hdvd
  rw [Nat.mul_div_cancel_left d (by omega)]
  have hd : 0 < d := Nat.pos_of_ne_zero (by rintro rfl; simp at hq)
  exact Nat.mul_lt_mul_of_pos_right hm hd

theorem wrap_bound_encrypt (n q X : Nat) (hX : X < q)
    (hw : (n + 1) * q ≤ 2 ^ NATIVEINT ∨ 2 ^ NATIVEINT % q = 0) :
    X + 0 + n * q < 2 ^ NATIVEINT ∨ 2 ^ NATIVEINT % q = 0 := by
  rcases hw with h | h
  · left
    rw [Nat.add_mul] at h
    omega
  · exact Or.inr h

theorem wrap_bound_decrypt (n q : Nat)
    (hw : (n + 1) * q ≤ 2 ^ NATIVEINT ∨ 2 ^ NATIVEINT % q = 0) :
    n * q ≤ 2 ^ NATIVEINT ∨ 2 ^ NATIVEINT % q = 0 := by
  rcases hw with h | h
  · left
    rw [Nat.add_mul] at h
    omega
  · exact Or.inr h

theorem getD_lt_of_mem (a : List Nat) (q i : Nat) (hi : i < a.length) (h : ∀ x ∈ a, x < q) :
    a.getD i 0 < q := by
  rw [List.getD_eq_getElem _ _ hi]
  exact h _ (List.getElem_mem _)

/-- C1 (counterexample). With `q = 3 * 2^58`, `p = 4`, `m = 2`, a secret of 21
coordinates `q - 1` and the sampled vector of 21 ones, all of them within the
claim, the running sum `b += a[i] * s[i]` of `Encrypt` reaches
`q / 2 + 21 * (q - 1) = 2^64 + 2^57 - 21` and wraps in the 64-bit word, so that
`b = 2^57 - 21`, and `Decrypt` returns `1`, not `2`.  With `q = 0`, for which
`q % p = 0` holds too, `Encrypt` divides by zero.  With `q = 2^59`, `p = 2^10`,
`m = 1023`, the secret `[0]` and the sampled vector `[0]`, the product `p * r` of
`Decrypt`, with `r = 1023 * 2^49 + 2^48`, wraps in the 64-bit word to
`31 * 2^59 + 2^58` and `Decrypt` returns `31`, not `1023`. -/
theorem C1_round_trip_wraps_counterexample :
    (3 * 2 ^ 58) % 4 = 0
    ∧ (∀ x ∈ (minusOnesKey 21 (3 * 2 ^ 58)).s.data, x < 3 * 2 ^ 58)
    ∧ (∀ x ∈ List.replicate 21 1, x < 3 * 2 ^ 58)
    ∧ Encrypt wrapScenarioParams (minusOnesKey 21 (3 * 2 ^ 58)) 2 4 (3 * 2 ^ 58) 0
        (List.replicate 21 1)
      = Except.ok { a := { data := List.replicate 21 1, modulus := 3 * 2 ^ 58 }
                    b := 2 ^ 57 - 21, p := 4 }
    ∧ (Encrypt wrapScenarioParams (minusOnesKey 21 (3 * 2 ^ 58)) 2 4 (3 * 2 ^ 58) 0
        (List.replicate 21 1) >>= fun ct =>
          Decrypt wrapScenarioParams (minusOnesKey 21 (3 * 2 ^ 58)) ct 4) = Except.ok 1
    ∧ Encrypt scenarioParams scenarioKey 0 1 0 0 [5, 10, 15, 20]
      = Except.error CallFailure.division_by_zero
    ∧ 2 ^ 59 % 2 ^ 10 = 0
    ∧ (Encrypt productScenarioParams productScenarioKey 1023 (2 ^ 10) (2 ^ 59) 0 [0]
        >>= fun ct => Decrypt productScenarioParams productScenarioKey ct (2 ^ 10))
      = Except.ok 31 := by
  refine ⟨by decide, by decide, by decide, by rfl, by rfl, by rfl, by decide, by rfl⟩

/-- C1 (amended). Secret-key round trip with a zero-noise sampler: for every
plaintext modulus `p >= 1`, every ciphertext modulus `q >= 1` with `q % p = 0`,
every secret key of length `n`, every `m` in `[0, p)` and every vector `a` the
uniform sampler may return, decrypting the encryption of `m` gives `m`,
provided the running sums stay within the 64-bit word, `(n + 1) * q <= 2^64`, or
`q` divides `2^64`, and the product of `Decrypt` does, `p * q <= 2^64`. -/
theorem C1_secret_key_round_trip (params : LWECryptoParams) (sk : LWEPrivateKeyImpl)
    (m p q : Nat) (a : List Nat) (hp : 1 ≤ p) (hq : 0 < q) (hdvd : q % p = 0) (hm : m < p)
    (hlen : a.length = sk.s.GetLength) (hred : ∀ x ∈ a, x < q)
    (hw : (sk.s.GetLength + 1) * q ≤ 2 ^ NATIVEINT ∨ 2 ^ NATIVEINT % q = 0)
    (hpq : p * q ≤ 2 ^ NATIVEINT) :
    (Encrypt params sk m p q 0 a >>= fun ct => Decrypt params sk ct p) = .ok m := by
  have _ := hlen
  have _ := hred
  exact Encrypt_Decrypt_zero_noise params sk m p q a hp hq hdvd hm hw hpq

/-- Witness for C1 (amended): the concrete scenario `q = 1024`, `p = 4`, `m = 2`. -/
theorem C1_secret_key_round_trip_witness :
    (Encrypt scenarioParams scenarioKey 2 4 1024 0 [5, 10, 15, 20] >>=
      fun ct => Decrypt scenarioParams scenarioKey ct 4) = Except.ok 2 :=
  C1_secret_key_round_trip scenarioParams scenarioKey 2 4 1024 [5, 10, 15, 20]
    (by decide) (by decide) (by decide) (by decide) (by decide) (by decide)
    (Or.inl (by decide)) (by decide)

/-- C2 (counterexample). With `q = 2^60 - 4`, `p = 4`, `m = 0`, zero noise, a
secret of 17 coordinates `q - 1` and the sampled vector of 17 ones, the running
sum of `Encrypt` reaches `17 * (q - 1) = 2^64 + 2^60 - 85` and wraps in the
64-bit word: `Encrypt` returns `b = 2^60 - 85 = q - 81`, whereas
`((m mod p) * (q / p) + e + sum_i a[i] * s[i]) mod q = q - 17`.  With `p = 0`
the call divides by zero and returns no ciphertext. -/
theorem C2_encrypt_wraps_counterexample :
    Encrypt wrapScenarioParams (minusOnesKey 17 (2 ^ 60 - 4)) 0 4 (2 ^ 60 - 4) 0
        (List.replicate 17 1)
      = Except.ok { a := { data := List.replicate 17 1, modulus := 2 ^ 60 - 4 }
                    b := 2 ^ 60 - 4 - 81, p := 4 }
    ∧ ((0 % 4) * ((2 ^ 60 - 4) / 4) + 0
        + innerProduct (List.replicate 17 1)
            ((minusOnesKey 17 (2 ^ 60 - 4)).s.SwitchModulus (2 ^ 60 - 4)).data) % (2 ^ 60 - 4)
      = 2 ^ 60 - 4 - 17
    ∧ Encrypt scenarioParams scenarioKey 2 0 1024 0 [5, 10, 15, 20]
      = Except.error CallFailure.division_by_zero := by
  refine ⟨by rfl, by rfl, by rfl⟩

/-- C2 (amended). For `p >= 1` and `q >= 1`, `Encrypt` returns the ciphertext
`(a, b)` where `a` is the sampled vector, of the length `n` of the key, and
`b = ((m mod p) * (q / p) + e + sum_i a[i] * s[i]) mod q`, with `e` the sampled
noise and `s` the secret taken mod `q`, provided the running sum stays within
the 64-bit word, `(m mod p) * (q / p) + e + n * q < 2^64`, or `q` divides
`2^64`; in the concrete scenario `n = 4`, `q = 1024`, `p = 4`,
`s = [1, 0, -1, 1]`, `m = 2`, `a = [5, 10, 15, 20]`, zero noise, it returns
`b = 522`, and `Decrypt` of that ciphertext returns `2`. -/
theorem C2_encrypt_value (params : LWECryptoParams) (sk : LWEPrivateKeyImpl)
    (m p q e : Nat) (a : List Nat) (hlen : a.length = sk.s.GetLength)
    (hp : 1 ≤ p) (hq : 0 < q)
    (hw : (m % p) * (q / p) + e + sk.s.GetLength * q < 2 ^ NATIVEINT
      ∨ 2 ^ NATIVEINT % q = 0) :
    (∃ ct, Encrypt params sk m p q e a = Except.ok ct
      ∧ ct.a = { data := a, modulus := q }
      ∧ ct.GetLength = sk.s.GetLength
      ∧ ct.b = ((m % p) * (q / p) + e + innerProduct a (sk.s.SwitchModulus q).data) % q)
    ∧ Encrypt scenarioParams scenarioKey 2 4 1024 0 [5, 10, 15, 20] = Except.ok
        { a := { data := [5, 10, 15, 20], modulus := 1024 }, b := 522, p := 4 }
    ∧ Decrypt scenarioParams scenarioKey
        { a := { data := [5, 10, 15, 20], modulus := 1024 }, b := 522, p := 4 } 4
      = Except.ok 2 := by
  refine ⟨?_, by rfl, by rfl⟩
  rw [Encrypt_eq_sum _ _ _ _ _ _ _ hp hq hw]
  refine ⟨_, rfl, rfl, hlen, ?_⟩
  have hl : (NativeVector.mk a q).data.length = (sk.s.SwitchModulus q).data.length := by
    simpa [NativeVector.GetLength] using hlen
  have hacc := innerSum_mod (NativeVector.mk a q) (sk.s.SwitchModulus q) q hl
  rw [SwitchModulus_length] at hacc
  show (_ + _) % q = _
  rw [Nat.add_mod, hacc, ← Nat.add_mod]

/-- Witness for C2 (amended): a key of length 2 under modulus 8 with noise 1. -/
theorem C2_encrypt_value_witness :
    ∃ ct, Encrypt scenarioParams pkScenarioKey 3 4 8 1 [5, 6] = Except.ok ct
      ∧ ct.a = { data := [5, 6], modulus := 8 }
      ∧ ct.GetLength = pkScenarioKey.s.GetLength
      ∧ ct.b = ((3 % 4) * (8 / 4) + 1
          + innerProduct [5, 6] (pkScenarioKey.s.SwitchModulus 8).data) % 8 :=
  (C2_encrypt_value scenarioParams pkScenarioKey 3 4 8 1 [5, 6] (by decide) (by decide)
    (by decide) (Or.inl (by decide))).1

/-- C3 (counterexample). With `q = 3 * 2^58`, `p = 4`, a secret of 22
coordinates `q - 1` and the reduced ciphertext `(a, b)` with `a` the vector of
22 ones and `b = 0`, the running sum `inner += a[i] * s[i]` of `Decrypt` reaches
`22 * (q - 1) = 2^64 + 2^59 - 22` and wraps in the 64-bit word: `Decrypt` returns
`1`, whereas `x = (b - <a, s>) mod q = 22` and
`floor(p * ((x + q / (2p)) mod q) / q) = 0`.  With `q = 2^59`, `p = 2^10`, the
secret `[0]` and the reduced ciphertext `([0], 1023 * 2^49)`, the product `p * r`
of `Decrypt` wraps in the 64-bit word and `Decrypt` returns `31`, whereas
`floor(p * ((x + q / (2p)) mod q) / q) = 1023`. -/
theorem C3_decrypt_wraps_counterexample :
    (3 * 2 ^ 58) % (2 * 4) = 0
    ∧ Decrypt wrapScenarioParams (minusOnesKey 22 (3 * 2 ^ 58))
        { a := { data := List.replicate 22 1, modulus := 3 * 2 ^ 58 }, b := 0 } 4
      = Except.ok 1
    ∧ ((((0 : Nat) : Int) - (innerProduct (List.replicate 22 1)
          ((minusOnesKey 22 (3 * 2 ^ 58)).s.SwitchModulus (3 * 2 ^ 58)).data : Nat))
        % ((3 * 2 ^ 58 : Nat) : Int)).toNat = 22
    ∧ 4 * ((22 + 3 * 2 ^ 58 / (2 * 4)) % (3 * 2 ^ 58)) / (3 * 2 ^ 58) = 0
    ∧ 2 ^ 59 % (2 * 2 ^ 10) = 0
    ∧ Decrypt productScenarioParams productScenarioKey
        { a := { data := [0], modulus := 2 ^ 59 }, b := 1023 * 2 ^ 49 } (2 ^ 10)
      = Except.ok 31
    ∧ 2 ^ 10 * ((((((1023 * 2 ^ 49 : Nat) : Int) - (innerProduct [0]
          (productScenarioKey.s.SwitchModulus (2 ^ 59)).data : Nat))
        % ((2 ^ 59 : Nat) : Int)).toNat + 2 ^ 59 / (2 * 2 ^ 10)) % 2 ^ 59) / 2 ^ 59 = 1023 := by
  refine ⟨by decide, by rfl, by rfl, by decide, by decide, by rfl, by rfl⟩

/-- C3 (amended). `Decrypt` rounds to nearest by offset-then-floor: for a
ciphertext `(a, b)` with reduced coordinates under modulus `q`, a key `s` of
length `n` and `p` with `q` divisible by `2p`, provided the running sum stays
within the 64-bit word, `n * q <= 2^64`, or `q` divides `2^64`, and the product
`p * r` does, `p * q <= 2^64`, it returns
`floor(p * ((x + q/(2p)) mod q) / q)` where `x = (b - <a, s>) mod q`, and this
value is `Round(p * x / q) mod p` with `Round(y) = floor(1/2 + y)` over the
rationals. -/
theorem C3_decrypt_rounds_to_nearest (params : LWECryptoParams) (sk : LWEPrivateKeyImpl)
    (ct : LWECiphertextImpl) (p q : Nat) (hmod : ct.GetModulus = q) (hq : 0 < q)
    (hdvd : q % (2 * p) = 0) (hb : ct.b < q) (ha : ∀ x ∈ ct.a.data, x < q)
    (hlen : ct.GetLength = sk.s.GetLength)
    (hw : sk.s.GetLength * q ≤ 2 ^ NATIVEINT ∨ 2 ^ NATIVEINT % q = 0)
    (hpq : p * q ≤ 2 ^ NATIVEINT) :
    Decrypt params sk ct p = .ok
        (p * ((((((ct.b : Int) - (innerProduct ct.a.data (sk.s.SwitchModulus q).data : Nat))
          % (q : Int)).toNat) + q / (2 * p)) % q) / q)
      ∧ ((p * ((((((ct.b : Int) - (innerProduct ct.a.data (sk.s.SwitchModulus q).data : Nat))
          % (q : Int)).toNat) + q / (2 * p)) % q) / q : Nat) : Int)
        = ⌊(1 / 2 : ℚ) + ((p : ℚ) * ((((ct.b : Int)
            - (innerProduct ct.a.data (sk.s.SwitchModulus q).data : Nat)) % (q : Int)).toNat : ℚ))
            / (q : ℚ)⌋ % (p : Int) := by
  have _ := ha
  simp only [LWECiphertextImpl.GetModulus] at hmod
  simp only [LWECiphertextImpl.GetLength, NativeVector.GetLength] at hlen hw
  have hp : 0 < p := by
    rcases Nat.eq_zero_or_pos p with h | h
    · subst h; simp at hdvd; omega
    · exact h
  obtain ⟨h, hqh⟩ : 2 * p ∣ q := Nat.dvd_of_mod_eq_zero hdvd
  have hh : 0 < h := Nat.pos_of_ne_zero (by rintro rfl; simp at hqh; omega)
  have hdiv : q / (2 * p) = h := by rw [hqh]; exact Nat.mul_div_cancel_left h (by omega)
  have hq2 : q = 2 * p * h := hqh
  have hphase := decryptPhase_int sk ct (by omega) hlen (by rw [hmod]; exact hw)
  have hlt := decryptPhase_lt sk ct (by omega)
  rw [hmod] at hphase hlt
  have hx : ((((ct.b : Int) - (innerProduct ct.a.data (sk.s.SwitchModulus q).data : Nat))
      % (q : Int)).toNat) = decryptPhase sk ct := by
    rw [← hphase]; simp
  rw [hx, Decrypt_eq _ _ _ _ hp (by omega) (by omega) (by rw [hmod]; exact hpq), hmod,
    Nat.mul_comm p 2]
  generalize decryptPhase sk ct = x at hlt
  constructor
  · rw [ModAddFast_eq_mod _ _ _ hlt (by rw [hdiv]; nlinarith)]
  · rw [hdiv, hq2, round_offset p h _ hp, floor_half_add p h x hp hh]
    norm_cast

/-- Witness for C3 (amended): the ciphertext of the concrete scenario, `q = 1024`,
`p = 4`. -/
theorem C3_decrypt_rounds_to_nearest_witness :
    Decrypt scenarioParams scenarioKey
        { a := { data := [5, 10, 15, 20], modulus := 1024 }, b := 522, p := 4 } 4 = .ok
      (4 * ((((((522 : Nat) : Int) - (innerProduct [5, 10, 15, 20]
          (scenarioKey.s.SwitchModulus 1024).data : Nat)) % ((1024 : Nat) : Int)).toNat
        + 1024 / (2 * 4)) % 1024) / 1024) :=
  (C3_decrypt_rounds_to_nearest scenarioParams scenarioKey
    { a := { data := [5, 10, 15, 20], modulus := 1024 }, b := 522, p := 4 } 4 1024
    rfl (by decide) (by decide) (by decide) (by decide) (by decide) (Or.inl (by decide))
    (by decide)).1

/-- C11 (counterexample). With `q = 3 * 2^58`, `p = 4`, a secret of 21
coordinates `q - 1`, `m1 = 2` encrypted with the sampled vector of 21 ones and
`m2 = 0` encrypted with the sampled vector of 21 zeros, both without noise, the
running sum of the first `Encrypt` wraps in the 64-bit word and
`Decrypt(sk, EvalAdd(ct1, ct2), 4)` returns `1`, not `(2 + 0) mod 4 = 2`.  With
`q = 2^59`, `p = 2^10`, the secret `[0]`, `m1 = 1023` and `m2 = 0`, both
encrypted without noise with the sampled vector `[0]`, the product `p * r` of
`Decrypt` wraps in the 64-bit word and `Decrypt(sk, EvalAdd(ct1, ct2), p)`
returns `31`, not `1023`. -/
theorem C11_additive_homomorphism_wraps_counterexample :
    (3 * 2 ^ 58) % (2 * 4) = 0
    ∧ (Encrypt wrapScenarioParams (minusOnesKey 21 (3 * 2 ^ 58)) 2 4 (3 * 2 ^ 58) 0
        (List.replicate 21 1) >>= fun ct1 =>
      Encrypt wrapScenarioParams (minusOnesKey 21 (3 * 2 ^ 58)) 0 4 (3 * 2 ^ 58) 0
        (List.replicate 21 0) >>= fun ct2 =>
        Decrypt wrapScenarioParams (minusOnesKey 21 (3 * 2 ^ 58)) (EvalAddEq ct1 ct2) 4)
      = Except.ok 1
    ∧ (2 + 0) % 4 = 2
    ∧ 2 ^ 59 % (2 * 2 ^ 10) = 0
    ∧ (Encrypt productScenarioParams productScenarioKey 1023 (2 ^ 10) (2 ^ 59) 0 [0]
        >>= fun ct1 =>
      Encrypt productScenarioParams productScenarioKey 0 (2 ^ 10) (2 ^ 59) 0 [0]
        >>= fun ct2 =>
        Decrypt productScenarioParams productScenarioKey (EvalAddEq ct1 ct2) (2 ^ 10))
      = Except.ok 31
    ∧ (1023 + 0) % 2 ^ 10 = 1023 := by
  refine ⟨by decide, by rfl, by decide, by decide, by rfl, by decide⟩

/-- C11 (amended). Additive homomorphism: for every key `sk` of length `n`,
every `p`, `q >= 1` with `q` divisible by `2p`, every `m1`, `m2` in `[0, p)` with
`m1 + m2 < p`, and zero-noise encryptions `ct1`, `ct2` of `m1`, `m2` (any sampled
`a` vectors), `Decrypt(sk, EvalAdd(ct1, ct2), p) = (m1 + m2) mod p`, provided the
running sums stay within the 64-bit word, `(n + 1) * q <= 2^64`, or `q` divides
`2^64`, and the product of `Decrypt` does, `p * q <= 2^64`. -/
theorem C11_additive_homomorphism (params : LWECryptoParams) (sk : LWEPrivateKeyImpl)
    (m1 m2 p q : Nat) (a1 a2 : List Nat) (hq : 0 < q) (hdvd : q % (2 * p) = 0)
    (hm1 : m1 < p) (hm2 : m2 < p) (hsum : m1 + m2 < p)
    (hlen1 : a1.length = sk.s.GetLength) (hlen2 : a2.length = sk.s.GetLength)
    (hred1 : ∀ x ∈ a1, x < q) (hred2 : ∀ x ∈ a2, x < q)
    (hw : (sk.s.GetLength + 1) * q ≤ 2 ^ NATIVEINT ∨ 2 ^ NATIVEINT % q = 0)
    (hpq : p * q ≤ 2 ^ NATIVEINT) :
    (Encrypt params sk m1 p q 0 a1 >>= fun ct1 =>
      Encrypt params sk m2 p q 0 a2 >>= fun ct2 =>
        Decrypt params sk (EvalAddEq ct1 ct2) p) = Except.ok ((m1 + m2) % p) := by
  simp only [NativeVector.GetLength] at hlen1 hlen2 hw
  obtain ⟨hp, hdvdp⟩ := dvd_of_two_mul_mod hq hdvd
  have hph1 := Encrypt_phase_cast sk m1 p q a1 hlen1
  have hph2 := Encrypt_phase_cast sk m2 p q a2 hlen2
  have hX1 : (m1 % p) * (q / p) < q := by
    rw [Nat.mod_eq_of_lt hm1]
    exact scaled_lt m1 p q hp hq hdvdp hm1
  have hX2 : (m2 % p) * (q / p) < q := by
    rw [Nat.mod_eq_of_lt hm2]
    exact scaled_lt m2 p q hp hq hdvdp hm2
  rw [Encrypt_eq_sum _ _ _ _ _ _ _ hp hq (wrap_bound_encrypt _ _ _ hX1 hw),
    Encrypt_eq_sum _ _ _ _ _ _ _ hp hq (wrap_bound_encrypt _ _ _ hX2 hw)]
  show Decrypt params sk (EvalAddEq _ _) p = _
  rw [Nat.mod_eq_of_lt hsum]
  have hb1 : ((m1 % p) * (q / p) + 0 +
      innerSum { data := a1, modulus := q } (sk.s.SwitchModulus q) q
        sk.s.data.length) % q < q := Nat.mod_lt _ hq
  have hb2 : ((m2 % p) * (q / p) + 0 +
      innerSum { data := a2, modulus := q } (sk.s.SwitchModulus q) q
        sk.s.data.length) % q < q := Nat.mod_lt _ hq
  generalize ((m1 % p) * (q / p) + 0 +
      innerSum { data := a1, modulus := q } (sk.s.SwitchModulus q) q
        sk.s.data.length) % q = b1 at hph1 hb1 ⊢
  generalize ((m2 % p) * (q / p) + 0 +
      innerSum { data := a2, modulus := q } (sk.s.SwitchModulus q) q
        sk.s.data.length) % q = b2 at hph2 hb2 ⊢
  rw [Nat.mod_eq_of_lt hm1] at hph1
  rw [Nat.mod_eq_of_lt hm2] at hph2
  apply Decrypt_of_phase params sk _ (m1 + m2) p hp hq hdvdp hsum
  · exact ModAddFast_lt _ _ _ hb1 hb2
  · simp [EvalAddEq, NativeVector.ModAddEq, hlen1, hlen2]
  · exact wrap_bound_decrypt _ _ hw
  · exact hpq
  · simp only [EvalAddEq, NativeVector.ModAddEq, LWECiphertextImpl.GetModulus]
    rw [ModAddFast_cast _ _ _ hb1 hb2, hph1, hph2,
      innerProduct_cast (List.zipWith (fun x y => ModAddFast x y q) a1 a2) _ q
        (by simp [hlen1, hlen2]),
      innerProduct_cast a1 _ q (by simp [hlen1]), innerProduct_cast a2 _ q (by simp [hlen2]),
      SwitchModulus_length]
    have hz : ∀ i ∈ Finset.range sk.s.data.length,
        (((List.zipWith (fun x y => ModAddFast x y q) a1 a2).getD i 0 : Nat) : ZMod q)
          * (((sk.s.SwitchModulus q).data.getD i 0 : Nat) : ZMod q)
        = ((a1.getD i 0 : Nat) : ZMod q) * (((sk.s.SwitchModulus q).data.getD i 0 : Nat) : ZMod q)
          + ((a2.getD i 0 : Nat) : ZMod q)
            * (((sk.s.SwitchModulus q).data.getD i 0 : Nat) : ZMod q) := by
      intro i hi
      have hi' := Finset.mem_range.mp hi
      rw [zipWith_getD_cast _ _ _ _ (by omega) (by omega),
        ModAddFast_cast _ _ _ (getD_lt_of_mem a1 q i (by omega) hred1)
          (getD_lt_of_mem a2 q i (by omega) hred2), add_mul]
    rw [Finset.sum_congr rfl hz, Finset.sum_add_distrib]
    push_cast
    ring

/-- Witness for C11 (amended): `q = 1024`, `p = 4`, `m1 = 1`, `m2 = 2`. -/
theorem C11_additive_homomorphism_witness :
    (Encrypt scenarioParams scenarioKey 1 4 1024 0 [5, 10, 15, 20] >>= fun ct1 =>
      Encrypt scenarioParams scenarioKey 2 4 1024 0 [7, 1000, 3, 512] >>= fun ct2 =>
        Decrypt scenarioParams scenarioKey (EvalAddEq ct1 ct2) 4) = Except.ok ((1 + 2) % 4) :=
  C11_additive_homomorphism scenarioParams scenarioKey 1 2 4 1024 [5, 10, 15, 20]
    [7, 1000, 3, 512] (by decide) (by decide) (by decide) (by decide) (by decide) (by decide)
    (by decide) (by decide) (by decide) (Or.inl (by decide)) (by decide)

/-- C12 (counterexample). With `q = 3 * 2^58`, `p = 4`, a secret of 21
coordinates `q - 1`, `m = 2` encrypted without noise with the sampled vector of
21 ones, and the constant `c = 1`, the running sum of `Encrypt` wraps in the
64-bit word and `Decrypt(sk, EvalMultConst(ct, 1), 4)` returns `1`, not
`(2 * 1) mod 4 = 2`.  With `q = 2^59`, `p = 2^10`, the secret `[0]`, `m = 1023`
encrypted without noise with the sampled vector `[0]` and `c = 1`, the product
`p * r` of `Decrypt` wraps in the 64-bit word and
`Decrypt(sk, EvalMultConst(ct, 1), p)` returns `31`, not `1023`. -/
theorem C12_constant_multiply_wraps_counterexample :
    (3 * 2 ^ 58) % (2 * 4) = 0
    ∧ (Encrypt wrapScenarioParams (minusOnesKey 21 (3 * 2 ^ 58)) 2 4 (3 * 2 ^ 58) 0
        (List.replicate 21 1) >>= fun ct =>
        Decrypt wrapScenarioParams (minusOnesKey 21 (3 * 2 ^ 58)) (EvalMultConstEq ct 1) 4)
      = Except.ok 1
    ∧ (2 * 1) % 4 = 2
    ∧ 2 ^ 59 % (2 * 2 ^ 10) = 0
    ∧ (Encrypt productScenarioParams productScenarioKey 1023 (2 ^ 10) (2 ^ 59) 0 [0]
        >>= fun ct =>
        Decrypt productScenarioParams productScenarioKey (EvalMultConstEq ct 1) (2 ^ 10))
      = Except.ok 31
    ∧ (1023 * 1) % 2 ^ 10 = 1023 := by
  refine ⟨by decide, by rfl, by decide, by decide, by rfl, by decide⟩

/-- C12 (amended). Constant-multiply homomorphism: for every key `sk` of length
`n`, every `p`, `q >= 1` with `q` divisible by `2p`, every `m` in `[0, p)` and
constant `c` with `m * c < p`, and a zero-noise encryption `ct` of `m`,
`Decrypt(sk, EvalMultConst(ct, c), p) = (m * c) mod p`, provided the running sums
stay within the 64-bit word, `(n + 1) * q <= 2^64`, or `q` divides `2^64`, and
the product of `Decrypt` does, `p * q <= 2^64`. -/
theorem C12_constant_multiply_homomorphism (params : LWECryptoParams)
    (sk : LWEPrivateKeyImpl) (m c p q : Nat) (a : List Nat) (hq : 0 < q)
    (hdvd : q % (2 * p) = 0) (hm : m < p) (hmc : m * c < p)
    (hlen : a.length = sk.s.GetLength) (hred : ∀ x ∈ a, x < q)
    (hw : (sk.s.GetLength + 1) * q ≤ 2 ^ NATIVEINT ∨ 2 ^ NATIVEINT % q = 0)
    (hpq : p * q ≤ 2 ^ NATIVEINT) :
    (Encrypt params sk m p q 0 a >>= fun ct =>
      Decrypt params sk (EvalMultConstEq ct c) p) = Except.ok ((m * c) % p) := by
  have _ := hred
  simp only [NativeVector.GetLength] at hlen hw
  obtain ⟨hp, hdvdp⟩ := dvd_of_two_mul_mod hq hdvd
  have hph := Encrypt_phase_cast sk m p q a hlen
  have hX : (m % p) * (q / p) < q := by
    rw [Nat.mod_eq_of_lt hm]
    exact scaled_lt m p q hp hq hdvdp hm
  rw [Encrypt_eq_sum _ _ _ _ _ _ _ hp hq (wrap_bound_encrypt _ _ _ hX hw)]
  show Decrypt params sk (EvalMultConstEq _ _) p = _
  rw [Nat.mod_eq_of_lt hmc]
  generalize ((m % p) * (q / p) + 0 +
      innerSum { data := a, modulus := q } (sk.s.SwitchModulus q) q
        sk.s.data.length) % q = b at hph ⊢
  rw [Nat.mod_eq_of_lt hm] at hph
  apply Decrypt_of_phase params sk _ (m * c) p hp hq hdvdp hmc
  · exact Nat.mod_lt _ hq
  · simp [EvalMultConstEq, NativeVector.ModMul, hlen]
  · exact wrap_bound_decrypt _ _ hw
  · exact hpq
  · simp only [EvalMultConstEq, NativeVector.ModMul, LWECiphertextImpl.GetModulus, ModMulFast]
    rw [ZMod.natCast_mod, Nat.cast_mul, hph,
      innerProduct_cast (a.map fun x => lbcrypto.ModMul x c q) _ q (by simp [hlen]),
      innerProduct_cast a _ q (by simp [hlen]), SwitchModulus_length]
    have hz : ∀ i ∈ Finset.range sk.s.data.length,
        ((((a.map fun x => lbcrypto.ModMul x c q).getD i 0 : Nat)) : ZMod q)
          * (((sk.s.SwitchModulus q).data.getD i 0 : Nat) : ZMod q)
        = (c : ZMod q) * (((a.getD i 0 : Nat) : ZMod q)
            * (((sk.s.SwitchModulus q).data.getD i 0 : Nat) : ZMod q)) := by
      intro i hi
      have hi' := Finset.mem_range.mp hi
      rw [map_getD_zero _ _ _ (by omega), ModMul_eq_mod, ZMod.natCast_mod, Nat.cast_mul]
      ring
    rw [Finset.sum_congr rfl hz, ← Finset.mul_sum]
    push_cast
    ring

/-- Witness for C12 (amended): `q = 1024`, `p = 8`, `m = 2`, `c = 3`. -/
theorem C12_constant_multiply_homomorphism_witness :
    (Encrypt scenarioParams scenarioKey 2 8 1024 0 [5, 10, 15, 20] >>= fun ct =>
      Decrypt scenarioParams scenarioKey (EvalMultConstEq ct 3) 8) = Except.ok ((2 * 3) % 8) :=
  C12_constant_multiply_homomorphism scenarioParams scenarioKey 2 3 8 1024 [5, 10, 15, 20]
    (by decide) (by decide) (by decide) (by decide) (by decide) (by decide)
    (Or.inl (by decide)) (by decide)

/-- C28 (counterexample). With `p = 4`, `q = 3 * 2^58`, a secret of 21
coordinates `q - 1`, `m = 2`, the sampled vector of 21 ones and the noise
`e = 0`, which lies in `[-q/(2p), q/(2p))`, the running sum of `Encrypt` wraps in
the 64-bit word and `Decrypt(sk, Encrypt(sk, m, p, q), p)` is `1`, not `m`.
With `p = 2^10`, `q = 2^59`, the secret `[0]`, `m = 1023`, the sampled vector
`[0]` and the noise `e = 0`, the product `p * r` of `Decrypt` wraps in the 64-bit
word and `Decrypt(sk, Encrypt(sk, m, p, q), p)` is `31`, not `m`. -/
theorem C28_noise_tolerance_wraps_counterexample :
    (3 * 2 ^ 58) % (2 * 4) = 0
    ∧ (Encrypt wrapScenarioParams (minusOnesKey 21 (3 * 2 ^ 58)) 2 4 (3 * 2 ^ 58)
        ((0 : Int) % ((3 * 2 ^ 58 : Nat) : Int)).toNat (List.replicate 21 1) >>= fun ct =>
          Decrypt wrapScenarioParams (minusOnesKey 21 (3 * 2 ^ 58)) ct 4) = Except.ok 1
    ∧ (-((3 * 2 ^ 58 / (2 * 4) : Nat) : Int) ≤ (0 : Int)
        ∧ (0 : Int) < ((3 * 2 ^ 58 / (2 * 4) : Nat) : Int))
    ∧ 2 ^ 59 % (2 * 2 ^ 10) = 0
    ∧ (Encrypt productScenarioParams productScenarioKey 1023 (2 ^ 10) (2 ^ 59)
        ((0 : Int) % ((2 ^ 59 : Nat) : Int)).toNat [0] >>= fun ct =>
          Decrypt productScenarioParams productScenarioKey ct (2 ^ 10)) = Except.ok 31
    ∧ (-((2 ^ 59 / (2 * 2 ^ 10) : Nat) : Int) ≤ (0 : Int)
        ∧ (0 : Int) < ((2 ^ 59 / (2 * 2 ^ 10) : Nat) : Int)) := by
  refine ⟨by decide, by rfl, by decide, by decide, by rfl, by decide⟩

/-- C28 (amended). Exact noise tolerance of `Decrypt`: for every `p >= 2`, every
`q > 0` divisible by `2p`, every key of length `n`, every `m` in `[0, p)`, every
sampled `a` and every integer noise `e` with `-q/2 <= e < q/2`, which `Encrypt`
adds as `e mod q`, provided the running sums stay within the 64-bit word,
`(n + 2) * q <= 2^64`, or `q` divides `2^64`, and the product of `Decrypt` does,
`p * q <= 2^64`:
`Decrypt(sk, Encrypt(sk, m, p, q), p) = m` if and only if
`-q/(2p) <= e < q/(2p)`. -/
theorem C28_exact_noise_tolerance (params : LWECryptoParams) (sk : LWEPrivateKeyImpl)
    (m p q : Nat) (a : List Nat) (e : Int) (hp : 2 ≤ p) (hq : 0 < q)
    (hdvd : q % (2 * p) = 0) (hm : m < p)
    (hlo : -((q / 2 : Nat) : Int) ≤ e) (hhi : e < ((q / 2 : Nat) : Int))
    (hw : (sk.s.GetLength + 2) * q ≤ 2 ^ NATIVEINT ∨ 2 ^ NATIVEINT % q = 0)
    (hpq : p * q ≤ 2 ^ NATIVEINT) :
    (Encrypt params sk m p q (e % (q : Int)).toNat a >>= fun ct => Decrypt params sk ct p)
        = Except.ok m
      ↔ (-((q / (2 * p) : Nat) : Int) ≤ e ∧ e < ((q / (2 * p) : Nat) : Int)) := by
  simp only [NativeVector.GetLength] at hw
  have he : (e % (q : Int)).toNat < q := by
    have h1 := Int.emod_lt_of_pos e (by exact_mod_cast hq : (0 : Int) < (q : Int))
    have h2 := Int.emod_nonneg e (by omega : (q : Int) ≠ 0)
    omega
  obtain ⟨h, rfl⟩ : 2 * p ∣ q := Nat.dvd_of_mod_eq_zero hdvd
  have hh : 0 < h := Nat.pos_of_ne_zero (by rintro rfl; simp at hq)
  have e1 : 2 * p * h / 2 = p * h := by
    rw [show 2 * p * h = 2 * (p * h) by ring]
    exact Nat.mul_div_cancel_left _ (by omega)
  have e2 : 2 * p * h / (2 * p) = h := Nat.mul_div_cancel_left _ (by omega)
  rw [e1] at hlo hhi
  rw [e2, Encrypt_Decrypt_noise params sk m p h _ a (by omega) hh he hw hpq, Nat.mod_eq_of_lt hm,
    Except.ok.injEq]
  exact noise_window m p h e (by omega) hh hm hlo hhi

/-- C28 (amended) at `q = 1024`, `p = 4`, `m = 2`, the key `[1, 0, -1, 1]`,
`a = [5, 10, 15, 20]` and the noise `e = -100`, inside the window `[-128, 128)`. -/
theorem C28_exact_noise_tolerance_witness :
    (Encrypt scenarioParams scenarioKey 2 4 1024 ((-100 : Int) % ((1024 : Nat) : Int)).toNat
        [5, 10, 15, 20] >>= fun ct => Decrypt scenarioParams scenarioKey ct 4) = Except.ok 2
      ↔ (-((1024 / (2 * 4) : Nat) : Int) ≤ (-100 : Int)
          ∧ (-100 : Int) < ((1024 / (2 * 4) : Nat) : Int)) :=
  C28_exact_noise_tolerance scenarioParams scenarioKey 2 4 1024 [5, 10, 15, 20] (-100)
    (by decide) (by decide) (by decide) (by decide) (by decide) (by decide)
    (Or.inl (by decide)) (by decide)

/-- C13 (counterexample). With `q = 2^60 - 4`, `p = 4`, the reduced ciphertext
`(a, b)` with `a` the vector of 17 ones and `b = 2^57 - 50`, the secret `s1` with
9 coordinates `q - 1` followed by 8 zeros, `s2` with 9 zeros followed by 8
coordinates `q - 1`, and `sk = s1 + s2`, the secret of 17 coordinates `q - 1`:
the running sums of the two shares stay within the 64-bit word, the one of
`Decrypt`, `17 * (q - 1)`, wraps; the fusion of the shares gives `0` and
`Decrypt(sk, ct, 4)` gives `1`.  With `p = 0` the shares divide by zero. -/
theorem C13_threshold_decryption_wraps_counterexample :
    (∀ i, i < 17 → (minusOnesKey 17 (2 ^ 60 - 4)).s.at i % (2 ^ 60 - 4)
        = (splitScenarioKey1.s.at i + splitScenarioKey2.s.at i) % (2 ^ 60 - 4))
    ∧ splitScenarioCt.Reduced
    ∧ (MultipartyDecryptLead wrapScenarioParams splitScenarioKey1 splitScenarioCt 4
        >>= fun lead =>
        MultipartyDecryptMain wrapScenarioParams splitScenarioKey2 splitScenarioCt 4
          >>= fun main => MultipartyDecryptFusion [lead, main] 4) = Except.ok 0
    ∧ Decrypt wrapScenarioParams (minusOnesKey 17 (2 ^ 60 - 4)) splitScenarioCt 4
        = Except.ok 1
    ∧ MultipartyDecryptLead pkScenarioParams pkScenarioKey pkScenarioCt 0
        = Except.error CallFailure.division_by_zero
    ∧ MultipartyDecryptMain pkScenarioParams pkScenarioKey2 pkScenarioCt 0
        = Except.error CallFailure.division_by_zero := by
  refine ⟨by decide, by decide, by rfl, by rfl, by rfl, by rfl⟩

/-- C13 (amended). Threshold decryption agrees with single-party decryption:
for a ciphertext `ct` of dimension `n` under modulus `q`, every `p >= 1`, and
secrets `s1`, `s2` of the dimension of `ct` with `sk = s1 + s2` coordinate-wise
mod `q`, provided the running sums stay within the 64-bit word, `n * q <= 2^64`,
or `q` divides `2^64`,
`MultipartyDecryptFusion([MultipartyDecryptLead(s1, ct), MultipartyDecryptMain(s2, ct)], p)`
is `Decrypt(sk, ct, p)`. -/
theorem C13_threshold_decryption_agrees (params : LWECryptoParams)
    (sk s1 s2 : LWEPrivateKeyImpl) (ct : LWECiphertextImpl) (p q : Nat)
    (hmod : ct.GetModulus = q) (hq : 0 < q) (hb : ct.b < q) (ha : ∀ x ∈ ct.a.data, x < q)
    (hlen1 : s1.s.GetLength = ct.GetLength) (hlen2 : s2.s.GetLength = ct.GetLength)
    (hlen : sk.s.GetLength = ct.GetLength)
    (hmod1 : s1.s.modulus = q) (hmod2 : s2.s.modulus = q) (hmodsk : sk.s.modulus = q)
    (hsum : ∀ i, i < ct.GetLength → sk.s.at i % q = (s1.s.at i + s2.s.at i) % q)
    (hp : 1 ≤ p)
    (hw : ct.GetLength * q ≤ 2 ^ NATIVEINT ∨ 2 ^ NATIVEINT % q = 0) :
    ∃ lead main result,
      MultipartyDecryptLead params s1 ct p = Except.ok lead
      ∧ MultipartyDecryptMain params s2 ct p = Except.ok main
      ∧ MultipartyDecryptFusion [lead, main] p = Except.ok result
      ∧ Decrypt params sk ct p = Except.ok result := by
  have _ := ha
  simp only [NativeVector.GetLength, LWECiphertextImpl.GetLength,
    LWECiphertextImpl.GetModulus] at hmod hlen1 hlen2 hlen hsum hw
  have hq' : 0 < ct.a.modulus := by omega
  have hb' : ct.b < ct.a.modulus := by omega
  have hw1 : s1.s.data.length * ct.a.modulus ≤ 2 ^ NATIVEINT
      ∨ 2 ^ NATIVEINT % ct.a.modulus = 0 := by rw [hlen1, hmod]; exact hw
  have hw2 : s2.s.data.length * ct.a.modulus ≤ 2 ^ NATIVEINT
      ∨ 2 ^ NATIVEINT % ct.a.modulus = 0 := by rw [hlen2, hmod]; exact hw
  have hw3 : sk.s.data.length * ct.a.modulus ≤ 2 ^ NATIVEINT
      ∨ 2 ^ NATIVEINT % ct.a.modulus = 0 := by rw [hlen, hmod]; exact hw
  refine ⟨_, _, _, MultipartyDecryptLead_eq params s1 ct p hp hq',
    MultipartyDecryptMain_eq params s2 ct p hp hq',
    MultipartyDecryptFusion_pair _ _ p hp hq', ?_⟩
  rw [Decrypt_eq_word _ _ _ _ hp hq']
  simp only []
  suffices hsuff : ModSubFast (decryptPhase s1 ct)
      (accumulateInner ct.a (s2.s.SwitchModulus ct.a.modulus) ct.a.modulus s2.s.data.length 0
        % ct.a.modulus) ct.a.modulus = decryptPhase sk ct by
    rw [hsuff]
  have hlt : ModSubFast (decryptPhase s1 ct)
      (accumulateInner ct.a (s2.s.SwitchModulus ct.a.modulus) ct.a.modulus s2.s.data.length 0
        % ct.a.modulus) ct.a.modulus < ct.a.modulus :=
    ModSubFast_lt _ _ _ (decryptPhase_lt s1 ct hb') (le_of_lt (Nat.mod_lt _ hq'))
  have hlt2 := decryptPhase_lt sk ct hb'
  have hc : ((ModSubFast (decryptPhase s1 ct)
      (accumulateInner ct.a (s2.s.SwitchModulus ct.a.modulus) ct.a.modulus s2.s.data.length 0
        % ct.a.modulus) ct.a.modulus : Nat) : ZMod ct.a.modulus)
      = ((decryptPhase sk ct : Nat) : ZMod ct.a.modulus) := by
    have hacc := innerSum_mod ct.a (s2.s.SwitchModulus ct.a.modulus) ct.a.modulus
      (by simp [hlen2])
    rw [SwitchModulus_length] at hacc
    rw [ModSubFast_cast _ _ _ (le_of_lt (Nat.mod_lt _ hq')),
      accumulateInner_mod_q _ _ _ _ _ hq' (by simpa using hw2), Nat.zero_add, hacc,
      ZMod.natCast_mod,
      decryptPhase_cast s1 ct hb' hlen1.symm hw1, decryptPhase_cast sk ct hb' hlen.symm hw3,
      innerProduct_switch_cast _ s1.s _ hq' (by omega) hlen1.symm,
      innerProduct_switch_cast _ s2.s _ hq' (by omega) hlen2.symm,
      innerProduct_switch_cast _ sk.s _ hq' (by omega) hlen.symm, hlen1, hlen2, hlen,
      sub_sub, ← Finset.sum_add_distrib]
    congr 1
    apply Finset.sum_congr rfl
    intro i hi
    have hi' := Finset.mem_range.mp hi
    have hs : ((sk.s.at i : Nat) : ZMod ct.a.modulus)
        = ((s1.s.at i + s2.s.at i : Nat) : ZMod ct.a.modulus) := by
      rw [ZMod.natCast_eq_natCast_iff', hmod]
      exact hsum i hi'
    rw [hs]
    push_cast
    ring
  rw [ZMod.natCast_eq_natCast_iff', Nat.mod_eq_of_lt hlt, Nat.mod_eq_of_lt hlt2] at hc
  exact hc

/-- Witness for C13 (amended): shares `[1, -1]` and `[-1, -1]` mod 8, `sk` their
sum by `operator+=`, the ciphertext `([3, 5], 6)`, `p = 4`. -/
theorem C13_threshold_decryption_agrees_witness :
    ∃ lead main result,
      MultipartyDecryptLead pkScenarioParams pkScenarioKey pkScenarioCt 4 = Except.ok lead
      ∧ MultipartyDecryptMain pkScenarioParams pkScenarioKey2 pkScenarioCt 4 = Except.ok main
      ∧ MultipartyDecryptFusion [lead, main] 4 = Except.ok result
      ∧ Decrypt pkScenarioParams (pkScenarioKey.addEq pkScenarioKey2) pkScenarioCt 4
          = Except.ok result :=
  C13_threshold_decryption_agrees pkScenarioParams (pkScenarioKey.addEq pkScenarioKey2)
    pkScenarioKey pkScenarioKey2 pkScenarioCt 4 8 rfl (by decide) (by decide) (by decide)
    rfl rfl rfl rfl rfl rfl (by decide) (by decide) (Or.inl (by decide))

/-- C22 (counterexample). With `q = 2^60 - 4`, the ciphertext `(a, b)` with `a`
the vector of 17 ones and the secret of 17 coordinates `q - 1`, the running sum
of `MultipartyDecryptMain` reaches `17 * (q - 1) = 2^64 + 2^60 - 85` and wraps in
the 64-bit word: the share is `(a, q - 81)`, whereas `<a, s> mod q = q - 17`.
With `p = 0` both kinds of share divide by zero in `mod % (p * 2)`. -/
theorem C22_share_wraps_counterexample :
    MultipartyDecryptMain wrapScenarioParams (minusOnesKey 17 (2 ^ 60 - 4)) splitScenarioCt 4
      = Except.ok { a := splitScenarioCt.a, b := 2 ^ 60 - 4 - 81 }
    ∧ innerProduct splitScenarioCt.a.data
          ((minusOnesKey 17 (2 ^ 60 - 4)).s.SwitchModulus (2 ^ 60 - 4)).data % (2 ^ 60 - 4)
        = 2 ^ 60 - 4 - 17
    ∧ MultipartyDecryptLead pkScenarioParams pkScenarioKey pkScenarioCt 0
        = Except.error CallFailure.division_by_zero
    ∧ MultipartyDecryptMain pkScenarioParams pkScenarioKey2 pkScenarioCt 0
        = Except.error CallFailure.division_by_zero := by
  refine ⟨by rfl, by rfl, by rfl, by rfl⟩

/-- C22 (amended). Partial-decryption shares reconstruct the phase: for a
ciphertext `(a, b)` of dimension `n` under modulus `q` with `b < q`, every
`p >= 1`, a lead secret `s1` and any list `rest` of non-lead secrets, all of the
dimension of the ciphertext and each taken mod `q`, provided the running sums
stay within the 64-bit word, `n * q <= 2^64`, or `q` divides `2^64`:
`MultipartyDecryptLead(s1, ct)` is `(a, (b - <a, s1>) mod q)`, every
`MultipartyDecryptMain(s, ct)` is `(a, <a, s> mod q)`, and the second component
of the lead share minus the sum of the second components of the non-lead shares
is congruent modulo `q` to `b` minus the sum of `<a, s>` over all the secrets. -/
theorem C22_shares_reconstruct_phase (params : LWECryptoParams) (ct : LWECiphertextImpl)
    (p : Nat) (s1 : LWEPrivateKeyImpl) (rest : List LWEPrivateKeyImpl)
    (hb : ct.b < ct.a.modulus) (hlen1 : ct.a.data.length = s1.s.data.length)
    (hlen : ∀ s ∈ rest, ct.a.data.length = s.s.data.length)
    (hp : 1 ≤ p)
    (hw : ct.a.data.length * ct.a.modulus ≤ 2 ^ NATIVEINT
      ∨ 2 ^ NATIVEINT % ct.a.modulus = 0) :
    MultipartyDecryptLead params s1 ct p = Except.ok
        { a := ct.a
          b := (((ct.b : Int)
                  - (innerProduct ct.a.data (s1.s.SwitchModulus ct.a.modulus).data : Nat))
                % (ct.a.modulus : Int)).toNat }
    ∧ (∀ s ∈ rest, MultipartyDecryptMain params s ct p = Except.ok
        { a := ct.a
          b := innerProduct ct.a.data (s.s.SwitchModulus ct.a.modulus).data % ct.a.modulus })
    ∧ Int.ModEq (ct.a.modulus : Int)
        ((((((ct.b : Int)
                  - (innerProduct ct.a.data (s1.s.SwitchModulus ct.a.modulus).data : Nat))
                % (ct.a.modulus : Int)).toNat : Nat) : Int)
          - (rest.map fun s =>
              ((innerProduct ct.a.data (s.s.SwitchModulus ct.a.modulus).data % ct.a.modulus
                : Nat) : Int)).sum)
        ((ct.b : Int)
          - ((s1 :: rest).map fun s =>
              ((innerProduct ct.a.data (s.s.SwitchModulus ct.a.modulus).data : Nat) : Int)).sum) := by
  have hq : 0 < ct.a.modulus := by omega
  have hint := decryptPhase_int s1 ct hb hlen1 (by rw [← hlen1]; exact hw)
  refine ⟨?_, ?_, ?_⟩
  · rw [MultipartyDecryptLead_eq _ _ _ _ hp hq, ← hint, Int.toNat_ofNat]
  · intro s hs
    have hl : ct.a.data.length = (s.s.SwitchModulus ct.a.modulus).data.length := by
      simpa using hlen s hs
    have hacc := innerSum_mod ct.a (s.s.SwitchModulus ct.a.modulus) ct.a.modulus hl
    rw [SwitchModulus_length] at hacc
    rw [MultipartyDecryptMain_eq _ _ _ _ hp hq,
      accumulateInner_mod_q _ _ _ _ _ hq (by rw [← hlen s hs]; simpa using hw), Nat.zero_add,
      hacc]
  · rw [Int.toNat_of_nonneg (Int.emod_nonneg _ (by omega)), List.map_cons, List.sum_cons,
      ← sub_sub]
    exact Int.ModEq.sub (Int.mod_modEq _ _) (sum_map_mod_modEq _ _ rest)

/-- C22 (amended) at the ciphertext `([3, 5], 6)` under modulus `8` with the lead
secret `[1, -1]` and the one non-lead secret `[-1, -1]`. -/
theorem C22_shares_reconstruct_phase_witness :
    MultipartyDecryptLead pkScenarioParams pkScenarioKey pkScenarioCt 4 = Except.ok
        { a := pkScenarioCt.a
          b := (((pkScenarioCt.b : Int)
                  - (innerProduct pkScenarioCt.a.data
                      (pkScenarioKey.s.SwitchModulus pkScenarioCt.a.modulus).data : Nat))
                % (pkScenarioCt.a.modulus : Int)).toNat }
    ∧ (∀ s ∈ [pkScenarioKey2],
        MultipartyDecryptMain pkScenarioParams s pkScenarioCt 4 = Except.ok
        { a := pkScenarioCt.a
          b := innerProduct pkScenarioCt.a.data (s.s.SwitchModulus pkScenarioCt.a.modulus).data
                % pkScenarioCt.a.modulus })
    ∧ Int.ModEq (pkScenarioCt.a.modulus : Int)
        ((((((pkScenarioCt.b : Int)
                  - (innerProduct pkScenarioCt.a.data
                      (pkScenarioKey.s.SwitchModulus pkScenarioCt.a.modulus).data : Nat))
                % (pkScenarioCt.a.modulus : Int)).toNat : Nat) : Int)
          - ([pkScenarioKey2].map fun s =>
              ((innerProduct pkScenarioCt.a.data
                  (s.s.SwitchModulus pkScenarioCt.a.modulus).data % pkScenarioCt.a.modulus
                : Nat) : Int)).sum)
        ((pkScenarioCt.b : Int)
          - ((pkScenarioKey :: [pkScenarioKey2]).map fun s =>
              ((innerProduct pkScenarioCt.a.data
                  (s.s.SwitchModulus pkScenarioCt.a.modulus).data : Nat) : Int)).sum) :=
  C22_shares_reconstruct_phase pkScenarioParams pkScenarioCt 4 pkScenarioKey [pkScenarioKey2]
    (by decide) (by decide) (by decide) (by decide) (Or.inl (by decide))

/-- C9 (counterexample). With `N = 22`, `Q = 3 * 2^58`, `p = 4`, `m = 1`, the
secret of 22 coordinates `Q - 1`, a sampled matrix `A` whose first row is the
vector of 22 ones and whose other rows are zero, and the ephemeral secret
`s' = [1, 0, ..., 0]`: `EncryptN` returns `a` = the vector of 22 ones, the
running sum `inner += a[i] * s[i]` of `Decrypt` reaches `22 * (Q - 1)` and wraps
in the 64-bit word, and `Decrypt` returns `2`, not `1`.  With `N = 1`,
`Q = 2^59`, `p = 2^10`, `m = 1023`, the secret `[0]`, the sampled matrix `[[0]]`
and the ephemeral secret `[0]`, the product `p * r` of `Decrypt` wraps in the
64-bit word and `Decrypt` returns `31`, not `1023`. -/
theorem C9_public_key_round_trip_wraps_counterexample :
    (3 * 2 ^ 58) % 4 = 0
    ∧ (EncryptN wrapScenarioParams
        (PubKeyGen wrapScenarioParams (minusOnesKey 22 (3 * 2 ^ 58))
          (List.replicate 22 1 :: List.replicate 21 (List.replicate 22 0))
          (List.replicate 22 0))
        1 4 (3 * 2 ^ 58) 0 (1 :: List.replicate 21 0) (List.replicate 22 0)
        >>= fun ct => Decrypt wrapScenarioParams (minusOnesKey 22 (3 * 2 ^ 58)) ct 4)
      = Except.ok 2
    ∧ 2 ^ 59 % 2 ^ 10 = 0
    ∧ (EncryptN productScenarioParams
        (PubKeyGen productScenarioParams productScenarioKey [[0]] [0])
        1023 (2 ^ 10) (2 ^ 59) 0 [0] [0]
        >>= fun ct => Decrypt productScenarioParams productScenarioKey ct (2 ^ 10))
      = Except.ok 31 := by
  refine ⟨by decide, by rfl, by decide, by rfl⟩

/-- C9 (amended). Public-key round trip: for every secret key `sk` of the ring
scheme, of length `N`, every public key `pk = PubKeyGen(params, sk)` (any sampled
`A`), every `p >= 1` with `q % p = 0` where `q >= 1` is the modulus of `pk`, every
`m` in `[0, p)` and zero-noise samplers in `EncryptN` (any ephemeral secret
`s'`), provided the running sum of `Decrypt` stays within the 64-bit word,
`N * q <= 2^64`, or `q` divides `2^64`, and its product does, `p * q <= 2^64`:
`Decrypt(sk, EncryptN(pk, m, p, q), p) = m`. -/
theorem C9_public_key_round_trip (params : LWECryptoParams) (sk : LWEPrivateKeyImpl)
    (ASample : List (List Nat)) (eSample spSample : List Nat) (m p : Nat)
    (hp : 1 ≤ p) (hQ : 0 < params.Q) (hdvd : params.Q % p = 0) (hm : m < p)
    (hsk : sk.s.GetLength = params.N) (hskmod : sk.s.modulus = params.Q)
    (hA : ASample.length = params.N)
    (hArow : ∀ j, j < params.N → (ASample.getD j []).length = params.N)
    (he : eSample.length = params.N) (hsp : spSample.length = params.N)
    (hw : params.N * params.Q ≤ 2 ^ NATIVEINT ∨ 2 ^ NATIVEINT % params.Q = 0)
    (hpq : p * params.Q ≤ 2 ^ NATIVEINT) :
    (EncryptN params (PubKeyGen params sk ASample eSample) m p params.Q 0 spSample
        (List.replicate params.N 0) >>= fun ct => Decrypt params sk ct p) = Except.ok m := by
  have _ := hA
  have _ := hsp
  simp only [NativeVector.GetLength] at hsk
  have hv := PubKeyGen_v params sk ASample eSample hQ he
  have hvlen : (PubKeyGen params sk ASample eSample).v.data.length = params.N := by
    rw [hv]; simp
  have hX : m * (params.Q / p) < params.Q := by
    obtain ⟨d, hd⟩ : p ∣ params.Q := Nat.dvd_of_mod_eq_zero hdvd
    rw [hd, Nat.mul_div_cancel_left d (by omega)]
    have hd0 : 0 < d := Nat.pos_of_ne_zero (by rintro rfl; simp at hd; omega)
    exact Nat.mul_lt_mul_of_pos_right hm hd0
  rw [EncryptN_eq params _ m p params.Q 0 spSample (List.replicate params.N 0) hp hQ
    (by simp [hvlen])
    (by intro i; by_cases h : i < params.N <;> simp [List.getD_eq_getElem?_getD, h, hQ])
    (by
      intro j hj
      rw [hvlen] at hj
      rw [PubKeyGen_row _ _ _ _ _ hj, hvlen]
      exact ⟨hArow j hj, rfl⟩)
    (by simpa [Nat.mod_eq_of_lt hm] using hX)
    (le_trans (Nat.le_mul_of_pos_left _ hp) hpq)]
  show Decrypt params sk _ p = _
  rw [Decrypt_eq _ _ _ _ hp hQ (Nat.mod_lt _ hQ) hpq]
  simp only [hvlen, Nat.mod_eq_of_lt hm, Nat.add_zero]
  rw [decryptPhase_eq_of_cast sk _ (m * (params.Q / p)) ?_ ?_ hX (by rw [hsk]; exact hw) ?_,
    round_scaled m p params.Q hp hQ hdvd hm]
  · exact Nat.mod_lt _ hQ
  · simp [hsk]
  · simp only []
    have hb : (((m * (params.Q / p) + ∑ x ∈ Finset.range params.N,
          ((PubKeyGen params sk ASample eSample).v.SwitchModulus params.Q).at x
            * spSample.getD x 0) % params.Q : Nat) : ZMod params.Q)
        = ((m * (params.Q / p) : Nat) : ZMod params.Q) + ∑ x ∈ Finset.range params.N,
            (∑ i ∈ Finset.range params.N,
              (((ASample.getD x []).getD i 0 : Nat) : ZMod params.Q) * ((sk.s.at i : Nat) : ZMod params.Q))
            * ((spSample.getD x 0 : Nat) : ZMod params.Q) := by
      rw [ZMod.natCast_mod, Nat.cast_add, Nat.cast_sum]
      congr 1
      apply Finset.sum_congr rfl
      intro x hx
      have hx' : x < params.N := Finset.mem_range.mp hx
      rw [Nat.cast_mul, SwitchModulus_at_cast _ _ hQ (by rw [hv]), hv]
      simp only [NativeVector.at, List.getD_eq_getElem?_getD, List.getElem?_map,
        List.getElem?_range hx', Option.map_some', Option.getD_some]
      rw [ZMod.natCast_mod, Nat.cast_sum]
      simp only [Nat.cast_mul]
    have hip : ((innerProduct
          (List.map
            (fun i =>
              ((List.replicate params.N 0).getD i 0 +
                  ∑ x ∈ Finset.range params.N,
                    ((PubKeyGen params sk ASample eSample).A.getD x { data := [], modulus := 0 }).at i *
                      spSample.getD x 0) %
                params.Q)
            (List.range params.N))
          (sk.s.SwitchModulus params.Q).data : Nat) : ZMod params.Q)
        = ∑ i ∈ Finset.range params.N, (∑ x ∈ Finset.range params.N,
              (((ASample.getD x []).getD i 0 : Nat) : ZMod params.Q)
                * ((spSample.getD x 0 : Nat) : ZMod params.Q))
            * ((sk.s.at i : Nat) : ZMod params.Q) := by
      rw [innerProduct_eq_sum _ _ (by simp [hsk]), SwitchModulus_length, hsk, Nat.cast_sum]
      apply Finset.sum_congr rfl
      intro i hi
      have hi' : i < params.N := Finset.mem_range.mp hi
      have hs := SwitchModulus_at_cast sk.s params.Q hQ hskmod i
      simp only [NativeVector.at] at hs
      rw [Nat.cast_mul, hs]
      congr 1
      have hz : (List.replicate params.N 0).getD i 0 = 0 := by
        simp [List.getD_eq_getElem?_getD, hi']
      simp only [List.getD_eq_getElem?_getD, List.getElem?_map,
        List.getElem?_range hi', Option.map_some', Option.getD_some]
      simp only [← List.getD_eq_getElem?_getD, hz, Nat.zero_add]
      rw [ZMod.natCast_mod, Nat.cast_sum]
      apply Finset.sum_congr rfl
      intro x hx
      rw [PubKeyGen_row _ _ _ _ _ (Finset.mem_range.mp hx), Nat.cast_mul]
      rfl
    rw [hb, hip]
    simp only [Finset.sum_mul]
    rw [add_sub_assoc, sub_eq_zero.mpr, add_zero]
    rw [Finset.sum_comm]
    apply Finset.sum_congr rfl
    intro i _
    apply Finset.sum_congr rfl
    intro x _
    ring

/-- Witness for C9 (amended): `N = 2`, `Q = 8`, `p = 4`, `m = 3`, secret `[1, -1]`. -/
theorem C9_public_key_round_trip_witness :
    (EncryptN pkScenarioParams
        (PubKeyGen pkScenarioParams pkScenarioKey [[1, 2], [3, 4]] [3, 5]) 3 4 8 0 [1, 7]
        (List.replicate 2 0) >>= fun ct => Decrypt pkScenarioParams pkScenarioKey ct 4)
      = Except.ok 3 :=
  C9_public_key_round_trip pkScenarioParams pkScenarioKey [[1, 2], [3, 4]] [3, 5] [1, 7] 3 4
    (by decide) (by decide) (by decide) (by decide) (by decide) (by decide) (by decide)
    (by decide) (by decide) (by decide) (Or.inl (by decide)) (by decide)

/-- C25 (counterexample). The reduced ciphertext `([3, 5], 1)` under modulus `7`.
With the constant `c = 20`: `b < c`, and `b + q - c = 1 + 7 - 20` is below zero,
so the unsigned difference of `EvalSubConstEq` wraps to `2^64 - 12`, which is
congruent to `4` and not to `b - c = -19` (congruent to `2`) modulo `7`.  With
the constant `c = 2^64 - 1`: the sum `b + c` of `EvalAddConstEq` wraps to `0` in
the 64-bit word, which is not congruent to `b + c = 2^64` (congruent to `2`)
modulo `7`. -/
theorem C25_const_ops_wrap_counterexample :
    oddScenarioCt.Reduced
    ∧ (EvalSubConstEq oddScenarioCt 20).b = 2 ^ 64 - 12
    ∧ ((EvalSubConstEq oddScenarioCt 20).b : Int) % 7 = 4
    ∧ ((oddScenarioCt.b : Int) - 20) % 7 = 2
    ∧ ¬ Int.ModEq 7 ((EvalSubConstEq oddScenarioCt 20).b : Int) ((oddScenarioCt.b : Int) - 20)
    ∧ (EvalAddConstEq oddScenarioCt (2 ^ 64 - 1)).b = 0
    ∧ ((oddScenarioCt.b : Int) + ((2 ^ 64 - 1 : Nat) : Int)) % 7 = 2
    ∧ ¬ Int.ModEq 7 ((EvalAddConstEq oddScenarioCt (2 ^ 64 - 1)).b : Int)
        ((oddScenarioCt.b : Int) + ((2 ^ 64 - 1 : Nat) : Int)) := by
  refine ⟨by decide, by rfl, by decide, by decide, by decide, by rfl, by decide, by decide⟩

/-- C25 (amended). `EvalAddConstEq` and `EvalSubConstEq` touch `b` only: for a
ciphertext `(a, b)` under modulus `q` and a constant `c`, after
`EvalAddConstEq(ct, c)` the vector `a` (with its length and modulus) is
unchanged, and the new `b` is congruent to `b + c` modulo `q` provided the sum
stays within the 64-bit word, `b + c < 2^64`, or `q` divides `2^64`; after
`EvalSubConstEq(ct, c)` the vector `a` is unchanged, and the new `b` is congruent
to `b - c` modulo `q` provided `c <= b + q` (in particular for every `c <= q`),
or `q` divides `2^64` and `c < 2^64`. -/
theorem C25_const_ops_touch_b_only (ct : LWECiphertextImpl) (c : Nat) :
    (EvalAddConstEq ct c).a = ct.a
    ∧ ((ct.b + c < 2 ^ NATIVEINT ∨ 2 ^ NATIVEINT % ct.a.modulus = 0) →
        Int.ModEq (ct.a.modulus : Int) ((EvalAddConstEq ct c).b : Int)
          ((ct.b : Int) + (c : Int)))
    ∧ (EvalSubConstEq ct c).a = ct.a
    ∧ ((c ≤ ct.b + ct.a.modulus ∨ (2 ^ NATIVEINT % ct.a.modulus = 0 ∧ c < 2 ^ NATIVEINT)) →
        Int.ModEq (ct.a.modulus : Int) ((EvalSubConstEq ct c).b : Int)
          ((ct.b : Int) - (c : Int))) :=
  ⟨rfl, fun h => ModAddFast_modEq _ _ _ (Or.inr h), rfl, fun h => ModSubFast_modEq _ _ _ h⟩

/-- C25 (amended) at the ciphertext `([3, 5], 1)` under modulus `7` and the
constant `c = 5`: the sum is `6`, the difference `1 + 7 - 5 = 3`. -/
theorem C25_const_ops_touch_b_only_witness :
    Int.ModEq (oddScenarioCt.a.modulus : Int) ((EvalAddConstEq oddScenarioCt 5).b : Int)
        ((oddScenarioCt.b : Int) + ((5 : Nat) : Int))
    ∧ Int.ModEq (oddScenarioCt.a.modulus : Int) ((EvalSubConstEq oddScenarioCt 5).b : Int)
        ((oddScenarioCt.b : Int) - ((5 : Nat) : Int)) :=
  ⟨(C25_const_ops_touch_b_only oddScenarioCt 5).2.1 (Or.inl (by decide)),
    (C25_const_ops_touch_b_only oddScenarioCt 5).2.2.2 (Or.inl (by decide))⟩

/-- C15 (counterexample). For the empty list of shares `MultipartyKeyGen` raises
no error: the call ends in the read of `privateKeyVec[0]`, past the end of the
vector. -/
theorem C15_empty_shares_raise_no_error :
    MultipartyKeyGen [] pkScenarioParams [[1, 2], [3, 4]] [3, 5]
        = Except.error CallFailure.out_of_range_read
    ∧ ∀ err, MultipartyKeyGen [] pkScenarioParams [[1, 2], [3, 4]] [3, 5]
        ≠ Except.error (CallFailure.exception err) := by
  refine ⟨rfl, ?_⟩
  intro err h
  cases h

/-- C15 (amended). `MultipartyKeyGen` called with an empty list of private-key
shares does not test the size of the list: whatever the parameters and the
sampled values, its first step is the read of `privateKeyVec[0]`, past the end
of the vector, which is undefined behaviour and not an error that is raised. -/
theorem C15_multiparty_keygen_empty_list (params : LWECryptoParams)
    (ASample : List (List Nat)) (eSample : List Nat) :
    MultipartyKeyGen [] params ASample eSample = Except.error CallFailure.out_of_range_read :=
  rfl

/-- C16 (counterexample). For the empty list of shares `MultipartyDecryptFusion`
raises no error: the call ends in the read of `partialCiphertextVec[0]`, past
the end of the vector. -/
theorem C16_empty_fusion_raises_no_error :
    MultipartyDecryptFusion [] 4 = Except.error CallFailure.out_of_range_read
    ∧ ∀ err, MultipartyDecryptFusion [] 4 ≠ Except.error (CallFailure.exception err) := by
  refine ⟨rfl, ?_⟩
  intro err h
  cases h

/-- C16 (amended). `MultipartyDecryptFusion` called with an empty list of
partial-decryption shares does not test the size of the list: for every `p` its
first step is the read of `partialCiphertextVec[0]`, past the end of the vector,
which is undefined behaviour and not an error that is raised. -/
theorem C16_fusion_empty_list (p : Nat) :
    MultipartyDecryptFusion [] p = Except.error CallFailure.out_of_range_read :=
  rfl

/-- The cast of the digit count to `uint32_t` keeps a quotient below `2^32`. -/
theorem digitCount_eq_digitQuotient (log : Double → Double) (qKS baseKS : Nat)
    (h : digitQuotient log qKS baseKS < 2 ^ 32) :
    digitCount log qKS baseKS = digitQuotient log qKS baseKS :=
  Nat.mod_eq_of_lt h

/-- The cast of the digit count to `size_t` keeps a quotient below `2^32`. -/
theorem digitCountSize_eq_digitQuotient (log : Double → Double) (qKS baseKS : Nat)
    (h : digitQuotient log qKS baseKS < 2 ^ 32) :
    digitCountSize log qKS baseKS = digitQuotient log qKS baseKS :=
  Nat.mod_eq_of_lt (lt_trans h (by norm_num))

/-- When the digit quotient is below `2^32`, `KeySwitch` and `KeySwitchGen` run
their loops with the same number of digits. -/
theorem KeySwitch_KeySwitchGen_eq_body (params : LWECryptoParams) (log : Double → Double)
    (sk skN : LWEPrivateKeyImpl) (aSample : Nat → Nat → Nat → List Nat)
    (ct : LWECiphertextImpl)
    (h : digitQuotient log params.qKS params.baseKS < 2 ^ 32) :
    KeySwitch params log (KeySwitchGen params log sk skN aSample) ct
      = KeySwitchBody params (digitQuotient log params.qKS params.baseKS)
          (KeySwitchGenBody params (digitQuotient log params.qKS params.baseKS) sk skN aSample)
          ct := by
  simp only [KeySwitch, KeySwitchGen]
  rw [digitCountSize_eq_digitQuotient log _ _ h, digitCount_eq_digitQuotient log _ _ h]

/-- When the digit quotient is below `2^32`, `KeySwitch`, `MultiPartyKeySwitchGen`
and `KeySwitchGen` run their loops with the same number of digits. -/
theorem KeySwitch_MultiPartyKeySwitchGen_eq_body (params : LWECryptoParams)
    (log : Double → Double) (sk1 skN1 sk2 skN2 : LWEPrivateKeyImpl)
    (aSample : Nat → Nat → Nat → List Nat) (ct : LWECiphertextImpl)
    (h : digitQuotient log params.qKS params.baseKS < 2 ^ 32) :
    KeySwitch params log
        (MultiPartyKeySwitchGen params log sk2 skN2 (KeySwitchGen params log sk1 skN1 aSample)) ct
      = KeySwitchBody params (digitQuotient log params.qKS params.baseKS)
          (MultiPartyKeySwitchGenBody params (digitQuotient log params.qKS params.baseKS) sk2 skN2
            (KeySwitchGenBody params (digitQuotient log params.qKS params.baseKS) sk1 skN1
              aSample)) ct := by
  simp only [KeySwitch, KeySwitchGen, MultiPartyKeySwitchGen]
  rw [digitCountSize_eq_digitQuotient log _ _ h, digitCount_eq_digitQuotient log _ _ h]

/-- The entries of the key that `MultiPartyKeySwitchGen` builds on top of a key
from `KeySwitchGen`, with the factor `j * digitsKS[k]` as the word holds it. -/
theorem MultiPartyKeySwitchGen_KeySwitchGen_atB_word (params : LWECryptoParams) (d : Nat)
    (sk1 skN1 sk2 skN2 : LWEPrivateKeyImpl) (aSample : Nat → Nat → Nat → List Nat)
    (hq : 0 < params.qKS) (hsk1 : sk1.s.data.length = params.n)
    (hsk2 : sk2.s.data.length = params.n)
    (i j k : Nat) (hlen : (aSample i j k).length = params.n)
    (hi : i < params.N) (hj : j < params.baseKS) (hk : k < d) :
    (MultiPartyKeySwitchGenBody params d sk2 skN2 (KeySwitchGenBody params d sk1 skN1 aSample)).atB
        i j k
      = ((j * params.baseKS ^ k) % 2 ^ NATIVEINT
            * ((skN1.s.SwitchModulus params.qKS).at i + (skN2.s.SwitchModulus params.qKS).at i)
          + innerProduct (aSample i j k)
              (List.zipWith (· + ·) (sk1.s.SwitchModulus params.qKS).data
                (sk2.s.SwitchModulus params.qKS).data)) % params.qKS := by
  have hA := KeySwitchGen_atA params d sk1 skN1 aSample i j k hi hj hk
  rw [MultiPartyKeySwitchGen_atB_word params d sk2 skN2 _ i j k hq hsk2
      (by rw [hA]; exact hlen) hi hj hk,
    KeySwitchGen_atB_word params d sk1 skN1 aSample i j k hq hsk1 hlen hi hj hk, hA,
    innerProduct_add _ _ _ (by simp [hlen, hsk1]) (by simp [hlen, hsk2]), Nat.add_mod_mod]
  congr 1
  ring

/-- The table that the loops of `KeySwitchGen` fill, for a given number of
digits. -/
theorem KeySwitchGenBody_table (params : LWECryptoParams) (digitCount : Nat)
    (sk skN : LWEPrivateKeyImpl) (aSample : Nat → Nat → Nat → List Nat)
    (hq : 0 < params.qKS) (hsk : sk.s.GetLength = params.n)
    (hA : ∀ i j k, (aSample i j k).length = params.n) :
    (KeySwitchGenBody params digitCount sk skN aSample).A.length = params.N
    ∧ (KeySwitchGenBody params digitCount sk skN aSample).B.length = params.N
    ∧ ∀ i, i < params.N →
      ((KeySwitchGenBody params digitCount sk skN aSample).A.getD i []).length = params.baseKS
      ∧ ((KeySwitchGenBody params digitCount sk skN aSample).B.getD i []).length = params.baseKS
      ∧ ∀ j, j < params.baseKS →
        (((KeySwitchGenBody params digitCount sk skN aSample).A.getD i []).getD j []).length
          = digitCount
        ∧ (((KeySwitchGenBody params digitCount sk skN aSample).B.getD i []).getD j []).length
          = digitCount
        ∧ ∀ k, k < digitCount →
          (KeySwitchGenBody params digitCount sk skN aSample).atA i j k
            = { data := aSample i j k, modulus := params.qKS }
          ∧ ((KeySwitchGenBody params digitCount sk skN aSample).atA i j k).GetLength = params.n
          ∧ (KeySwitchGenBody params digitCount sk skN aSample).atB i j k
            = ((j * params.baseKS ^ k) % 2 ^ NATIVEINT * (skN.s.SwitchModulus params.qKS).at i
                + innerProduct (aSample i j k) (sk.s.SwitchModulus params.qKS).data)
              % params.qKS
          ∧ ((j * params.baseKS ^ k < 2 ^ NATIVEINT ∨ 2 ^ NATIVEINT % params.qKS = 0) →
            (KeySwitchGenBody params digitCount sk skN aSample).atB i j k
              = (j * params.baseKS ^ k * (skN.s.SwitchModulus params.qKS).at i
                  + innerProduct (aSample i j k) (sk.s.SwitchModulus params.qKS).data)
                % params.qKS) := by
  refine ⟨by simp [KeySwitchGenBody], by simp [KeySwitchGenBody], ?_⟩
  intro i hi
  refine ⟨?_, ?_, ?_⟩
  · simp only [KeySwitchGenBody]; rw [getD_map_range _ _ _ _ hi]; simp
  · simp only [KeySwitchGenBody]; rw [getD_map_range _ _ _ _ hi]; simp
  intro j hj
  refine ⟨?_, ?_, ?_⟩
  · simp only [KeySwitchGenBody]
    rw [getD_map_range _ _ _ _ hi, getD_map_range _ _ _ _ hj]; simp
  · simp only [KeySwitchGenBody]
    rw [getD_map_range _ _ _ _ hi, getD_map_range _ _ _ _ hj]; simp
  intro k hk
  refine ⟨KeySwitchGen_atA _ _ _ _ _ _ _ _ hi hj hk, ?_,
    KeySwitchGen_atB_word _ _ _ _ _ _ _ _ hq hsk (hA i j k) hi hj hk,
    fun hwd => KeySwitchGen_atB _ _ _ _ _ _ _ _ hq hsk (hA i j k) hi hj hk hwd⟩
  rw [KeySwitchGen_atA _ _ _ _ _ _ _ _ hi hj hk]
  exact hA i j k

/-- The key that the loops of `MultiPartyKeySwitchGen` fill over a key of
`KeySwitchGen`, and `KeySwitch` with it, for a given number of digits that
covers `qKS`. -/
theorem MultiPartyKeySwitchGenBody_spec (params : LWECryptoParams) (digitCount : Nat)
    (sk1 skN1 sk2 skN2 : LWEPrivateKeyImpl) (aSample : Nat → Nat → Nat → List Nat)
    (ct : LWECiphertextImpl)
    (hq : 0 < params.qKS) (hbase : 0 < params.baseKS)
    (hsk1 : sk1.s.GetLength = params.n) (hsk2 : sk2.s.GetLength = params.n)
    (hskN1 : skN1.s.GetLength = params.N) (hskN2 : skN2.s.GetLength = params.N)
    (hA : ∀ i j k, (aSample i j k).length = params.n ∧ ∀ x ∈ aSample i j k, x < params.qKS)
    (hmod : ct.GetModulus = params.qKS) (hlen : ct.GetLength = params.N)
    (hcta : ∀ x ∈ ct.a.data, x < params.qKS) (hctb : ct.b < params.qKS)
    (hword : params.qKS ≤ 2 ^ NATIVEINT) :
    (MultiPartyKeySwitchGenBody params digitCount sk2 skN2
        (KeySwitchGenBody params digitCount sk1 skN1 aSample)).A
      = (KeySwitchGenBody params digitCount sk1 skN1 aSample).A
    ∧ (∀ i j k, i < params.N → j < params.baseKS → k < digitCount →
        (MultiPartyKeySwitchGenBody params digitCount sk2 skN2
            (KeySwitchGenBody params digitCount sk1 skN1 aSample)).atB i j k
          = ((j * params.baseKS ^ k) % 2 ^ NATIVEINT
                * ((skN1.s.SwitchModulus params.qKS).at i
                    + (skN2.s.SwitchModulus params.qKS).at i)
              + innerProduct
                  ((MultiPartyKeySwitchGenBody params digitCount sk2 skN2
                    (KeySwitchGenBody params digitCount sk1 skN1 aSample)).atA i j k).data
                  (List.zipWith (· + ·) (sk1.s.SwitchModulus params.qKS).data
                    (sk2.s.SwitchModulus params.qKS).data)) % params.qKS
        ∧ ((j * params.baseKS ^ k < 2 ^ NATIVEINT ∨ 2 ^ NATIVEINT % params.qKS = 0) →
          (MultiPartyKeySwitchGenBody params digitCount sk2 skN2
              (KeySwitchGenBody params digitCount sk1 skN1 aSample)).atB i j k
            = (j * params.baseKS ^ k
                  * ((skN1.s.SwitchModulus params.qKS).at i
                      + (skN2.s.SwitchModulus params.qKS).at i)
                + innerProduct
                    ((MultiPartyKeySwitchGenBody params digitCount sk2 skN2
                      (KeySwitchGenBody params digitCount sk1 skN1 aSample)).atA i j k).data
                    (List.zipWith (· + ·) (sk1.s.SwitchModulus params.qKS).data
                      (sk2.s.SwitchModulus params.qKS).data)) % params.qKS))
    ∧ (KeySwitchBody params digitCount
          (MultiPartyKeySwitchGenBody params digitCount sk2 skN2
            (KeySwitchGenBody params digitCount sk1 skN1 aSample)) ct).GetLength = params.n
    ∧ (params.qKS ≤ params.baseKS ^ digitCount →
      Int.ModEq (params.qKS : Int)
        (((KeySwitchBody params digitCount
            (MultiPartyKeySwitchGenBody params digitCount sk2 skN2
              (KeySwitchGenBody params digitCount sk1 skN1 aSample)) ct).b : Int)
          - (innerProduct
              (KeySwitchBody params digitCount
                (MultiPartyKeySwitchGenBody params digitCount sk2 skN2
                  (KeySwitchGenBody params digitCount sk1 skN1 aSample)) ct).a.data
              (List.zipWith (· + ·) (sk1.s.SwitchModulus params.qKS).data
                (sk2.s.SwitchModulus params.qKS).data) : Nat))
        ((ct.b : Int)
          - (innerProduct ct.a.data
              (List.zipWith (· + ·) (skN1.s.SwitchModulus params.qKS).data
                (skN2.s.SwitchModulus params.qKS).data) : Nat))) := by
  have _ := hmod
  simp only [NativeVector.GetLength, LWECiphertextImpl.GetLength] at hsk1 hsk2 hskN1 hskN2 hlen ⊢
  have hatA : ∀ i j k, i < params.N → j < params.baseKS → k < digitCount →
      (MultiPartyKeySwitchGenBody params digitCount sk2 skN2
        (KeySwitchGenBody params digitCount sk1 skN1 aSample)).atA i j k
        = { data := aSample i j k, modulus := params.qKS } :=
    fun i j k hi hj hk => KeySwitchGen_atA params digitCount sk1 skN1 aSample i j k hi hj hk
  have hatB : ∀ i j k, i < params.N → j < params.baseKS → k < digitCount →
      (j * params.baseKS ^ k < 2 ^ NATIVEINT ∨ 2 ^ NATIVEINT % params.qKS = 0) →
      (MultiPartyKeySwitchGenBody params digitCount sk2 skN2
        (KeySwitchGenBody params digitCount sk1 skN1 aSample)).atB i j k
      = (j * params.baseKS ^ k
            * ((skN1.s.SwitchModulus params.qKS).at i + (skN2.s.SwitchModulus params.qKS).at i)
          + innerProduct (aSample i j k)
              (List.zipWith (· + ·) (sk1.s.SwitchModulus params.qKS).data
                (sk2.s.SwitchModulus params.qKS).data)) % params.qKS :=
    fun i j k hi hj hk hwd => MultiPartyKeySwitchGen_KeySwitchGen_atB params digitCount
      sk1 skN1 sk2 skN2 aSample hq hsk1 hsk2 i j k (hA i j k).1 hi hj hk hwd
  have hzl : ∀ (u w : NativeVector) (m : Nat), u.data.length = m → w.data.length = m →
      (List.zipWith (· + ·) (u.SwitchModulus params.qKS).data
        (w.SwitchModulus params.qKS).data).length = m := by
    intro u w m hu hw
    simp [hu, hw]
  have hzg : ∀ (u w : NativeVector) (m t : Nat), u.data.length = m → w.data.length = m →
      t < m →
      (List.zipWith (· + ·) (u.SwitchModulus params.qKS).data
        (w.SwitchModulus params.qKS).data).getD t 0
      = (u.SwitchModulus params.qKS).at t + (w.SwitchModulus params.qKS).at t := by
    intro u w m t hu hw ht
    exact zipWith_getD_cast _ _ _ t (by simp [hu, ht]) (by simp [hw, ht])
  have hcta' : ∀ i, ct.a.at i < params.qKS := by
    intro i
    simp only [NativeVector.at]
    by_cases hi : i < ct.a.data.length
    · rw [List.getD_eq_getElem _ _ hi]
      exact hcta _ (List.getElem_mem _)
    · rw [List.getD_eq_default _ _ (by omega)]
      exact hq
  have hlenK : (KeySwitchBody params digitCount
      (MultiPartyKeySwitchGenBody params digitCount sk2 skN2
        (KeySwitchGenBody params digitCount sk1 skN1 aSample)) ct).a.data.length = params.n := by
    rw [KeySwitch_eq_loop]
    exact KeySwitch_acc_length params digitCount _ ct params.N
  refine ⟨rfl, ?_, hlenK, ?_⟩
  · intro i j k hi hj hk
    refine ⟨?_, fun hwd => ?_⟩
    · rw [hatA i j k hi hj hk]
      exact MultiPartyKeySwitchGen_KeySwitchGen_atB_word params digitCount sk1 skN1 sk2 skN2
        aSample hq hsk1 hsk2 i j k (hA i j k).1 hi hj hk
    · rw [hatB i j k hi hj hk hwd, hatA i j k hi hj hk]
  intro hd
  obtain ⟨h1, h2, -, -, h5⟩ := KeySwitch_spec params digitCount
    (MultiPartyKeySwitchGenBody params digitCount sk2 skN2
      (KeySwitchGenBody params digitCount sk1 skN1 aSample)) ct
    (fun t => (sk1.s.SwitchModulus params.qKS).at t + (sk2.s.SwitchModulus params.qKS).at t)
    (fun i => (skN1.s.SwitchModulus params.qKS).at i + (skN2.s.SwitchModulus params.qKS).at i)
    hq hbase hd hcta' hctb
    (fun i v j hi hv hj => by
      refine ⟨?_, ?_, fun hle => ?_⟩
      · rw [hatA i v j hi hv hj]
        intro t
        simp only [NativeVector.at]
        by_cases ht : t < (aSample i v j).length
        · rw [List.getD_eq_getElem _ _ ht]
          exact (hA i v j).2 _ (List.getElem_mem _)
        · rw [List.getD_eq_default _ _ (by omega)]
          exact hq
      · rw [MultiPartyKeySwitchGen_atB_word params digitCount sk2 skN2 _ i v j hq hsk2
          (by rw [KeySwitchGen_atA params digitCount sk1 skN1 aSample i v j hi hv hj]
              exact (hA i v j).1) hi hv hj]
        exact Nat.mod_lt _ hq
      · rw [hatB i v j hi hv hj
            (Or.inl (lt_of_le_of_lt hle (lt_of_lt_of_le (hcta' i) hword))),
          hatA i v j hi hv hj, ZMod.natCast_mod, Nat.cast_add, Nat.cast_mul,
          innerProduct_cast _ _ _ (by rw [hzl _ _ _ hsk1 hsk2]; exact (hA i v j).1),
          hzl _ _ _ hsk1 hsk2]
        congr 1
        apply Finset.sum_congr rfl
        intro t ht
        rw [hzg _ _ _ t hsk1 hsk2 (Finset.mem_range.mp ht)]
        rfl)
  rw [← ZMod.intCast_eq_intCast_iff]
  push_cast
  rw [innerProduct_cast _ _ _ (by rw [hzl _ _ _ hsk1 hsk2]; exact h1),
    innerProduct_cast _ _ _ (by rw [hzl _ _ _ hskN1 hskN2]; exact hlen),
    hzl _ _ _ hsk1 hsk2, hzl _ _ _ hskN1 hskN2]
  have hs1 : ∀ (f : Nat → ZMod params.qKS),
      ∑ t ∈ Finset.range params.n, f t
          * (((List.zipWith (· + ·) (sk1.s.SwitchModulus params.qKS).data
              (sk2.s.SwitchModulus params.qKS).data).getD t 0 : Nat) : ZMod params.qKS)
        = ∑ t ∈ Finset.range params.n, f t
          * (((sk1.s.SwitchModulus params.qKS).at t + (sk2.s.SwitchModulus params.qKS).at t
              : Nat) : ZMod params.qKS) :=
    fun f => Finset.sum_congr rfl (fun t ht => by
      rw [hzg _ _ _ t hsk1 hsk2 (Finset.mem_range.mp ht)])
  have hs2 : ∀ (f : Nat → ZMod params.qKS),
      ∑ t ∈ Finset.range params.N, f t
          * (((List.zipWith (· + ·) (skN1.s.SwitchModulus params.qKS).data
              (skN2.s.SwitchModulus params.qKS).data).getD t 0 : Nat) : ZMod params.qKS)
        = ∑ t ∈ Finset.range params.N, f t
          * (((skN1.s.SwitchModulus params.qKS).at t + (skN2.s.SwitchModulus params.qKS).at t
              : Nat) : ZMod params.qKS) :=
    fun f => Finset.sum_congr rfl (fun t ht => by
      rw [hzg _ _ _ t hskN1 hskN2 (Finset.mem_range.mp ht)])
  rw [hs1, hs2]
  simp only [NativeVector.at] at h5 ⊢
  exact h5

/-- The vector returned by the loops of `KeySwitch` has length `n`. -/
theorem KeySwitchBody_length (params : LWECryptoParams) (digitCount : Nat)
    (K : LWESwitchingKeyImpl) (ct : LWECiphertextImpl) :
    (KeySwitchBody params digitCount K ct).GetLength = params.n := by
  simp only [LWECiphertextImpl.GetLength, NativeVector.GetLength]
  rw [KeySwitch_eq_loop]
  exact KeySwitch_acc_length params digitCount K ct params.N

/-- In the scenario of the wide modulus, `qKS = 3 * 2^58`, `baseKS = 2`, `n = 1`,
`N = 22`, the key switch from the secret of 22 coordinates `qKS - 1` to the
secret `[0]` turns the ciphertext of 22 ones with `b = 0` into one that decrypts
to `0` with `p = 4`. -/
theorem wideWrapScenario_switch :
    Decrypt wideWrapScenarioParams { s := { data := [0], modulus := 3 * 2 ^ 58 } }
        (KeySwitch wideWrapScenarioParams scenarioLog
          (KeySwitchGen wideWrapScenarioParams scenarioLog
            { s := { data := [0], modulus := 3 * 2 ^ 58 } }
            (minusOnesKey 22 (3 * 2 ^ 58)) (fun _ _ _ => [0]))
          { a := { data := List.replicate 22 1, modulus := 3 * 2 ^ 58 }, b := 0 }) 4
      = Except.ok 0 := by
  have hdc : digitCount scenarioLog wideWrapScenarioParams.qKS wideWrapScenarioParams.baseKS
      = 60 := by decide
  have hdcs : digitCountSize scenarioLog wideWrapScenarioParams.qKS
      wideWrapScenarioParams.baseKS = 60 := by decide
  have hA : ∀ i j k : Nat, ([0] : List Nat).length = wideWrapScenarioParams.n
      ∧ ∀ x ∈ ([0] : List Nat), x < wideWrapScenarioParams.qKS := by
    intro i j k
    refine ⟨rfl, ?_⟩
    intro x hx
    simp only [List.mem_singleton] at hx
    subst hx
    decide
  obtain ⟨h1, h2, -⟩ := KeySwitch_KeySwitchGen_spec wideWrapScenarioParams 60
    { s := { data := [0], modulus := 3 * 2 ^ 58 } } (minusOnesKey 22 (3 * 2 ^ 58))
    (fun _ _ _ => [0])
    { a := { data := List.replicate 22 1, modulus := 3 * 2 ^ 58 }, b := 0 } 4
    (by decide) (by decide) (by decide) rfl rfl hA rfl rfl (by decide) (by decide)
    (by decide)
  have hred := KeySwitch_reduced wideWrapScenarioParams 60
    (KeySwitchGenBody wideWrapScenarioParams 60
      { s := { data := [0], modulus := 3 * 2 ^ 58 } } (minusOnesKey 22 (3 * 2 ^ 58))
      (fun _ _ _ => [0]))
    { a := { data := List.replicate 22 1, modulus := 3 * 2 ^ 58 }, b := 0 }
    (by decide) (by decide) (by decide)
    (fun i v j hi hv hj =>
      have h := KeySwitchGen_entries wideWrapScenarioParams 60
        { s := { data := [0], modulus := 3 * 2 ^ 58 } } (minusOnesKey 22 (3 * 2 ^ 58))
        (fun _ _ _ => [0]) (by decide) rfl hA i v j hi hv hj
      ⟨h.1, h.2.1⟩)
  have hm : (KeySwitchBody wideWrapScenarioParams 60
      (KeySwitchGenBody wideWrapScenarioParams 60
        { s := { data := [0], modulus := 3 * 2 ^ 58 } } (minusOnesKey 22 (3 * 2 ^ 58))
        (fun _ _ _ => [0]))
      { a := { data := List.replicate 22 1, modulus := 3 * 2 ^ 58 }, b := 0 }).a.modulus
      = 3 * 2 ^ 58 := rfl
  show Decrypt wideWrapScenarioParams { s := { data := [0], modulus := 3 * 2 ^ 58 } }
      (KeySwitchBody wideWrapScenarioParams
        (digitCountSize scenarioLog wideWrapScenarioParams.qKS wideWrapScenarioParams.baseKS)
        (KeySwitchGenBody wideWrapScenarioParams
          (digitCount scenarioLog wideWrapScenarioParams.qKS wideWrapScenarioParams.baseKS)
          { s := { data := [0], modulus := 3 * 2 ^ 58 } }
          (minusOnesKey 22 (3 * 2 ^ 58)) (fun _ _ _ => [0]))
        { a := { data := List.replicate 22 1, modulus := 3 * 2 ^ 58 }, b := 0 }) 4
    = Except.ok 0
  rw [hdc, hdcs]
  have hb := hred.2
  simp only [LWECiphertextImpl.GetLength, NativeVector.GetLength] at h1
  generalize KeySwitchBody wideWrapScenarioParams 60
      (KeySwitchGenBody wideWrapScenarioParams 60
        { s := { data := [0], modulus := 3 * 2 ^ 58 } } (minusOnesKey 22 (3 * 2 ^ 58))
        (fun _ _ _ => [0]))
      { a := { data := List.replicate 22 1, modulus := 3 * 2 ^ 58 }, b := 0 } = out
    at h1 h2 hm hb ⊢
  obtain ⟨⟨a', q'⟩, b', p'⟩ := out
  simp only at h1 h2 hm hb
  subst hm
  have h3 : Int.ModEq ((3 * 2 ^ 58 : Nat) : Int)
      (((0 : Nat) : Int) - (innerProduct (List.replicate 22 1)
          ((minusOnesKey 22 (3 * 2 ^ 58)).s.SwitchModulus (3 * 2 ^ 58)).data : Nat))
      (((22 : Nat) : Int) - (innerProduct [0]
          (NativeVector.SwitchModulus { data := [0], modulus := 3 * 2 ^ 58 }
            (3 * 2 ^ 58)).data : Nat)) := by decide
  have h4 := (ZMod.intCast_eq_intCast_iff _ _ _).2 (h2.trans h3)
  push_cast at h4
  rw [Decrypt_eq_of_phase wideWrapScenarioParams { s := { data := [0], modulus := 3 * 2 ^ 58 } }
    { s := { data := [0], modulus := 3 * 2 ^ 58 } } a' [0] b' 22 p' 4 (3 * 2 ^ 58) 4 hb
    (by decide) h1 rfl (Or.inl (by decide)) (Or.inl (by decide)) (by simpa using h4)]
  rfl

/-- C7 (counterexample). With `qKS = 125`, `baseKS = 5`, `n = N = 1`: the least
`d` with `5^d >= 125`, `ceil(log_5 125)`, is `3`; the quotient of the doubles
`log(125)` and `log(5)` is `0x1.8000000000001p+1`, just above `3`, so that
`digitCount` is `4` and the third dimension of the table of `KeySwitchGen` is
`4`.  Moreover the factor `j * digitsKS[k]` is a product in the 64-bit word: with
`qKS = 3 * 2^58`, `baseKS = 2^25` (three digits), `n = N = 1`, `sk = [0]`,
`skN = [1]` and sampled vectors `[0]`, the entry `B[0][2^14 + 1][2]` is `2^50`,
the wrapped `(2^14 + 1) * 2^50`, and not
`((2^14 + 1) * baseKS^2 * skN[0] + <A, sk>) mod qKS = 2^58 + 2^50`. -/
theorem C7_digit_count_counterexample :
    (125 ≤ 5 ^ 3 ∧ ¬ 125 ≤ 5 ^ 2)
    ∧ Double.div (scenarioLog (Double.ofNat 125)) (scenarioLog (Double.ofNat 5))
        = { m := 0x18000000000001, e := -51 }
    ∧ digitCount scenarioLog quinaryScenarioParams.qKS quinaryScenarioParams.baseKS = 4
    ∧ (((KeySwitchGen quinaryScenarioParams scenarioLog
          { s := { data := [0], modulus := 125 } } { s := { data := [1], modulus := 125 } }
          (fun _ _ _ => [0])).A.getD 0 []).getD 0 []).length = 4
    ∧ (((KeySwitchGen quinaryScenarioParams scenarioLog
          { s := { data := [0], modulus := 125 } } { s := { data := [1], modulus := 125 } }
          (fun _ _ _ => [0])).B.getD 0 []).getD 0 []).length = 4
    ∧ digitCount scenarioLog gadgetScenarioParams.qKS gadgetScenarioParams.baseKS = 3
    ∧ (KeySwitchGen gadgetScenarioParams scenarioLog
          { s := { data := [0], modulus := 3 * 2 ^ 58 } }
          { s := { data := [1], modulus := 3 * 2 ^ 58 } }
          (fun _ _ _ => [0])).atB 0 (2 ^ 14 + 1) 2 = 2 ^ 50
    ∧ ((2 ^ 14 + 1) * (2 ^ 25) ^ 2 * 1 + innerProduct [0] [0]) % (3 * 2 ^ 58)
        = 2 ^ 58 + 2 ^ 50 := by
  refine ⟨by decide, by decide, by decide, by rfl, by rfl, by decide, ?_, by decide⟩
  exact (KeySwitchGen_atB_word gadgetScenarioParams
    (digitCount scenarioLog gadgetScenarioParams.qKS gadgetScenarioParams.baseKS)
    { s := { data := [0], modulus := 3 * 2 ^ 58 } }
    { s := { data := [1], modulus := 3 * 2 ^ 58 } } (fun _ _ _ => [0]) 0 (2 ^ 14 + 1) 2
    (by decide) rfl rfl (by decide) (by decide) (by decide)).trans (by decide)

/-- C7 (amended). `KeySwitchGen(params, sk, skN)`, for `qKS > 0`, `sk` of length
`n` and sampled vectors of length `n`, returns a table of shape
`N x baseKS x digitCount`, where `digitCount` is the value that the code
computes in double precision, `(uint32_t)ceil(log(qKS) / log(baseKS))` (which
can exceed `ceil(log_baseKS(qKS))`); for every `i` in `[0, N)`, `j` in
`[0, baseKS)`, `k` in `[0, digitCount)`, `A[i][j][k]` is the sampled vector, of
length `n` and modulus `qKS`, and
`B[i][j][k] = (((j * baseKS^k) mod 2^64) * skN[i] + <A[i][j][k], sk>) mod qKS`,
with `sk` and `skN` taken mod `qKS`, which is
`(j * baseKS^k * skN[i] + <A[i][j][k], sk>) mod qKS` when the factor stays within
the 64-bit word, `j * baseKS^k < 2^64`, or `qKS` divides `2^64`. -/
theorem C7_keyswitchgen_table (params : LWECryptoParams) (log : Double → Double)
    (sk skN : LWEPrivateKeyImpl) (aSample : Nat → Nat → Nat → List Nat)
    (hq : 0 < params.qKS) (hsk : sk.s.GetLength = params.n)
    (hA : ∀ i j k, (aSample i j k).length = params.n) :
    (KeySwitchGen params log sk skN aSample).A.length = params.N
    ∧ (KeySwitchGen params log sk skN aSample).B.length = params.N
    ∧ ∀ i, i < params.N →
      ((KeySwitchGen params log sk skN aSample).A.getD i []).length = params.baseKS
      ∧ ((KeySwitchGen params log sk skN aSample).B.getD i []).length = params.baseKS
      ∧ ∀ j, j < params.baseKS →
        (((KeySwitchGen params log sk skN aSample).A.getD i []).getD j []).length
          = digitCount log params.qKS params.baseKS
        ∧ (((KeySwitchGen params log sk skN aSample).B.getD i []).getD j []).length
          = digitCount log params.qKS params.baseKS
        ∧ ∀ k, k < digitCount log params.qKS params.baseKS →
          (KeySwitchGen params log sk skN aSample).atA i j k
            = { data := aSample i j k, modulus := params.qKS }
          ∧ ((KeySwitchGen params log sk skN aSample).atA i j k).GetLength = params.n
          ∧ (KeySwitchGen params log sk skN aSample).atB i j k
            = ((j * params.baseKS ^ k) % 2 ^ NATIVEINT * (skN.s.SwitchModulus params.qKS).at i
                + innerProduct (aSample i j k) (sk.s.SwitchModulus params.qKS).data)
              % params.qKS
          ∧ ((j * params.baseKS ^ k < 2 ^ NATIVEINT ∨ 2 ^ NATIVEINT % params.qKS = 0) →
            (KeySwitchGen params log sk skN aSample).atB i j k
              = (j * params.baseKS ^ k * (skN.s.SwitchModulus params.qKS).at i
                  + innerProduct (aSample i j k) (sk.s.SwitchModulus params.qKS).data)
                % params.qKS) :=
  KeySwitchGenBody_table params (digitCount log params.qKS params.baseKS) sk skN aSample
    hq hsk hA

/-- C7 (amended) at the small key-switching scenario, `n = N = 2`, `qKS = 8`,
`baseKS = 2`, where the digit count is `3`. -/
theorem C7_keyswitchgen_table_witness :
    (KeySwitchGen ksScenarioParams scenarioLog ksScenarioKey ksScenarioKeyN
        ksScenarioSample).A.length = 2
    ∧ (KeySwitchGen ksScenarioParams scenarioLog ksScenarioKey ksScenarioKeyN
        ksScenarioSample).B.length = 2
    ∧ digitCount scenarioLog ksScenarioParams.qKS ksScenarioParams.baseKS = 3 :=
  have h := C7_keyswitchgen_table ksScenarioParams scenarioLog ksScenarioKey ksScenarioKeyN
    ksScenarioSample (by decide) rfl (fun i j k => (ksScenarioSample_ok i j k).1)
  ⟨h.1, h.2.1, by decide⟩

/-- C6 (counterexample). First, `qKS = 2^49 + 1`, `baseKS = 2`, `n = N = 1`,
`sk = [0]`, `skN = [1]`, sampled vectors `[0]` and the reduced ciphertext
`([2^49], 2^47)`: the quotient of the doubles `log(qKS)` and `log(2)` is `49`, so
the digit count is `49` and `2^49 < qKS`; `KeySwitch` drops the digit of weight
`2^49`, the phase of its output under `sk` is not the phase of the input under
`skN` mod `qKS`, and with `p = 2` the output decrypts to `0` and the input to `1`.
Second, `qKS = 3 * 2^58`, `baseKS = 2` (60 digits, enough), `n = 1`, `N = 22`,
`sk = [0]`, `skN` of 22 coordinates `qKS - 1`, the reduced ciphertext of 22 ones
with `b = 0` and `p = 4`: the running sum of `Decrypt` under `skN` wraps in the
64-bit word, the input decrypts to `1` and the output of `KeySwitch` to `0`. -/
theorem C6_keyswitch_loses_phase_counterexample :
    (digitQuotient scenarioLog narrowScenarioParams.qKS narrowScenarioParams.baseKS = 49
      ∧ ¬ narrowScenarioParams.qKS ≤ narrowScenarioParams.baseKS ^ 49
      ∧ (KeySwitch narrowScenarioParams scenarioLog
          (KeySwitchGen narrowScenarioParams scenarioLog
            { s := { data := [0], modulus := 2 ^ 49 + 1 } }
            { s := { data := [1], modulus := 2 ^ 49 + 1 } } (fun _ _ _ => [0]))
          { a := { data := [2 ^ 49], modulus := 2 ^ 49 + 1 }, b := 2 ^ 47 })
        = { a := { data := [0], modulus := 2 ^ 49 + 1 }, b := 2 ^ 47 }
      ∧ ¬ Int.ModEq ((2 ^ 49 + 1 : Nat) : Int)
          (((2 ^ 47 : Nat) : Int)
            - (innerProduct [0]
                (NativeVector.SwitchModulus { data := [0], modulus := 2 ^ 49 + 1 }
                  (2 ^ 49 + 1)).data : Nat))
          (((2 ^ 47 : Nat) : Int)
            - (innerProduct [2 ^ 49]
                (NativeVector.SwitchModulus { data := [1], modulus := 2 ^ 49 + 1 }
                  (2 ^ 49 + 1)).data : Nat))
      ∧ Decrypt narrowScenarioParams { s := { data := [0], modulus := 2 ^ 49 + 1 } }
          (KeySwitch narrowScenarioParams scenarioLog
            (KeySwitchGen narrowScenarioParams scenarioLog
              { s := { data := [0], modulus := 2 ^ 49 + 1 } }
              { s := { data := [1], modulus := 2 ^ 49 + 1 } } (fun _ _ _ => [0]))
            { a := { data := [2 ^ 49], modulus := 2 ^ 49 + 1 }, b := 2 ^ 47 }) 2
        = Except.ok 0
      ∧ Decrypt narrowScenarioParams { s := { data := [1], modulus := 2 ^ 49 + 1 } }
          { a := { data := [2 ^ 49], modulus := 2 ^ 49 + 1 }, b := 2 ^ 47 } 2
        = Except.ok 1)
    ∧ (digitQuotient scenarioLog wideWrapScenarioParams.qKS wideWrapScenarioParams.baseKS = 60
      ∧ wideWrapScenarioParams.qKS ≤ wideWrapScenarioParams.baseKS ^ 60
      ∧ Decrypt wideWrapScenarioParams { s := { data := [0], modulus := 3 * 2 ^ 58 } }
          (KeySwitch wideWrapScenarioParams scenarioLog
            (KeySwitchGen wideWrapScenarioParams scenarioLog
              { s := { data := [0], modulus := 3 * 2 ^ 58 } }
              (minusOnesKey 22 (3 * 2 ^ 58)) (fun _ _ _ => [0]))
            { a := { data := List.replicate 22 1, modulus := 3 * 2 ^ 58 }, b := 0 }) 4
        = Except.ok 0
      ∧ Decrypt wideWrapScenarioParams (minusOnesKey 22 (3 * 2 ^ 58))
          { a := { data := List.replicate 22 1, modulus := 3 * 2 ^ 58 }, b := 0 } 4
        = Except.ok 1) := by
  refine ⟨⟨by decide, by decide, by rfl, by decide, by rfl, by rfl⟩,
    ⟨by decide, by decide, wideWrapScenario_switch, by rfl⟩⟩

/-- C6 (amended). For `0 < qKS <= 2^64`, `baseKS > 0`, `sk` of length `n`, `skN`
of length `N`, the key `K = KeySwitchGen(params, sk, skN)` for any sampled `A`
entries of length `n` reduced mod `qKS`, and every ciphertext `(a, b)` of
dimension `N` under `qKS` with reduced coordinates: `KeySwitch(params, K, (a, b))`
has dimension `n`; if the digit count that the code computes in double
precision, `d = ceil(log(qKS) / log(baseKS))`, is below `2^32`, so that the casts
to `uint32_t` in `KeySwitchGen` and to `size_t` in `KeySwitch` keep it, and
satisfies `qKS <= baseKS^d`, its output `(a', b')` satisfies
`b' - <a', sk> = b - <a, skN> (mod qKS)`; and if moreover the running sums of
`Decrypt` stay within the 64-bit word, `n * qKS <= 2^64` and `N * qKS <= 2^64`,
or `qKS` divides `2^64`, then
`Decrypt(sk, KeySwitch(K, ct), p) = Decrypt(skN, ct, p)` for every `p`. -/
theorem C6_keyswitch_preserves_phase (params : LWECryptoParams) (log : Double → Double)
    (sk skN : LWEPrivateKeyImpl) (aSample : Nat → Nat → Nat → List Nat)
    (ct : LWECiphertextImpl) (p : Nat)
    (hq : 0 < params.qKS) (hbase : 0 < params.baseKS)
    (hsk : sk.s.GetLength = params.n) (hskN : skN.s.GetLength = params.N)
    (hA : ∀ i j k, (aSample i j k).length = params.n ∧ ∀ x ∈ aSample i j k, x < params.qKS)
    (hmod : ct.GetModulus = params.qKS) (hlen : ct.GetLength = params.N)
    (hcta : ∀ x ∈ ct.a.data, x < params.qKS) (hctb : ct.b < params.qKS)
    (hword : params.qKS ≤ 2 ^ NATIVEINT) :
    (KeySwitch params log (KeySwitchGen params log sk skN aSample) ct).GetLength = params.n
    ∧ (digitQuotient log params.qKS params.baseKS < 2 ^ 32 →
      params.qKS ≤ params.baseKS ^ digitQuotient log params.qKS params.baseKS →
      Int.ModEq (params.qKS : Int)
        (((KeySwitch params log (KeySwitchGen params log sk skN aSample) ct).b : Int)
          - (innerProduct
              (KeySwitch params log (KeySwitchGen params log sk skN aSample) ct).a.data
              (sk.s.SwitchModulus params.qKS).data : Nat))
        ((ct.b : Int) - (innerProduct ct.a.data (skN.s.SwitchModulus params.qKS).data : Nat))
      ∧ ((params.n * params.qKS ≤ 2 ^ NATIVEINT ∨ 2 ^ NATIVEINT % params.qKS = 0) →
        (params.N * params.qKS ≤ 2 ^ NATIVEINT ∨ 2 ^ NATIVEINT % params.qKS = 0) →
        Decrypt params sk (KeySwitch params log (KeySwitchGen params log sk skN aSample) ct) p
          = Decrypt params skN ct p)) := by
  refine ⟨KeySwitchBody_length params _ _ ct, fun hfit hd => ?_⟩
  have h := KeySwitch_KeySwitchGen_spec params (digitQuotient log params.qKS params.baseKS)
    sk skN aSample ct p hq hbase hd hsk hskN hA hmod hlen hcta hctb hword
  rw [KeySwitch_KeySwitchGen_eq_body params log sk skN aSample ct hfit]
  exact ⟨h.2.1, h.2.2⟩

/-- C6 (amended) at the small key-switching scenario, `n = N = 2`, `qKS = 8`,
`baseKS = 2` (digit count `3`, `8 <= 2^3`), the keys `[1, -1]` and `[-1, 1]`, the
ciphertext `([3, 5], 6)` and `p = 4`. -/
theorem C6_keyswitch_preserves_phase_witness :
    (KeySwitch ksScenarioParams scenarioLog
        (KeySwitchGen ksScenarioParams scenarioLog ksScenarioKey ksScenarioKeyN
          ksScenarioSample)
        { a := { data := [3, 5], modulus := 8 }, b := 6 }).GetLength = 2
    ∧ Decrypt ksScenarioParams ksScenarioKey
        (KeySwitch ksScenarioParams scenarioLog
          (KeySwitchGen ksScenarioParams scenarioLog ksScenarioKey ksScenarioKeyN
            ksScenarioSample)
          { a := { data := [3, 5], modulus := 8 }, b := 6 }) 4
      = Decrypt ksScenarioParams ksScenarioKeyN
          { a := { data := [3, 5], modulus := 8 }, b := 6 } 4 :=
  have h := C6_keyswitch_preserves_phase ksScenarioParams scenarioLog ksScenarioKey
    ksScenarioKeyN ksScenarioSample { a := { data := [3, 5], modulus := 8 }, b := 6 } 4
    (by decide) (by decide) rfl rfl ksScenarioSample_ok rfl rfl (by decide) (by decide)
    (by decide)
  ⟨h.1, (h.2 (by decide) (by decide)).2 (Or.inl (by decide)) (Or.inl (by decide))⟩

/-- C29 (counterexample). With `qKS = 2^49 + 1`, `baseKS = 2`, `n = N = 1`, the
first party's secrets `sk1 = [0]`, `skN1 = [1]`, the second party's `sk2 = [0]`,
`skN2 = [0]`, sampled vectors `[0]` and the reduced ciphertext `([2^49], 0)`: the
digit count computed in double precision is `49` and `2^49 < qKS`; `KeySwitch`
with `K2` returns `([0], 0)`, whose phase under `sk1 + sk2` is `0`, while the
phase of the input under `skN1 + skN2` is `-2^49 = 1 (mod qKS)`.  Moreover the
factor `j * digitsKS[k]` is a product in the 64-bit word: with `qKS = 3 * 2^58`,
`baseKS = 2^25` (three digits), `n = N = 1`, `sk1 = sk2 = [0]`, `skN1 = [1]`,
`skN2 = [0]` and sampled vectors `[0]`, the entry `B[0][2^14 + 1][2]` of `K2` is
`2^50`, the wrapped `(2^14 + 1) * 2^50`, and not
`((2^14 + 1) * baseKS^2 * (skN1[0] + skN2[0]) + <A, sk1 + sk2>) mod qKS`, which is
`2^58 + 2^50`. -/
theorem C29_extended_key_loses_phase_counterexample :
    digitQuotient scenarioLog narrowScenarioParams.qKS narrowScenarioParams.baseKS = 49
    ∧ ¬ narrowScenarioParams.qKS ≤ narrowScenarioParams.baseKS ^ 49
    ∧ KeySwitch narrowScenarioParams scenarioLog
        (MultiPartyKeySwitchGen narrowScenarioParams scenarioLog
          { s := { data := [0], modulus := 2 ^ 49 + 1 } }
          { s := { data := [0], modulus := 2 ^ 49 + 1 } }
          (KeySwitchGen narrowScenarioParams scenarioLog
            { s := { data := [0], modulus := 2 ^ 49 + 1 } }
            { s := { data := [1], modulus := 2 ^ 49 + 1 } } (fun _ _ _ => [0])))
        { a := { data := [2 ^ 49], modulus := 2 ^ 49 + 1 }, b := 0 }
      = { a := { data := [0], modulus := 2 ^ 49 + 1 }, b := 0 }
    ∧ ¬ Int.ModEq ((2 ^ 49 + 1 : Nat) : Int)
        (((0 : Nat) : Int)
          - (innerProduct [0]
              (List.zipWith (· + ·)
                (NativeVector.SwitchModulus { data := [0], modulus := 2 ^ 49 + 1 }
                  (2 ^ 49 + 1)).data
                (NativeVector.SwitchModulus { data := [0], modulus := 2 ^ 49 + 1 }
                  (2 ^ 49 + 1)).data) : Nat))
        (((0 : Nat) : Int)
          - (innerProduct [2 ^ 49]
              (List.zipWith (· + ·)
                (NativeVector.SwitchModulus { data := [1], modulus := 2 ^ 49 + 1 }
                  (2 ^ 49 + 1)).data
                (NativeVector.SwitchModulus { data := [0], modulus := 2 ^ 49 + 1 }
                  (2 ^ 49 + 1)).data) : Nat))
    ∧ digitCount scenarioLog gadgetScenarioParams.qKS gadgetScenarioParams.baseKS = 3
    ∧ (MultiPartyKeySwitchGen gadgetScenarioParams scenarioLog
          { s := { data := [0], modulus := 3 * 2 ^ 58 } }
          { s := { data := [0], modulus := 3 * 2 ^ 58 } }
          (KeySwitchGen gadgetScenarioParams scenarioLog
            { s := { data := [0], modulus := 3 * 2 ^ 58 } }
            { s := { data := [1], modulus := 3 * 2 ^ 58 } }
            (fun _ _ _ => [0]))).atB 0 (2 ^ 14 + 1) 2 = 2 ^ 50
    ∧ ((2 ^ 14 + 1) * (2 ^ 25) ^ 2 * (1 + 0)
          + innerProduct [0] (List.zipWith (· + ·) [0] [0])) % (3 * 2 ^ 58)
        = 2 ^ 58 + 2 ^ 50 := by
  refine ⟨by decide, by decide, by rfl, by decide, by decide, ?_, by decide⟩
  exact (MultiPartyKeySwitchGen_KeySwitchGen_atB_word gadgetScenarioParams
    (digitCount scenarioLog gadgetScenarioParams.qKS gadgetScenarioParams.baseKS)
    { s := { data := [0], modulus := 3 * 2 ^ 58 } }
    { s := { data := [1], modulus := 3 * 2 ^ 58 } }
    { s := { data := [0], modulus := 3 * 2 ^ 58 } }
    { s := { data := [0], modulus := 3 * 2 ^ 58 } }
    (fun _ _ _ => [0]) (by decide) rfl rfl 0 (2 ^ 14 + 1) 2 rfl
    (by decide) (by decide) (by decide)).trans (by decide)

/-- C29 (amended). An extended switching key is a valid switching key for the
summed secrets (default build): with `K1 = KeySwitchGen(params, sk1, skN1)` and
`K2 = MultiPartyKeySwitchGen(params, sk2, skN2, K1)`, for `0 < qKS <= 2^64`,
`baseKS > 0`, `sk1`, `sk2` of length `n`, `skN1`, `skN2` of length `N`, all
taken mod `qKS`, and `digitCount` the value that the code computes in double
precision, `(uint32_t)ceil(log(qKS) / log(baseKS))`: `K2` has the `A` entries of
`K1`; every `B[i][j][k]` of `K2` with `k < digitCount` is
`(((j * baseKS^k) mod 2^64) * (skN1[i] + skN2[i]) + <A[i][j][k], sk1 + sk2>) mod qKS`,
which is `(j * baseKS^k * (skN1[i] + skN2[i]) + <A[i][j][k], sk1 + sk2>) mod qKS`
when the factor stays within the 64-bit word, `j * baseKS^k < 2^64`, or `qKS`
divides `2^64`; `KeySwitch` with `K2` maps a reduced ciphertext `(a, b)` of
dimension `N` to `(a', b')` of dimension `n`; and if the digit count
`d = ceil(log(qKS) / log(baseKS))` is below `2^32`, so that the casts to
`uint32_t` and to `size_t` in `KeySwitch` keep it, and `qKS <= baseKS^d`, then
`b' - <a', sk1 + sk2> = b - <a, skN1 + skN2> (mod qKS)`. -/
theorem C29_extended_key_switches_summed_secrets (params : LWECryptoParams)
    (log : Double → Double)
    (sk1 skN1 sk2 skN2 : LWEPrivateKeyImpl) (aSample : Nat → Nat → Nat → List Nat)
    (ct : LWECiphertextImpl)
    (hq : 0 < params.qKS) (hbase : 0 < params.baseKS)
    (hsk1 : sk1.s.GetLength = params.n) (hsk2 : sk2.s.GetLength = params.n)
    (hskN1 : skN1.s.GetLength = params.N) (hskN2 : skN2.s.GetLength = params.N)
    (hA : ∀ i j k, (aSample i j k).length = params.n ∧ ∀ x ∈ aSample i j k, x < params.qKS)
    (hmod : ct.GetModulus = params.qKS) (hlen : ct.GetLength = params.N)
    (hcta : ∀ x ∈ ct.a.data, x < params.qKS) (hctb : ct.b < params.qKS)
    (hword : params.qKS ≤ 2 ^ NATIVEINT) :
    (MultiPartyKeySwitchGen params log sk2 skN2 (KeySwitchGen params log sk1 skN1 aSample)).A
      = (KeySwitchGen params log sk1 skN1 aSample).A
    ∧ (∀ i j k, i < params.N → j < params.baseKS →
        k < digitCount log params.qKS params.baseKS →
        (MultiPartyKeySwitchGen params log sk2 skN2
            (KeySwitchGen params log sk1 skN1 aSample)).atB i j k
          = ((j * params.baseKS ^ k) % 2 ^ NATIVEINT
                * ((skN1.s.SwitchModulus params.qKS).at i
                    + (skN2.s.SwitchModulus params.qKS).at i)
              + innerProduct
                  ((MultiPartyKeySwitchGen params log sk2 skN2
                    (KeySwitchGen params log sk1 skN1 aSample)).atA i j k).data
                  (List.zipWith (· + ·) (sk1.s.SwitchModulus params.qKS).data
                    (sk2.s.SwitchModulus params.qKS).data)) % params.qKS
        ∧ ((j * params.baseKS ^ k < 2 ^ NATIVEINT ∨ 2 ^ NATIVEINT % params.qKS = 0) →
          (MultiPartyKeySwitchGen params log sk2 skN2
              (KeySwitchGen params log sk1 skN1 aSample)).atB i j k
            = (j * params.baseKS ^ k
                  * ((skN1.s.SwitchModulus params.qKS).at i
                      + (skN2.s.SwitchModulus params.qKS).at i)
                + innerProduct
                    ((MultiPartyKeySwitchGen params log sk2 skN2
                      (KeySwitchGen params log sk1 skN1 aSample)).atA i j k).data
                    (List.zipWith (· + ·) (sk1.s.SwitchModulus params.qKS).data
                      (sk2.s.SwitchModulus params.qKS).data)) % params.qKS))
    ∧ (KeySwitch params log
          (MultiPartyKeySwitchGen params log sk2 skN2
            (KeySwitchGen params log sk1 skN1 aSample)) ct).GetLength = params.n
    ∧ (digitQuotient log params.qKS params.baseKS < 2 ^ 32 →
      params.qKS ≤ params.baseKS ^ digitQuotient log params.qKS params.baseKS →
      Int.ModEq (params.qKS : Int)
        (((KeySwitch params log
            (MultiPartyKeySwitchGen params log sk2 skN2
              (KeySwitchGen params log sk1 skN1 aSample)) ct).b : Int)
          - (innerProduct
              (KeySwitch params log
                (MultiPartyKeySwitchGen params log sk2 skN2
                  (KeySwitchGen params log sk1 skN1 aSample)) ct).a.data
              (List.zipWith (· + ·) (sk1.s.SwitchModulus params.qKS).data
                (sk2.s.SwitchModulus params.qKS).data) : Nat))
        ((ct.b : Int)
          - (innerProduct ct.a.data
              (List.zipWith (· + ·) (skN1.s.SwitchModulus params.qKS).data
                (skN2.s.SwitchModulus params.qKS).data) : Nat))) := by
  have h := MultiPartyKeySwitchGenBody_spec params (digitCount log params.qKS params.baseKS)
    sk1 skN1 sk2 skN2 aSample ct hq hbase hsk1 hsk2 hskN1 hskN2 hA hmod hlen hcta hctb hword
  refine ⟨h.1, h.2.1, KeySwitchBody_length params _ _ ct, fun hfit hd => ?_⟩
  have h2 := MultiPartyKeySwitchGenBody_spec params
    (digitQuotient log params.qKS params.baseKS)
    sk1 skN1 sk2 skN2 aSample ct hq hbase hsk1 hsk2 hskN1 hskN2 hA hmod hlen hcta hctb hword
  rw [KeySwitch_MultiPartyKeySwitchGen_eq_body params log sk1 skN1 sk2 skN2 aSample ct hfit]
  exact h2.2.2.2 hd

/-- C29 (amended) at `n = N = 2`, `qKS = 8`, `baseKS = 2` (digit count `3`,
`8 <= 2^3`), the first party's secrets `[1, -1]` and `[-1, 1]`, the second
party's `[-1, -1]` and `[1, -1]`, and the ciphertext `([3, 5], 6)`. -/
theorem C29_extended_key_switches_summed_secrets_witness :
    (MultiPartyKeySwitchGen ksScenarioParams scenarioLog pkScenarioKey2 pkScenarioKey
        (KeySwitchGen ksScenarioParams scenarioLog ksScenarioKey ksScenarioKeyN
          ksScenarioSample)).A
      = (KeySwitchGen ksScenarioParams scenarioLog ksScenarioKey ksScenarioKeyN
          ksScenarioSample).A
    ∧ (KeySwitch ksScenarioParams scenarioLog
          (MultiPartyKeySwitchGen ksScenarioParams scenarioLog pkScenarioKey2 pkScenarioKey
            (KeySwitchGen ksScenarioParams scenarioLog ksScenarioKey ksScenarioKeyN
              ksScenarioSample))
          pkScenarioCt).GetLength = 2
    ∧ Int.ModEq ((8 : Nat) : Int)
        (((KeySwitch ksScenarioParams scenarioLog
            (MultiPartyKeySwitchGen ksScenarioParams scenarioLog pkScenarioKey2 pkScenarioKey
              (KeySwitchGen ksScenarioParams scenarioLog ksScenarioKey ksScenarioKeyN
                ksScenarioSample))
            pkScenarioCt).b : Int)
          - (innerProduct
              (KeySwitch ksScenarioParams scenarioLog
                (MultiPartyKeySwitchGen ksScenarioParams scenarioLog pkScenarioKey2
                  pkScenarioKey
                  (KeySwitchGen ksScenarioParams scenarioLog ksScenarioKey ksScenarioKeyN
                    ksScenarioSample))
                pkScenarioCt).a.data
              (List.zipWith (· + ·) (ksScenarioKey.s.SwitchModulus 8).data
                (pkScenarioKey2.s.SwitchModulus 8).data) : Nat))
        ((pkScenarioCt.b : Int)
          - (innerProduct pkScenarioCt.a.data
              (List.zipWith (· + ·) (ksScenarioKeyN.s.SwitchModulus 8).data
                (pkScenarioKey.s.SwitchModulus 8).data) : Nat)) :=
  have h := C29_extended_key_switches_summed_secrets ksScenarioParams scenarioLog
    ksScenarioKey ksScenarioKeyN pkScenarioKey2 pkScenarioKey ksScenarioSample pkScenarioCt
    (by decide) (by decide) rfl rfl rfl rfl ksScenarioSample_ok rfl rfl (by decide)
    (by decide) (by decide)
  ⟨h.1, h.2.2.1, h.2.2.2 (by decide) (by decide)⟩

end lbcrypto
